import Mathlib

/-!
Verification model of the xcodeprojer toolkit.

The repository ships `xcodeprojer` as a single Python module together with
its tests (`tests/test_xcodeprojer.py`, `tests/check_xcode_behaviour.py`),
example scripts and packaging metadata.  The module `xcodeprojer.py` itself
is not part of the checked-out sources here, so every definition below is
modelled from the specification (spec.md) of that module, faithful to its
wording, and checked against the behaviours the tests pin down.

The model covers:
  * the untyped plist value tree (spec section 3),
  * the ASCII plist tokenizer with escape decoding (spec sections 4.1, 4.2),
  * the classic recursive-descent parser with its recursion bound (4.2),
  * the fast parser as token rewriting into strict JSON plus a JSON
    reader (4.3),
  * the deterministic ASCII plist unparser (4.7),
  * JSON and XML plist writers and readers (4.3, 4.4),
  * format autodetection and the parse/unparse entry points (4.5, 6),
  * the gid field decomposition and the gid generator (3, 4.8),
  * the command line convert behaviour (6).
-/

set_option maxRecDepth 100000

namespace Xcodeprojer

/-- Modelled from the spec: characters allowed in an unquoted ASCII plist
token (spec 4.1): ASCII letters, digits, underscore, dollar, slash, colon,
dot and hyphen.  Everything else, in particular whitespace and characters
at or above 0x80, forces quoting. -/
def isUnquotedChar (c : Char) : Bool :=
  ('A' ≤ c && c ≤ 'Z') || ('a' ≤ c && c ≤ 'z') || ('0' ≤ c && c ≤ '9') ||
    c == '_' || c == '$' || c == '/' || c == ':' || c == '.' || c == '-'

/-- Whitespace skipped by the tokenizer (spec 4.2). -/
def isWs (c : Char) : Bool :=
  c == ' ' || c == '\t' || c == '\n' || c == '\r'

/-- Value of a hexadecimal digit, upper or lower case. -/
def hexDigitVal (c : Char) : Option Nat :=
  if '0' ≤ c && c ≤ '9' then some (c.toNat - 48)
  else if 'A' ≤ c && c ≤ 'F' then some (c.toNat - 55)
  else if 'a' ≤ c && c ≤ 'f' then some (c.toNat - 87)
  else none

/-- Uppercase hexadecimal digit for a value below 16. -/
def hexDigitChar (n : Nat) : Char :=
  if n < 10 then Char.ofNat (48 + n) else Char.ofNat (55 + n % 16)

/-- Two uppercase hex digits of a byte value. -/
def hex2 (n : Nat) : List Char :=
  [hexDigitChar ((n / 16) % 16), hexDigitChar (n % 16)]

/-- Four uppercase hex digits of a 16-bit value. -/
def hex4 (n : Nat) : List Char :=
  hex2 ((n / 256) % 256) ++ hex2 (n % 256)

/-- Eight uppercase hex digits of a 32-bit value. -/
def hex8 (n : Nat) : List Char :=
  hex4 ((n / 65536) % 65536) ++ hex4 (n % 65536)

/-- Error kinds of the core (spec 7): parsers deliver one of these through
the parse info instead of raising. -/
inductive PErr where
  | unexpectedByte
  | missingTerminator
  | invalidEscape
  | recursionLimit
  | outOfInput
  | trailingTokens
  | badToken
  | jsonFailed
  | xmlFailed
  | unknownFormat
  | fuelOut
  deriving DecidableEq, Repr

/-- Tokens of the ASCII plist dialect (spec 4.2): structural punctuation,
strings (quoted and unquoted forms produce the same token) and data blobs. -/
inductive Tok where
  | lbrace
  | rbrace
  | lparen
  | rparen
  | eqTok
  | semi
  | comma
  | str (s : List Char)
  | blob (bs : List Nat)
  deriving DecidableEq, Repr

/-- Head test used by the tokenizer lookahead. -/
def headIs (l : List Char) (c : Char) : Bool :=
  match l with
  | d :: _ => d == c
  | [] => false

/-- Octal digit test for the three-digit octal escapes (spec 4.1). -/
def isOctal (c : Char) : Bool :=
  '0' ≤ c && c ≤ '7'

/-- Modelled from the spec: decode the body of a quoted string
(spec 4.1).  Recognises the named escapes, exactly-three-digit octal
escapes, and four-hex-digit unicode escapes with surrogate pairs combined
into one code point; any other escaped character is passed through.
Returns the decoded characters and the input following the closing
double quote. -/
def lexStr : Nat → List Char → Except PErr (List Char × List Char)
  | 0, _ => .error .fuelOut
  | _ + 1, [] => .error .missingTerminator
  | f + 1, c :: cs =>
    if c == '"' then
      .ok ([], cs)
    else if c == '\\' then
      match cs with
      | [] => .error .missingTerminator
      | e :: cs2 =>
        if e == '\\' then (fun r => ('\\' :: r.1, r.2)) <$> lexStr f cs2
        else if e == '"' then (fun r => ('"' :: r.1, r.2)) <$> lexStr f cs2
        else if e == 'n' then (fun r => ('\n' :: r.1, r.2)) <$> lexStr f cs2
        else if e == 'r' then (fun r => ('\r' :: r.1, r.2)) <$> lexStr f cs2
        else if e == 't' then (fun r => ('\t' :: r.1, r.2)) <$> lexStr f cs2
        else if e == 'a' then (fun r => (Char.ofNat 7 :: r.1, r.2)) <$> lexStr f cs2
        else if e == 'b' then (fun r => (Char.ofNat 8 :: r.1, r.2)) <$> lexStr f cs2
        else if e == 'v' then (fun r => (Char.ofNat 11 :: r.1, r.2)) <$> lexStr f cs2
        else if e == 'f' then (fun r => (Char.ofNat 12 :: r.1, r.2)) <$> lexStr f cs2
        else if e == 'U' then
          match cs2 with
          | h1 :: h2 :: h3 :: h4 :: cs3 =>
            match hexDigitVal h1, hexDigitVal h2, hexDigitVal h3, hexDigitVal h4 with
            | some a, some b, some c1, some d1 =>
              let n := ((a * 16 + b) * 16 + c1) * 16 + d1
              if 0xD800 ≤ n && n < 0xDC00 then
                match cs3 with
                | '\\' :: 'U' :: l1 :: l2 :: l3 :: l4 :: cs4 =>
                  match hexDigitVal l1, hexDigitVal l2, hexDigitVal l3, hexDigitVal l4 with
                  | some a2, some b2, some c2, some d2 =>
                    let m := ((a2 * 16 + b2) * 16 + c2) * 16 + d2
                    if 0xDC00 ≤ m && m < 0xE000 then
                      (fun r =>
                        (Char.ofNat (0x10000 + (n - 0xD800) * 0x400 + (m - 0xDC00)) :: r.1,
                          r.2)) <$> lexStr f cs4
                    else .error .invalidEscape
                  | _, _, _, _ => .error .invalidEscape
                | _ => .error .invalidEscape
              else if 0xDC00 ≤ n && n < 0xE000 then .error .invalidEscape
              else (fun r => (Char.ofNat n :: r.1, r.2)) <$> lexStr f cs3
            | _, _, _, _ => .error .invalidEscape
          | _ => .error .invalidEscape
        else if isOctal e then
          match cs2 with
          | d2 :: d3 :: cs3 =>
            if isOctal d2 && isOctal d3 then
              (fun r =>
                (Char.ofNat ((e.toNat - 48) * 64 + (d2.toNat - 48) * 8 + (d3.toNat - 48)) :: r.1,
                  r.2)) <$> lexStr f cs3
            else .error .invalidEscape
          | _ => .error .invalidEscape
        else (fun r => (e :: r.1, r.2)) <$> lexStr f cs2
    else (fun r => (c :: r.1, r.2)) <$> lexStr f cs

/-- Skip the rest of a block comment, past the closing star-slash. -/
def skipBlock : Nat → List Char → Except PErr (List Char)
  | 0, _ => .error .fuelOut
  | _ + 1, [] => .error .missingTerminator
  | f + 1, c :: cs =>
    if c == '*' && headIs cs '/' then .ok (cs.drop 1)
    else skipBlock f cs

/-- Pair up a list of hex nibble values into byte values. -/
def nibblePairs : List Nat → List Nat
  | a :: b :: r => (a * 16 + b) :: nibblePairs r
  | _ => []

/-- Modelled from the spec: read a data blob after the opening angle
bracket (spec 4.2 grammar rule for data): hex digits with interior
whitespace until the closing angle bracket; a missing terminator is an
error. -/
def lexData : Nat → List Char → List Nat → Except PErr (List Nat × List Char)
  | 0, _, _ => .error .fuelOut
  | _ + 1, [], _ => .error .missingTerminator
  | f + 1, c :: cs, acc =>
    if c == '>' then
      if acc.length % 2 == 0 then .ok (nibblePairs acc.reverse, cs) else .error .badToken
    else if isWs c then lexData f cs acc
    else
      match hexDigitVal c with
      | some n => lexData f cs (n :: acc)
      | none => .error .unexpectedByte

/-- Modelled from the spec: the ASCII plist tokenizer (spec 4.2, 4.9).
Skips whitespace, line comments and block comments, produces structural
tokens, quoted and unquoted string tokens and data tokens, and rejects any
other byte (in particular any character at or above 0x80 outside a quoted
string) with an unexpected-byte error. -/
def lexGo : Nat → List Char → Except PErr (List Tok)
  | 0, _ => .error .fuelOut
  | _ + 1, [] => .ok []
  | f + 1, c :: cs =>
    if isWs c then lexGo f cs
    else if c == '/' && headIs cs '/' then
      lexGo f (cs.dropWhile (fun d => !(d == '\n')))
    else if c == '/' && headIs cs '*' then
      match skipBlock (cs.length + 1) (cs.drop 1) with
      | .ok rest => lexGo f rest
      | .error e => .error e
    else if c == '"' then
      match lexStr (cs.length + 1) cs with
      | .ok (s, rest) => (fun ts => Tok.str s :: ts) <$> lexGo f rest
      | .error e => .error e
    else if c == '<' then
      match lexData (cs.length + 1) cs [] with
      | .ok (bs, rest) => (fun ts => Tok.blob bs :: ts) <$> lexGo f rest
      | .error e => .error e
    else if c == Char.ofNat 123 then (fun ts => Tok.lbrace :: ts) <$> lexGo f cs
    else if c == Char.ofNat 125 then (fun ts => Tok.rbrace :: ts) <$> lexGo f cs
    else if c == '(' then (fun ts => Tok.lparen :: ts) <$> lexGo f cs
    else if c == ')' then (fun ts => Tok.rparen :: ts) <$> lexGo f cs
    else if c == '=' then (fun ts => Tok.eqTok :: ts) <$> lexGo f cs
    else if c == ';' then (fun ts => Tok.semi :: ts) <$> lexGo f cs
    else if c == ',' then (fun ts => Tok.comma :: ts) <$> lexGo f cs
    else if isUnquotedChar c then
      (fun ts => Tok.str (c :: cs.takeWhile isUnquotedChar) :: ts) <$>
        lexGo f (cs.dropWhile isUnquotedChar)
    else .error .unexpectedByte

/-- Tokenize a whole input. -/
def tokenize (cs : List Char) : Except PErr (List Tok) :=
  lexGo (cs.length + 1) cs

mutual
/-- Value tree of the plist family (spec 3): strings, data blobs, ordered
sequences and ordered mappings from string keys to values.  Sequences and
mappings are given by the mutually inductive spine types below. -/
inductive Value where
  | str (s : List Char)
  | data (bs : List Nat)
  | arr (es : Elems)
  | dict (es : Entries)
  deriving DecidableEq, Repr

/-- Ordered sequence of values (spec 3, the Sequence variant). -/
inductive Elems where
  | nil
  | cons (v : Value) (tl : Elems)
  deriving DecidableEq, Repr

/-- Ordered mapping given as an insertion-ordered list of key-value pairs
(spec 3, the Mapping variant; iteration order is insertion order). -/
inductive Entries where
  | nil
  | cons (k : List Char) (v : Value) (tl : Entries)
  deriving DecidableEq, Repr
end

mutual
/-- Nesting height of a value; containers add one level. -/
def heightV : Value → Nat
  | .str _ => 0
  | .data _ => 0
  | .arr es => 1 + heightEl es
  | .dict es => 1 + heightEn es

/-- Maximal nesting height over the elements of a sequence. -/
def heightEl : Elems → Nat
  | .nil => 0
  | .cons v tl => max (heightV v) (heightEl tl)

/-- Maximal nesting height over the values of a mapping. -/
def heightEn : Entries → Nat
  | .nil => 0
  | .cons _ v tl => max (heightV v) (heightEn tl)
end

/-- Modelled from the spec: the bound on parser recursion depth
(spec 4.2, 7).  The spec fixes no particular number, but 200 nested
containers must exceed it while canonical project files stay well below
it; the model uses 100. -/
def maxdepth : Nat := 100

/-- Parsing modes of the single-step recursive-descent function: a value,
the remainder of a dictionary after its opening brace, or the remainder of
an array after its opening parenthesis. -/
inductive PMode where
  | value
  | entries
  | elems

/-- Modelled from the spec: the classic recursive-descent parser over the
token stream (spec 4.2).  Dictionary entries require the terminating
semicolon; array elements are separated by commas and the trailing comma
before the closing parenthesis may be omitted; nesting beyond the
recursion bound is reported as a recursion-limit error.  The first
argument is computation fuel, the second the current nesting depth. -/
def parseStep : Nat → Nat → PMode → List Tok → Except PErr (Value × List Tok)
  | 0, _, _, _ => .error .fuelOut
  | f + 1, d, .value, ts =>
    match ts with
    | [] => .error .outOfInput
    | Tok.str s :: ts1 => .ok (.str s, ts1)
    | Tok.blob bs :: ts1 => .ok (.data bs, ts1)
    | Tok.lbrace :: ts1 =>
      if maxdepth ≤ d then .error .recursionLimit
      else parseStep f (d + 1) .entries ts1
    | Tok.lparen :: ts1 =>
      if maxdepth ≤ d then .error .recursionLimit
      else parseStep f (d + 1) .elems ts1
    | _ => .error .badToken
  | f + 1, d, .entries, ts =>
    match ts with
    | Tok.rbrace :: ts1 => .ok (.dict .nil, ts1)
    | Tok.str k :: Tok.eqTok :: ts1 =>
      match parseStep f d .value ts1 with
      | .error e => .error e
      | .ok (v, ts2) =>
        match ts2 with
        | Tok.semi :: ts3 =>
          match parseStep f d .entries ts3 with
          | .error e => .error e
          | .ok (.dict es, ts4) => .ok (.dict (.cons k v es), ts4)
          | .ok _ => .error .badToken
        | _ => .error .missingTerminator
    | Tok.lbrace :: _ =>
      match parseStep f d .value ts with
      | .error e => .error e
      | .ok _ => .error .badToken
    | Tok.lparen :: _ =>
      match parseStep f d .value ts with
      | .error e => .error e
      | .ok _ => .error .badToken
    | _ => .error .badToken
  | f + 1, d, .elems, ts =>
    match ts with
    | Tok.rparen :: ts1 => .ok (.arr .nil, ts1)
    | _ =>
      match parseStep f d .value ts with
      | .error e => .error e
      | .ok (v, ts1) =>
        match ts1 with
        | Tok.rparen :: ts2 => .ok (.arr (.cons v .nil), ts2)
        | Tok.comma :: ts2 =>
          match parseStep f d .elems ts2 with
          | .error e => .error e
          | .ok (.arr es, ts3) => .ok (.arr (.cons v es), ts3)
          | .ok _ => .error .badToken
        | _ => .error .badToken

/-- Modelled from the spec: the classic parser entry point (spec 4.2):
tokenize, parse one root value (an optional UTF-8 header comment is
skipped by the tokenizer) and require that no tokens remain. -/
def classicParse (cs : List Char) : Except PErr Value :=
  match tokenize cs with
  | .error e => .error e
  | .ok ts =>
    match parseStep (2 * ts.length + 8) 0 .value ts with
    | .error e => .error e
    | .ok (v, []) => .ok v
    | .ok (_, _ :: _) => .error .trailingTokens

/-- Opening brace character. -/
def lbraceC : Char := Char.ofNat 123

/-- Closing brace character. -/
def rbraceC : Char := Char.ofNat 125

/-- Octal digit character for a value below 8. -/
def octDigit (n : Nat) : Char := Char.ofNat (48 + n % 8)

/-- Modelled from the spec: escape one character for quoted output
(spec 4.1): backslash, double quote and the named control escapes; other
control characters as three-digit octal; printable ASCII verbatim;
non-ASCII as four-hex-digit unicode escapes, with surrogate pairs for
code points at or above 0x10000. -/
def escChar (c : Char) : List Char :=
  if c == '"' then ['\\', '"']
  else if c == '\\' then ['\\', '\\']
  else if c == '\n' then ['\\', 'n']
  else if c == '\r' then ['\\', 'r']
  else if c == '\t' then ['\\', 't']
  else if c.toNat == 7 then ['\\', 'a']
  else if c.toNat == 8 then ['\\', 'b']
  else if c.toNat == 11 then ['\\', 'v']
  else if c.toNat == 12 then ['\\', 'f']
  else if c.toNat < 32 || c.toNat == 127 then
    ['\\', octDigit (c.toNat / 64), octDigit (c.toNat / 8), octDigit c.toNat]
  else if c.toNat < 127 then [c]
  else if c.toNat < 0x10000 then '\\' :: 'U' :: hex4 c.toNat
  else
    let n := c.toNat - 0x10000
    ('\\' :: 'U' :: hex4 (0xD800 + n / 0x400)) ++ ('\\' :: 'U' :: hex4 (0xDC00 + n % 0x400))

/-- Escape a whole string for quoted output. -/
def escAll : List Char → List Char
  | [] => []
  | c :: r => escChar c ++ escAll r

/-- Modelled from the spec: quoting on output (spec 4.7): a string is
written unquoted exactly when it is non-empty and consists solely of
unquoted-string characters; otherwise it is double-quoted with escapes. -/
def strText (s : List Char) : List Char :=
  if s ≠ [] && s.all isUnquotedChar then s else '"' :: (escAll s ++ ['"'])

/-- Hex digits of a byte list, two per byte. -/
def hexBytes : List Nat → List Char
  | [] => []
  | b :: r => hex2 b ++ hexBytes r

/-- Group hex digits in fours separated by single spaces (spec 4.7 data
rule). -/
def groupHex : List Char → List Char
  | a :: b :: c :: d :: rest =>
    match rest with
    | [] => [a, b, c, d]
    | _ => a :: b :: c :: d :: ' ' :: groupHex rest
  | l => l

/-- Data blob output (spec 4.7): uppercase hex bytes in groups of four
digits between angle brackets. -/
def emitData (bs : List Nat) : List Char :=
  '<' :: (groupHex (hexBytes bs) ++ ['>'])

/-- Indentation: one tab per nesting level (spec 4.7). -/
def tabs (d : Nat) : List Char := List.replicate d '\t'

/-- Synthesized trailing comment for one emission site (spec 4.6, 4.7):
where the comment synthesizer yields a comment for the emitted string, the
unparser appends it as a block comment after one space. -/
def cmtOf (rho : List Char → Option (List Char)) (s : List Char) : List Char :=
  match rho s with
  | some c => ' ' :: '/' :: '*' :: ' ' :: (c ++ [' ', '*', '/'])
  | none => []

mutual
/-- Modelled from the spec: the ASCII plist unparser body (spec 4.7).
Containers span multiple lines with one tab per nesting level; exactly one
space surrounds the equals sign; dictionary entries end with a semicolon
and a newline; every array element ends with a comma, including the last;
strings follow the quoting rule; gid comments synthesized by the first
pass (passed in as the function rho) follow string occurrences.  The
per-isa inline single-line form and the section banners of the objects
mapping are produced by the dedicated emitters below. -/
def emitV (rho : List Char → Option (List Char)) (d : Nat) : Value → List Char
  | .str s => strText s ++ cmtOf rho s
  | .data bs => emitData bs
  | .arr es => '(' :: '\n' :: (emitEl rho (d + 1) es ++ (tabs d ++ [')']))
  | .dict es => lbraceC :: '\n' :: (emitEn rho (d + 1) es ++ (tabs d ++ [rbraceC]))

/-- Array element lines: indentation, the element, a comma and a newline. -/
def emitEl (rho : List Char → Option (List Char)) (d : Nat) : Elems → List Char
  | .nil => []
  | .cons v tl => tabs d ++ (emitV rho d v ++ (',' :: '\n' :: emitEl rho d tl))

/-- Dictionary entry lines: indentation, the key with its comment, the
equals sign with one space on each side, the value, a semicolon and a
newline. -/
def emitEn (rho : List Char → Option (List Char)) (d : Nat) : Entries → List Char
  | .nil => []
  | .cons k v tl =>
    tabs d ++ (strText k ++ (cmtOf rho k ++ (' ' :: '=' :: ' ' ::
      (emitV rho d v ++ (';' :: '\n' :: emitEn rho d tl)))))
end

/-- First value of the entry with the isa key, as a string (spec 3: every
object in the objects mapping carries a mandatory isa key naming its
class). -/
def isaOfEn : Entries → List Char
  | .nil => []
  | .cons k v tl =>
    if k == "isa".toList then (match v with | .str s => s | _ => []) else isaOfEn tl

/-- The isa class name of an object value. -/
def isaOf : Value → List Char
  | .dict es => isaOfEn es
  | _ => []

/-- Modelled from the spec: the isa classes whose objects Xcode writes on
a single line (spec 4.7: notably PBXBuildFile and PBXFileReference). -/
def inlineIsas : List (List Char) := ["PBXBuildFile".toList, "PBXFileReference".toList]

/-- Whether an object of the objects mapping is written inline. -/
def isInline (v : Value) : Bool := inlineIsas.contains (isaOf v)

mutual
/-- Modelled from the spec: the single-line form of a value (spec 4.7):
containers on one line with single spaces between elements, entries closed
by a semicolon and one space, elements by a comma and one space. -/
def inlineV (rho : List Char → Option (List Char)) : Value → List Char
  | .str s => strText s ++ cmtOf rho s
  | .data bs => emitData bs
  | .arr es => '(' :: (inlineEl rho es ++ [')'])
  | .dict es => lbraceC :: (inlineEn rho es ++ [rbraceC])

/-- Single-line array elements: each element followed by a comma and one
space. -/
def inlineEl (rho : List Char → Option (List Char)) : Elems → List Char
  | .nil => []
  | .cons v tl => inlineV rho v ++ (',' :: ' ' :: inlineEl rho tl)

/-- Single-line dictionary entries: key, equals sign with one space on
each side, value, semicolon and one space. -/
def inlineEn (rho : List Char → Option (List Char)) : Entries → List Char
  | .nil => []
  | .cons k v tl =>
    strText k ++ (cmtOf rho k ++ (' ' :: '=' :: ' ' ::
      (inlineV rho v ++ (';' :: ' ' :: inlineEn rho tl))))
end

/-- The text between the comment delimiters of a Begin banner
(spec 4.7). -/
def bannerMidB (i : List Char) : List Char := " Begin ".toList ++ (i ++ " section ".toList)

/-- The text between the comment delimiters of an End banner
(spec 4.7). -/
def bannerMidE (i : List Char) : List Char := " End ".toList ++ (i ++ " section ".toList)

/-- Modelled from the spec: the banner opening an isa section of the
objects mapping (spec 4.7), preceded by the blank line separating it from
the neighboring section or the opening brace. -/
def beginBanner (i : List Char) : List Char :=
  '\n' :: '/' :: '*' :: (bannerMidB i ++ ('*' :: '/' :: ['\n']))

/-- Modelled from the spec: the banner closing an isa section of the
objects mapping (spec 4.7). -/
def endBanner (i : List Char) : List Char :=
  '/' :: '*' :: (bannerMidE i ++ ('*' :: '/' :: ['\n']))

/-- One gid entry line of the objects mapping: two tabs of indentation,
the gid with its synthesized comment, the equals sign, the object in its
single-line form when its isa asks for it and in the generic multi-line
form otherwise, a semicolon and a newline. -/
def emitObjEntry (rho : List Char → Option (List Char)) (k : List Char) (v : Value) :
    List Char :=
  tabs 2 ++ (strText k ++ (cmtOf rho k ++ (' ' :: '=' :: ' ' ::
    ((if isInline v then inlineV rho v else emitV rho 2 v) ++ (';' :: '\n' :: [])))))

/-- Modelled from the spec: the entry lines of the objects mapping
(spec 4.7): runs of equal isa are bracketed by Begin and End banners, a
blank line separates a banner pair from what precedes it.  The argument
cur is the isa of the currently open section. -/
def emitObjGo (rho : List Char → Option (List Char)) :
    Option (List Char) → Entries → List Char
  | cur, .nil => (match cur with | some i => endBanner i | none => [])
  | cur, .cons k v tl =>
    (match cur with
      | some c => if c == isaOf v then [] else endBanner c ++ beginBanner (isaOf v)
      | none => beginBanner (isaOf v)) ++
    (emitObjEntry rho k v ++ emitObjGo rho (some (isaOf v)) tl)

/-- Modelled from the spec: the objects mapping itself (spec 4.7): the
braces span multiple lines and hold the banner-structured entry lines. -/
def emitObjectsV (rho : List Char → Option (List Char)) : Value → List Char
  | .dict es => lbraceC :: '\n' :: (emitObjGo rho none es ++ (tabs 1 ++ [rbraceC]))
  | v => emitV rho 1 v

/-- Modelled from the spec: the entry lines of the root dictionary
(spec 4.7): the objects key uses the banner layout, every other key the
generic rules. -/
def emitRootEn (rho : List Char → Option (List Char)) : Entries → List Char
  | .nil => []
  | .cons k v tl =>
    tabs 1 ++ (strText k ++ (cmtOf rho k ++ (' ' :: '=' :: ' ' ::
      ((if k == "objects".toList then emitObjectsV rho v else emitV rho 1 v) ++
        (';' :: '\n' :: emitRootEn rho tl)))))

/-- The root value of the plist: a dictionary opens the root layout, any
other value is emitted generically. -/
def emitRoot (rho : List Char → Option (List Char)) : Value → List Char
  | .dict es => lbraceC :: '\n' :: (emitRootEn rho es ++ [rbraceC])
  | v => emitV rho 0 v

/-- ASCII-lexicographic order on strings by code point. -/
def lexLe : List Char → List Char → Bool
  | [], _ => true
  | _ :: _, [] => false
  | a :: as, b :: bs =>
    if a.toNat < b.toNat then true
    else if b.toNat < a.toNat then false
    else lexLe as bs

/-- Order of the objects mapping (spec 4.7): by isa section first, then
ascending by gid within a section. -/
def objLe (k1 : List Char) (v1 : Value) (k2 : List Char) (v2 : Value) : Bool :=
  if isaOf v1 == isaOf v2 then lexLe k1 k2 else lexLe (isaOf v1) (isaOf v2)

/-- Insertion into an entry list sorted by the objects order. -/
def insObj (k : List Char) (v : Value) : Entries → Entries
  | .nil => .cons k v .nil
  | .cons k2 v2 tl =>
    if objLe k v k2 v2 then .cons k v (.cons k2 v2 tl) else .cons k2 v2 (insObj k v tl)

/-- Insertion sort of the objects mapping by isa section and gid. -/
def sortObjs : Entries → Entries
  | .nil => .nil
  | .cons k v tl => insObj k v (sortObjs tl)

/-- Insertion into an entry list sorted by key. -/
def insKey (k : List Char) (v : Value) : Entries → Entries
  | .nil => .cons k v .nil
  | .cons k2 v2 tl =>
    if lexLe k k2 then .cons k v (.cons k2 v2 tl) else .cons k2 v2 (insKey k v tl)

/-- Insertion sort of an object's entries by key. -/
def sortKeys : Entries → Entries
  | .nil => .nil
  | .cons k v tl => insKey k v (sortKeys tl)

/-- Remove the first isa entry, returning its value and the remaining
entries. -/
def extractIsa : Entries → Option (Value × Entries)
  | .nil => none
  | .cons k v tl =>
    if k == "isa".toList then some (v, tl)
    else match extractIsa tl with
      | some (vi, rest) => some (vi, .cons k v rest)
      | none => none

/-- Modelled from the spec: key order within an object (spec 4.7): the
isa key first, the remaining keys in ASCII-lexicographic order. -/
def objReorder (es : Entries) : Entries :=
  match extractIsa es with
  | some (vi, rest) => .cons "isa".toList vi (sortKeys rest)
  | none => sortKeys es

/-- Canonical key order applied to one object of the objects mapping. -/
def canonObjVal : Value → Value
  | .dict es => .dict (objReorder es)
  | v => v

/-- Canonical key order applied to every object of the objects mapping. -/
def mapCanonVals : Entries → Entries
  | .nil => .nil
  | .cons k v tl => .cons k (canonObjVal v) (mapCanonVals tl)

/-- Modelled from the spec: the selective reordering the unparser applies
to the objects mapping (spec 4.7, 8): objects sorted by isa section and
gid, each object's keys isa-first then lexicographic.  Other mappings keep
insertion order. -/
def canonObjects : Value → Value
  | .dict es => .dict (sortObjs (mapCanonVals es))
  | v => v

/-- The root entries with the objects mapping canonicalized. -/
def canonRootEn : Entries → Entries
  | .nil => .nil
  | .cons k v tl =>
    .cons k (if k == "objects".toList then canonObjects v else v) (canonRootEn tl)

/-- The canonical form of a tree: the unparser's selective reordering of
the objects mapping (spec 4.7); everything else unchanged. -/
def canon : Value → Value
  | .dict es => .dict (canonRootEn es)
  | v => v

/-- A banner-safe character: neither a star nor a slash, so an isa made of
such characters never closes its banner comment early. -/
def okBannerChar (c : Char) : Bool := !(c == '*') && !(c == '/')

/-- A banner-safe isa name (spec 3: isa is a bare identifier). -/
def isaOK (s : List Char) : Bool := s.all okBannerChar

/-- Banner safety of all isa names in the objects mapping's entries. -/
def isasOKEn : Entries → Bool
  | .nil => true
  | .cons _ v tl => isaOK (isaOf v) && isasOKEn tl

/-- Banner safety of the isa names of an objects mapping value. -/
def objIsasOK : Value → Bool
  | .dict es => isasOKEn es
  | _ => true

/-- Banner safety of the isa names reachable from the root entries. -/
def isasOKRoot : Entries → Bool
  | .nil => true
  | .cons k v tl =>
    (if k == "objects".toList then objIsasOK v else true) && isasOKRoot tl

/-- Banner safety of the isa names of a tree. -/
def isasOK : Value → Bool
  | .dict es => isasOKRoot es
  | _ => true

/-- Modelled from the spec: top-level layout of the ASCII plist unparser
(spec 4.7): the UTF-8 header comment line, then the root dictionary with
the banner-structured objects mapping, reordered canonically, then a
final newline. -/
def unparsePlist (rho : List Char → Option (List Char)) (t : Value) : List Char :=
  ('/' :: '/' :: ' ' :: '!' :: '$' :: '*' :: 'U' :: 'T' :: 'F' :: '8' :: '*' :: '$' :: '!' :: '\n' :: []) ++
    (emitRoot rho (canon t) ++ ['\n'])

/-- Unparse with no synthesized comments. -/
def noComments : List Char → Option (List Char) := fun _ => none

mutual
/-- Token stream the unparser's output spells for a value. -/
def toksV : Value → List Tok
  | .str s => [Tok.str s]
  | .data bs => [Tok.blob bs]
  | .arr es => Tok.lparen :: (toksEl es ++ [Tok.rparen])
  | .dict es => Tok.lbrace :: (toksEn es ++ [Tok.rbrace])

/-- Token stream of the element lines of an array. -/
def toksEl : Elems → List Tok
  | .nil => []
  | .cons v tl => toksV v ++ (Tok.comma :: toksEl tl)

/-- Token stream of the entry lines of a dictionary. -/
def toksEn : Entries → List Tok
  | .nil => []
  | .cons k v tl => Tok.str k :: Tok.eqTok :: (toksV v ++ (Tok.semi :: toksEn tl))
end

/-- A string is safe for round-tripping when it does not begin with two
slashes: such a string would be written unquoted (both slashes are
unquoted-string characters) and then be taken for a line comment when
read back. -/
def strOK : List Char → Bool
  | '/' :: '/' :: _ => false
  | _ => true

mutual
/-- Well-formedness for the round trip: strings and keys are safe, data
bytes are byte-sized. -/
def wfV : Value → Bool
  | .str s => strOK s
  | .data bs => bs.all (fun b => b < 256)
  | .arr es => wfEl es
  | .dict es => wfEn es

/-- Well-formedness of array elements. -/
def wfEl : Elems → Bool
  | .nil => true
  | .cons v tl => wfV v && wfEl tl

/-- Well-formedness of dictionary entries. -/
def wfEn : Entries → Bool
  | .nil => true
  | .cons k v tl => strOK k && wfV v && wfEn tl
end

/-- A comment text never contains the closing star-slash sequence, so the
block comment around it ends exactly where the unparser closes it. -/
def noStarSlash : List Char → Bool
  | [] => true
  | [_] => true
  | a :: b :: r => !(a == '*' && b == '/') && noStarSlash (b :: r)

/-- Well-formedness of a comment synthesizer: every comment it yields is
free of the closing sequence. -/
def wfRho (rho : List Char → Option (List Char)) : Prop :=
  ∀ s c, rho s = some c → noStarSlash c = true

/-- Tokens of strict JSON as produced by the fast parser's rewrite
(spec 4.3). -/
inductive JTok where
  | lb
  | rb
  | lk
  | rk
  | colon
  | comma
  | str (s : List Char)
  deriving DecidableEq, Repr

/-- Modelled from the spec: the fast parser's rewrite of the ASCII plist
into strict JSON, one token at a time (spec 4.3): braces stay, the equals
sign becomes a colon, parentheses become square brackets, bare tokens
become JSON strings, a semicolon becomes a comma except before a closing
brace where it is dropped, and a comma before a closing parenthesis is
dropped.  Data blobs have no JSON form. -/
def rewriteToks : List Tok → Except PErr (List JTok)
  | [] => .ok []
  | Tok.lbrace :: ts => (fun js => JTok.lb :: js) <$> rewriteToks ts
  | Tok.rbrace :: ts => (fun js => JTok.rb :: js) <$> rewriteToks ts
  | Tok.lparen :: ts => (fun js => JTok.lk :: js) <$> rewriteToks ts
  | Tok.rparen :: ts => (fun js => JTok.rk :: js) <$> rewriteToks ts
  | Tok.eqTok :: ts => (fun js => JTok.colon :: js) <$> rewriteToks ts
  | Tok.str s :: ts => (fun js => JTok.str s :: js) <$> rewriteToks ts
  | Tok.blob _ :: _ => .error .jsonFailed
  | Tok.semi :: ts =>
    match ts with
    | Tok.rbrace :: _ => rewriteToks ts
    | _ => (fun js => JTok.comma :: js) <$> rewriteToks ts
  | Tok.comma :: ts =>
    match ts with
    | Tok.rparen :: _ => rewriteToks ts
    | _ => (fun js => JTok.comma :: js) <$> rewriteToks ts

/-- Parsing modes of the JSON reader: a value, an object right after its
opening brace, an object entry run, an array right after its opening
bracket, an array element run. -/
inductive JMode where
  | value
  | obj0
  | objN
  | arr0
  | arrN

/-- Modelled from the spec: the strict JSON reader the fast parser
delegates to (spec 4.3): objects separate entries with commas and allow no
trailing comma, arrays likewise. -/
def jparseStep : Nat → JMode → List JTok → Except PErr (Value × List JTok)
  | 0, _, _ => .error .fuelOut
  | f + 1, .value, ts =>
    match ts with
    | JTok.str s :: ts1 => .ok (.str s, ts1)
    | JTok.lb :: ts1 => jparseStep f .obj0 ts1
    | JTok.lk :: ts1 => jparseStep f .arr0 ts1
    | _ => .error .jsonFailed
  | f + 1, .obj0, ts =>
    match ts with
    | JTok.rb :: ts1 => .ok (.dict .nil, ts1)
    | _ => jparseStep f .objN ts
  | f + 1, .objN, ts =>
    match ts with
    | JTok.str k :: JTok.colon :: ts1 =>
      match jparseStep f .value ts1 with
      | .error e => .error e
      | .ok (v, ts2) =>
        match ts2 with
        | JTok.rb :: ts3 => .ok (.dict (.cons k v .nil), ts3)
        | JTok.comma :: ts3 =>
          match jparseStep f .objN ts3 with
          | .error e => .error e
          | .ok (.dict es, ts4) => .ok (.dict (.cons k v es), ts4)
          | .ok _ => .error .jsonFailed
        | _ => .error .jsonFailed
    | _ => .error .jsonFailed
  | f + 1, .arr0, ts =>
    match ts with
    | JTok.rk :: ts1 => .ok (.arr .nil, ts1)
    | _ => jparseStep f .arrN ts
  | f + 1, .arrN, ts =>
    match jparseStep f .value ts with
    | .error e => .error e
    | .ok (v, ts1) =>
      match ts1 with
      | JTok.rk :: ts2 => .ok (.arr (.cons v .nil), ts2)
      | JTok.comma :: ts2 =>
        match jparseStep f .arrN ts2 with
        | .error e => .error e
        | .ok (.arr es, ts3) => .ok (.arr (.cons v es), ts3)
        | .ok _ => .error .jsonFailed
      | _ => .error .jsonFailed

/-- Modelled from the spec: the fast parser (spec 4.3): tokenize, rewrite
into strict JSON tokens and read those; any failure on this path is
reported as the one JSON-path diagnostic. -/
def fastParse (cs : List Char) : Except PErr Value :=
  match tokenize cs with
  | .error _ => .error .jsonFailed
  | .ok ts =>
    match rewriteToks ts with
    | .error _ => .error .jsonFailed
    | .ok js =>
      match jparseStep (2 * js.length + 8) .value js with
      | .ok (v, []) => .ok v
      | _ => .error .jsonFailed

/-- Lowercase hexadecimal digit for a value below 16. -/
def hexDigitCharL (n : Nat) : Char :=
  if n < 10 then Char.ofNat (48 + n) else Char.ofNat (87 + n % 16)

/-- Four lowercase hex digits of a 16-bit value, as the JSON writer emits
in its unicode escapes. -/
def hex4L (n : Nat) : List Char :=
  [hexDigitCharL ((n / 4096) % 16), hexDigitCharL ((n / 256) % 16),
    hexDigitCharL ((n / 16) % 16), hexDigitCharL (n % 16)]

/-- Modelled from the spec: JSON string escaping of one character
(spec 4.4, standard JSON with ASCII-only output): the named escapes,
other control characters as unicode escapes, printable ASCII verbatim,
and all non-ASCII as unicode escapes with surrogate pairs for code points
at or above 0x10000. -/
def jescChar (c : Char) : List Char :=
  if c == '"' then ['\\', '"']
  else if c == '\\' then ['\\', '\\']
  else if c == '\n' then ['\\', 'n']
  else if c == '\r' then ['\\', 'r']
  else if c == '\t' then ['\\', 't']
  else if c.toNat == 8 then ['\\', 'b']
  else if c.toNat == 12 then ['\\', 'f']
  else if c.toNat < 32 then '\\' :: 'u' :: hex4L c.toNat
  else if c.toNat < 127 then [c]
  else if c.toNat < 0x10000 then '\\' :: 'u' :: hex4L c.toNat
  else
    let n := c.toNat - 0x10000
    ('\\' :: 'u' :: hex4L (0xD800 + n / 0x400)) ++ ('\\' :: 'u' :: hex4L (0xDC00 + n % 0x400))

/-- Escape a whole string for JSON output. -/
def jescAll : List Char → List Char
  | [] => []
  | c :: r => jescChar c ++ jescAll r

/-- A JSON string literal. -/
def jstrText (s : List Char) : List Char :=
  '"' :: (jescAll s ++ ['"'])

/-- Spaces used by the JSON writer: two per nesting level. -/
def jind (d : Nat) : List Char := List.replicate (2 * d) ' '

mutual
/-- Modelled from the spec: the JSON writer (spec 4.4, 6): mappings and
sequences spread over lines indented with two spaces per level, keys in
insertion order, strings as JSON string literals.  Data blobs have no JSON
form and are written as their hex digit string.  The concrete layout of
the reference files is not recorded in the repository, so the writer here
fixes one layout; all format claims are stated against it. -/
def jemitV (d : Nat) : Value → List Char
  | .str s => jstrText s
  | .data bs => jstrText (hexBytes bs)
  | .arr .nil => ['[', ']']
  | .arr es => '[' :: '\n' :: (jemitEl (d + 1) es ++ (jind d ++ [']']))
  | .dict .nil => [lbraceC, rbraceC]
  | .dict es => lbraceC :: '\n' :: (jemitEn (d + 1) es ++ (jind d ++ [rbraceC]))

/-- Array element lines of the JSON writer; no trailing comma. -/
def jemitEl (d : Nat) : Elems → List Char
  | .nil => []
  | .cons v .nil => jind d ++ (jemitV d v ++ ['\n'])
  | .cons v tl => jind d ++ (jemitV d v ++ (',' :: '\n' :: jemitEl d tl))

/-- Object entry lines of the JSON writer; no trailing comma. -/
def jemitEn (d : Nat) : Entries → List Char
  | .nil => []
  | .cons k v .nil => jind d ++ (jstrText k ++ (':' :: ' ' :: (jemitV d v ++ ['\n'])))
  | .cons k v tl =>
    jind d ++ (jstrText k ++ (':' :: ' ' :: (jemitV d v ++ (',' :: '\n' :: jemitEn d tl))))
end

/-- JSON writer entry point: the root value and a final newline. -/
def jsonUnparse (t : Value) : List Char :=
  jemitV 0 t ++ ['\n']

/-- Modelled from the spec: decode the body of a JSON string literal, with
the standard escapes and unicode escapes, surrogate pairs combined; other
escaped characters pass through.  Returns the decoded characters and the
input after the closing quote. -/
def jlexStr : Nat → List Char → Except PErr (List Char × List Char)
  | 0, _ => .error .fuelOut
  | _ + 1, [] => .error .jsonFailed
  | f + 1, c :: cs =>
    if c == '"' then .ok ([], cs)
    else if c == '\\' then
      match cs with
      | [] => .error .jsonFailed
      | e :: cs2 =>
        if e == 'n' then (fun r => ('\n' :: r.1, r.2)) <$> jlexStr f cs2
        else if e == 'r' then (fun r => ('\r' :: r.1, r.2)) <$> jlexStr f cs2
        else if e == 't' then (fun r => ('\t' :: r.1, r.2)) <$> jlexStr f cs2
        else if e == 'b' then (fun r => (Char.ofNat 8 :: r.1, r.2)) <$> jlexStr f cs2
        else if e == 'f' then (fun r => (Char.ofNat 12 :: r.1, r.2)) <$> jlexStr f cs2
        else if e == 'u' then
          match cs2 with
          | h1 :: h2 :: h3 :: h4 :: cs3 =>
            match hexDigitVal h1, hexDigitVal h2, hexDigitVal h3, hexDigitVal h4 with
            | some a, some b, some c1, some d1 =>
              let n := ((a * 16 + b) * 16 + c1) * 16 + d1
              if 0xD800 ≤ n && n < 0xDC00 then
                match cs3 with
                | '\\' :: 'u' :: l1 :: l2 :: l3 :: l4 :: cs4 =>
                  match hexDigitVal l1, hexDigitVal l2, hexDigitVal l3, hexDigitVal l4 with
                  | some a2, some b2, some c2, some d2 =>
                    let m := ((a2 * 16 + b2) * 16 + c2) * 16 + d2
                    if 0xDC00 ≤ m && m < 0xE000 then
                      (fun r =>
                        (Char.ofNat (0x10000 + (n - 0xD800) * 0x400 + (m - 0xDC00)) :: r.1,
                          r.2)) <$> jlexStr f cs4
                    else .error .jsonFailed
                  | _, _, _, _ => .error .jsonFailed
                | _ => .error .jsonFailed
              else if 0xDC00 ≤ n && n < 0xE000 then .error .jsonFailed
              else (fun r => (Char.ofNat n :: r.1, r.2)) <$> jlexStr f cs3
            | _, _, _, _ => .error .jsonFailed
          | _ => .error .jsonFailed
        else (fun r => (e :: r.1, r.2)) <$> jlexStr f cs2
    else (fun r => (c :: r.1, r.2)) <$> jlexStr f cs

/-- Modelled from the spec: tokenizer for JSON input (spec 4.4): the
structural characters, string literals, and bare number-like runs kept as
their digit strings (the tree has no numeric type). -/
def jlexGo : Nat → List Char → Except PErr (List JTok)
  | 0, _ => .error .fuelOut
  | _ + 1, [] => .ok []
  | f + 1, c :: cs =>
    if isWs c then jlexGo f cs
    else if c == lbraceC then (fun ts => JTok.lb :: ts) <$> jlexGo f cs
    else if c == rbraceC then (fun ts => JTok.rb :: ts) <$> jlexGo f cs
    else if c == '[' then (fun ts => JTok.lk :: ts) <$> jlexGo f cs
    else if c == ']' then (fun ts => JTok.rk :: ts) <$> jlexGo f cs
    else if c == ':' then (fun ts => JTok.colon :: ts) <$> jlexGo f cs
    else if c == ',' then (fun ts => JTok.comma :: ts) <$> jlexGo f cs
    else if c == '"' then
      match jlexStr (cs.length + 1) cs with
      | .ok (s, rest) => (fun ts => JTok.str s :: ts) <$> jlexGo f rest
      | .error e => .error e
    else if ('0' ≤ c && c ≤ '9') || c == '-' then
      (fun ts => JTok.str (c :: cs.takeWhile (fun d => ('0' ≤ d && d ≤ '9') || d == '.')) :: ts) <$>
        jlexGo f (cs.dropWhile (fun d => ('0' ≤ d && d ≤ '9') || d == '.'))
    else .error .jsonFailed

/-- Modelled from the spec: the JSON reader used for JSON-format input
(spec 4.4): tokenize and read one JSON value covering the whole input. -/
def jsonParse (cs : List Char) : Except PErr Value :=
  match jlexGo (cs.length + 1) cs with
  | .error e => .error e
  | .ok js =>
    match jparseStep (2 * js.length + 8) .value js with
    | .ok (v, []) => .ok v
    | _ => .error .jsonFailed

/-- XML text escaping: ampersand, less-than and greater-than become
entities (spec 4.4). -/
def xescChar (c : Char) : List Char :=
  if c == '&' then ['&', 'a', 'm', 'p', ';']
  else if c == '<' then ['&', 'l', 't', ';']
  else if c == '>' then ['&', 'g', 't', ';']
  else [c]

/-- Escape a whole text for XML output. -/
def xescAll : List Char → List Char
  | [] => []
  | c :: r => xescChar c ++ xescAll r

/-- Character of the base64 alphabet. -/
def b64Char (n : Nat) : Char :=
  if n < 26 then Char.ofNat (65 + n)
  else if n < 52 then Char.ofNat (97 + (n - 26))
  else if n < 62 then Char.ofNat (48 + (n - 52))
  else if n == 62 then '+'
  else '/'

/-- Base64 encoding of a byte list, used for XML data elements. -/
def b64Enc : List Nat → List Char
  | a :: b :: c :: r =>
    let w := (a % 256) * 65536 + (b % 256) * 256 + c % 256
    b64Char (w / 262144) :: b64Char ((w / 4096) % 64) :: b64Char ((w / 64) % 64) ::
      b64Char (w % 64) :: b64Enc r
  | [a, b] =>
    let w := (a % 256) * 65536 + (b % 256) * 256
    [b64Char (w / 262144), b64Char ((w / 4096) % 64), b64Char ((w / 64) % 64), '=']
  | [a] =>
    let w := (a % 256) * 65536
    [b64Char (w / 262144), b64Char ((w / 4096) % 64), '=', '=']
  | [] => []

/-- Value of a base64 alphabet character. -/
def b64Val (c : Char) : Option Nat :=
  if 'A' ≤ c && c ≤ 'Z' then some (c.toNat - 65)
  else if 'a' ≤ c && c ≤ 'z' then some (c.toNat - 97 + 26)
  else if '0' ≤ c && c ≤ '9' then some (c.toNat - 48 + 52)
  else if c == '+' then some 62
  else if c == '/' then some 63
  else none

/-- Base64 decoding over collected sextet values. -/
def b64DecVals : List Nat → List Nat
  | a :: b :: c :: d :: r =>
    let w := a * 262144 + b * 4096 + c * 64 + d
    (w / 65536) :: ((w / 256) % 256) :: (w % 256) :: b64DecVals r
  | [a, b, c] =>
    let w := a * 262144 + b * 4096 + c * 64
    [w / 65536, (w / 256) % 256]
  | [a, b] =>
    let w := a * 262144 + b * 4096
    [w / 65536]
  | _ => []

mutual
/-- Modelled from the spec: the XML plist writer (spec 4.4), following the
layout of Apple's plutil output: tab indentation, dictionary keys as key
elements followed by the value element, strings with the three text
entities applied, empty containers self-closed, data as base64. -/
def xemitV (d : Nat) : Value → List Char
  | .str s => "<string>".toList ++ (xescAll s ++ "</string>".toList)
  | .data bs => "<data>".toList ++ (b64Enc bs ++ "</data>".toList)
  | .arr .nil => "<array/>".toList
  | .arr es => "<array>\n".toList ++ (xemitEl (d + 1) es ++ (tabs d ++ "</array>".toList))
  | .dict .nil => "<dict/>".toList
  | .dict es => "<dict>\n".toList ++ (xemitEn (d + 1) es ++ (tabs d ++ "</dict>".toList))

/-- Array element lines of the XML writer. -/
def xemitEl (d : Nat) : Elems → List Char
  | .nil => []
  | .cons v tl => tabs d ++ (xemitV d v ++ ('\n' :: xemitEl d tl))

/-- Dictionary entry lines of the XML writer: a key element line and a
value line. -/
def xemitEn (d : Nat) : Entries → List Char
  | .nil => []
  | .cons k v tl =>
    tabs d ++ ("<key>".toList ++ (xescAll k ++ ("</key>\n".toList ++
      (tabs d ++ (xemitV d v ++ ('\n' :: xemitEn d tl))))))
end

/-- Fixed header of the XML plist form (spec 4.4). -/
def xmlHeader : List Char :=
  ("<?xml version=\"1.0\" encoding=\"UTF-8\"?>\n" ++
   "<!DOCTYPE plist PUBLIC \"-//Apple//DTD PLIST 1.0//EN\" " ++
   "\"http://www.apple.com/DTDs/PropertyList-1.0.dtd\">\n" ++
   "<plist version=\"1.0\">\n").toList

/-- XML plist writer entry point. -/
def xmlUnparse (t : Value) : List Char :=
  xmlHeader ++ (xemitV 0 t ++ "\n</plist>\n".toList)

/-- Drop an expected literal from the front of the input. -/
def dropLit : List Char → List Char → Option (List Char)
  | [], cs => some cs
  | _ :: _, [] => none
  | l :: ls, c :: cs => if l == c then dropLit ls cs else none

/-- Leading-whitespace skip. -/
def skipWs (cs : List Char) : List Char :=
  cs.dropWhile isWs

/-- Decimal digits to a number, for numeric character references. -/
def decValAll : List Char → Option Nat → Option Nat
  | [], acc => acc
  | c :: r, some acc =>
    if '0' ≤ c && c ≤ '9' then decValAll r (some (acc * 10 + (c.toNat - 48)))
    else none
  | _ :: _, none => none

/-- Hex digits to a number for hexadecimal character references. -/
def hexValAll : List Char → Option Nat → Option Nat
  | [], acc => acc
  | c :: r, some acc =>
    match hexDigitVal c with
    | some n => hexValAll r (some (acc * 16 + n))
    | none => none
  | _ :: _, none => none

/-- Modelled from the spec: XML text content up to the next element tag,
decoding the five named entities and numeric character references
(spec 4.4). -/
def xtext : Nat → List Char → Except PErr (List Char × List Char)
  | 0, _ => .error .fuelOut
  | _ + 1, [] => .ok ([], [])
  | f + 1, c :: cs =>
    if c == '<' then .ok ([], c :: cs)
    else if c == '&' then
      match dropLit "lt;".toList cs with
      | some r => (fun p => ('<' :: p.1, p.2)) <$> xtext f r
      | none =>
      match dropLit "gt;".toList cs with
      | some r => (fun p => ('>' :: p.1, p.2)) <$> xtext f r
      | none =>
      match dropLit "amp;".toList cs with
      | some r => (fun p => ('&' :: p.1, p.2)) <$> xtext f r
      | none =>
      match dropLit "quot;".toList cs with
      | some r => (fun p => ('"' :: p.1, p.2)) <$> xtext f r
      | none =>
      match dropLit "apos;".toList cs with
      | some r => (fun p => ('\x27' :: p.1, p.2)) <$> xtext f r
      | none =>
      match cs with
      | '#' :: 'x' :: cs2 =>
        match hexValAll (cs2.takeWhile (fun d => !(d == ';'))) (some 0) with
        | some n =>
          match cs2.dropWhile (fun d => !(d == ';')) with
          | ';' :: cs3 => (fun p => (Char.ofNat n :: p.1, p.2)) <$> xtext f cs3
          | _ => .error .xmlFailed
        | none => .error .xmlFailed
      | '#' :: cs2 =>
        match decValAll (cs2.takeWhile (fun d => !(d == ';'))) (some 0) with
        | some n =>
          match cs2.dropWhile (fun d => !(d == ';')) with
          | ';' :: cs3 => (fun p => (Char.ofNat n :: p.1, p.2)) <$> xtext f cs3
          | _ => .error .xmlFailed
        | none => .error .xmlFailed
      | _ => .error .xmlFailed
    else (fun p => (c :: p.1, p.2)) <$> xtext f cs

/-- Reading modes of the XML plist reader: one value element, the inside
of a dict element, the inside of an array element. -/
inductive XMode where
  | value
  | dictEls
  | arrEls

/-- Modelled from the spec: the XML plist reader (spec 4.4) over the
element subset dict, key, string, array, integer, real, true, false and
data; integers, reals and booleans are preserved as strings in the tree. -/
def xparseStep : Nat → XMode → List Char → Except PErr (Value × List Char)
  | 0, _, _ => .error .fuelOut
  | f + 1, .value, cs0 =>
    let cs := skipWs cs0
    match dropLit "<dict/>".toList cs with
    | some r => .ok (.dict .nil, r)
    | none =>
    match dropLit "<dict>".toList cs with
    | some r => xparseStep f .dictEls r
    | none =>
    match dropLit "<array/>".toList cs with
    | some r => .ok (.arr .nil, r)
    | none =>
    match dropLit "<array>".toList cs with
    | some r => xparseStep f .arrEls r
    | none =>
    match dropLit "<string>".toList cs with
    | some r =>
      match xtext (r.length + 1) r with
      | .error e => .error e
      | .ok (s, r2) =>
        match dropLit "</string>".toList r2 with
        | some r3 => .ok (.str s, r3)
        | none => .error .xmlFailed
    | none =>
    match dropLit "<integer>".toList cs with
    | some r =>
      match xtext (r.length + 1) r with
      | .error e => .error e
      | .ok (s, r2) =>
        match dropLit "</integer>".toList r2 with
        | some r3 => .ok (.str s, r3)
        | none => .error .xmlFailed
    | none =>
    match dropLit "<real>".toList cs with
    | some r =>
      match xtext (r.length + 1) r with
      | .error e => .error e
      | .ok (s, r2) =>
        match dropLit "</real>".toList r2 with
        | some r3 => .ok (.str s, r3)
        | none => .error .xmlFailed
    | none =>
    match dropLit "<true/>".toList cs with
    | some r => .ok (.str "true".toList, r)
    | none =>
    match dropLit "<false/>".toList cs with
    | some r => .ok (.str "false".toList, r)
    | none =>
    match dropLit "<data>".toList cs with
    | some r =>
      let body := r.takeWhile (fun d => !(d == '<'))
      let vals := (body.filter (fun d => !(isWs d))).filterMap b64Val
      match dropLit "</data>".toList (r.dropWhile (fun d => !(d == '<'))) with
      | some r3 => .ok (.data (b64DecVals vals), r3)
      | none => .error .xmlFailed
    | none => .error .xmlFailed
  | f + 1, .dictEls, cs0 =>
    let cs := skipWs cs0
    match dropLit "</dict>".toList cs with
    | some r => .ok (.dict .nil, r)
    | none =>
    match dropLit "<key>".toList cs with
    | some r =>
      match xtext (r.length + 1) r with
      | .error e => .error e
      | .ok (k, r2) =>
        match dropLit "</key>".toList r2 with
        | none => .error .xmlFailed
        | some r3 =>
          match xparseStep f .value r3 with
          | .error e => .error e
          | .ok (v, r4) =>
            match xparseStep f .dictEls r4 with
            | .error e => .error e
            | .ok (.dict es, r5) => .ok (.dict (.cons k v es), r5)
            | .ok _ => .error .xmlFailed
    | none => .error .xmlFailed
  | f + 1, .arrEls, cs0 =>
    let cs := skipWs cs0
    match dropLit "</array>".toList cs with
    | some r => .ok (.arr .nil, r)
    | none =>
    match xparseStep f .value cs with
    | .error e => .error e
    | .ok (v, r) =>
      match xparseStep f .arrEls r with
      | .error e => .error e
      | .ok (.arr es, r2) => .ok (.arr (.cons v es), r2)
      | .ok _ => .error .xmlFailed

/-- Drop one XML prolog construct: a processing instruction or a doctype
declaration through its closing angle bracket. -/
def dropTag (cs : List Char) : List Char :=
  match cs.dropWhile (fun d => !(d == '>')) with
  | '>' :: r => r
  | r => r

/-- Modelled from the spec: the XML plist reader entry point (spec 4.4):
skip the XML declaration, the doctype and the plist opening tag, read one
value, and require the closing plist tag and nothing but whitespace
around it. -/
def xmlParse (cs0 : List Char) : Except PErr Value :=
  let cs1 := skipWs cs0
  let cs2 :=
    match dropLit "<?".toList cs1 with
    | some r => skipWs (dropTag r)
    | none => cs1
  let cs3 :=
    match dropLit "<!".toList cs2 with
    | some r => skipWs (dropTag r)
    | none => cs2
  match dropLit "<plist".toList cs3 with
  | none => .error .xmlFailed
  | some r =>
    let body := dropTag r
    match xparseStep (body.length + 1) .value body with
    | .error e => .error e
    | .ok (v, rest) =>
      match dropLit "</plist>".toList (skipWs rest) with
      | some r2 => if skipWs r2 == [] then .ok v else .error .xmlFailed
      | none => .error .xmlFailed

/-- Input and output formats of the library surface (spec 6). -/
inductive Fmt where
  | xcode
  | xml
  | json
  deriving DecidableEq, Repr

/-- Parser selection for the xcode format (spec 6): the default, the
classic parser, or the fast parser. -/
inductive PType where
  | normal
  | classic
  | fast
  deriving DecidableEq, Repr

/-- Modelled from the spec: format autodetection (spec 4.5): the first
byte that is not whitespace decides; a less-than sign means XML, a slash
means the ASCII plist with its UTF-8 header comment, an opening brace
means JSON when the first following non-whitespace byte is a double quote
and the ASCII plist otherwise; anything else is an unknown format. -/
def detectFmt (cs : List Char) : Except PErr Fmt :=
  match skipWs cs with
  | [] => .error .unknownFormat
  | c :: rest =>
    if c == '<' then .ok .xml
    else if c == '/' then .ok .xcode
    else if c == lbraceC then
      match skipWs rest with
      | '"' :: _ => .ok .json
      | _ => .ok .xcode
    else .error .unknownFormat

/-- Modelled from the spec: parse in xcode format with the chosen parser
(spec 4.2, 4.3, 6).  The default mode follows the classic path: the
recorded diagnostics of the default parser are the classic parser's
precise ones, and the fast path is chosen only on request, for
throughput. -/
def parseXcode (pt : PType) (cs : List Char) : Except PErr Value :=
  match pt with
  | .classic => classicParse cs
  | .fast => fastParse cs
  | .normal => classicParse cs

/-- Diagnostic record returned beside the tree (spec 6): the format the
parse ran under when it was resolved, and the error of a failed parse. -/
structure ParseInfo where
  fmt : Option Fmt
  err : Option PErr
  deriving DecidableEq, Repr

/-- Modelled from the spec: the library parse entry point (spec 5, 6):
the format argument or autodetection chooses the reader; the result is the
pair of the optional tree and the parse info.  Parsers never raise: on
failure the tree is the absent value and the diagnostic is in the parse
info. -/
def parse (fmt : Option Fmt) (pt : PType) (cs : List Char) : Option Value × ParseInfo :=
  match (match fmt with | some f => Except.ok f | none => detectFmt cs) with
  | .error e => (none, ⟨none, some e⟩)
  | .ok f =>
    match (match f with
            | Fmt.xcode => parseXcode pt cs
            | Fmt.xml => xmlParse cs
            | Fmt.json => jsonParse cs) with
    | .ok v => (some v, ⟨some f, none⟩)
    | .error e => (none, ⟨some f, some e⟩)

/-- Modelled from the spec: the unparse entry point (spec 6): emit the
tree in the requested format; the comment synthesizer result (fed by the
project name) enters as the function rho of the xcode writer. -/
def unparse (fmt : Fmt) (rho : List Char → Option (List Char)) (t : Value) : List Char :=
  match fmt with
  | .xcode => unparsePlist rho t
  | .xml => xmlUnparse t
  | .json => jsonUnparse t

/-- Remove a suffix from a list when present. -/
def removeSuffix (suf l : List Char) : List Char :=
  match dropLit suf.reverse l.reverse with
  | some r => r.reverse
  | none => l

/-- Modelled from the spec: derive the project name from a path ending in
the project bundle and file name (spec 6): the last path component before
the bundle suffix, without that suffix. -/
def projectnameForPath (p : List Char) : List Char :=
  let q := removeSuffix "/project.pbxproj".toList p
  let last := q.foldl (fun acc c => if c == '/' then [] else acc ++ [c]) []
  removeSuffix ".xcodeproj".toList last

/-- Decomposed fields of a gid (spec 3, 4.8). -/
structure GidFields where
  date : List Char
  user : Nat
  pid : Nat
  random : Nat
  seq : Nat
  deriving DecidableEq, Repr

/-- Decimal digit character. -/
def digitChar (n : Nat) : Char := Char.ofNat (48 + n % 10)

/-- Two-digit zero-padded decimal. -/
def pad2 (n : Nat) : List Char := [digitChar ((n / 10) % 10), digitChar (n % 10)]

/-- Four-digit zero-padded decimal. -/
def pad4 (n : Nat) : List Char :=
  [digitChar ((n / 1000) % 10), digitChar ((n / 100) % 10), digitChar ((n / 10) % 10),
    digitChar (n % 10)]

/-- Modelled from the spec: render seconds since 2001-01-01 00:00:00 UTC
as an ISO-style UTC timestamp (spec 4.8, datetime-from-utc).  The civil
date follows the standard era-based conversion from a day number. -/
def dateStr (secs : Nat) : List Char :=
  let days := secs / 86400
  let rem := secs % 86400
  let z := days + 11323 + 719468
  let era := z / 146097
  let doe := z % 146097
  let yoe := (doe - doe / 1460 + doe / 36524 - doe / 146096) / 365
  let y := yoe + era * 400
  let doy := doe - (365 * yoe + yoe / 4 - yoe / 100)
  let mp := (5 * doy + 2) / 153
  let dday := doy - (153 * mp + 2) / 5 + 1
  let m := if mp < 10 then mp + 3 else mp - 9
  let yy := if m ≤ 2 then y + 1 else y
  pad4 yy ++ ('-' :: pad2 m) ++ ('-' :: pad2 dday) ++ ('T' :: pad2 (rem / 3600)) ++
    (':' :: pad2 ((rem / 60) % 60)) ++ (':' :: pad2 (rem % 60)) ++ ['Z']

/-- Modelled from the spec: decompose a 24-hex-digit gid into its fields
(spec 3, 4.8): one byte of user hash, one byte of pid, sixteen bits of
sequence counter, thirty-two bits of reference timestamp rendered as a
UTC date, and thirty-two bits of random salt. -/
def gidfields (g : List Char) : Option GidFields :=
  if g.length == 24 then
    match hexValAll (g.take 2) (some 0), hexValAll ((g.drop 2).take 2) (some 0),
      hexValAll ((g.drop 4).take 4) (some 0), hexValAll ((g.drop 8).take 8) (some 0),
      hexValAll ((g.drop 16).take 8) (some 0) with
    | some u, some p, some sq, some tm, some rv =>
      some ⟨dateStr tm, u, p, rv, sq⟩
    | _, _, _, _, _ => none
  else none

/-- Decimal digits of a number, no leading zeros. -/
def decDigits : Nat → Nat → List Char
  | 0, _ => []
  | f + 1, n =>
    if n < 10 then [digitChar n]
    else decDigits f (n / 10) ++ [digitChar (n % 10)]

/-- Decimal rendering of a number. -/
def decStr (n : Nat) : List Char := decDigits (n + 1) n

/-- Left-pad with spaces to a given width. -/
def padLeft (w : Nat) (l : List Char) : List Char :=
  List.replicate (w - l.length) ' ' ++ l

/-- Modelled from the spec: one text line of the gidsplit output
(spec 4.8): the date, the user and pid bytes, the random salt and the
sequence counter in fixed-width columns, then the gid itself. -/
def gidsplitLine (g : List Char) : Option (List Char) :=
  match gidfields g with
  | some fs =>
    some (fs.date ++ (' ' :: padLeft 3 (decStr fs.user)) ++ (' ' :: padLeft 3 (decStr fs.pid)) ++
      (' ' :: padLeft 10 (decStr fs.random)) ++ (' ' :: padLeft 5 (decStr fs.seq)) ++
      (' ' :: g) ++ ['\n'])
  | none => none

/-- Modelled from the spec: the state of the gid generator (spec 4.8):
the user hash byte, the pid low byte, the sequence counter, the
per-process random salt, the injected reference-date function (indexed by
the number of clock reads so far) and that count. -/
structure XcodeIDGen where
  userbyte : Nat
  pidbyte : Nat
  seq : Nat
  random32 : Nat
  refdatefunc : Nat → Nat
  calls : Nat

/-- Modelled from the spec: construction of the gid generator (spec 4.8,
9).  The username hash and the seeded pseudo-random generator are not
fixed by the spec (its open questions 1 and 2 defer both to reference
vectors), so they enter as the function parameters userhash, prng and
seqinit: the user byte hashes the username, the salt is the seeded PRNG
output for the first clock reading — the constructor consumes that
reading — and the sequence counter starts at a pid-derived value. -/
def mkGen (userhash : List Char → Nat) (prng : Nat → Nat) (seqinit : Nat → Nat)
    (username : List Char) (pid : Nat) (refdatefunc : Nat → Nat) : XcodeIDGen :=
  { userbyte := userhash username % 256
    pidbyte := pid % 256
    seq := seqinit pid % 65536
    random32 := prng (refdatefunc 0) % 4294967296
    refdatefunc := refdatefunc
    calls := 1 }

/-- Modelled from the spec: generate one gid (spec 4.8): read the clock
once, increment the sixteen-bit sequence counter, and assemble the
twenty-four uppercase hex digits in the field order of spec section 3. -/
def XcodeIDGen.generate (g : XcodeIDGen) : List Char × XcodeIDGen :=
  let t := g.refdatefunc g.calls % 4294967296
  let sq := (g.seq + 1) % 65536
  (hex2 g.userbyte ++ hex2 g.pidbyte ++ hex4 sq ++ hex8 t ++ hex8 g.random32,
    { g with seq := sq, calls := g.calls + 1 })

/-- Exit code for success (spec 6). -/
def exitOK : Nat := 0

/-- Exit code for misuse or input-output errors (spec 6). -/
def exitERROR : Nat := 1

/-- Exit code for a failed lint (spec 6). -/
def exitLINTFAILED : Nat := 2

/-- Exit code for a failed parse (spec 6). -/
def exitPARSINGFAILED : Nat := 3

/-- Modelled from the spec: the convert action of the command line
(spec 6): convert reformats a single input, so with any other number of
file arguments the run is a usage error: the error exit code is returned
and nothing is written to the output; with exactly one input the file is
parsed with format autodetection and re-emitted in the requested format
to the output. -/
def runConvert (fmt : Fmt) (inputs : List (List Char)) : Nat × List Char :=
  match inputs with
  | [one] =>
    match parse none .normal one with
    | (some t, _) => (exitOK, unparse fmt noComments t)
    | (none, _) => (exitPARSINGFAILED, [])
  | _ => (exitERROR, [])

/-- Decidable equality of parser results. -/
instance {α β : Type} [DecidableEq α] [DecidableEq β] : DecidableEq (Except α β) :=
  fun a b =>
    match a, b with
    | .ok x, .ok y =>
      match decEq x y with
      | isTrue h => isTrue (h ▸ rfl)
      | isFalse h => isFalse (fun hh => h (Except.ok.inj hh))
    | .error x, .error y =>
      match decEq x y with
      | isTrue h => isTrue (h ▸ rfl)
      | isFalse h => isFalse (fun hh => h (Except.error.inj hh))
    | .ok _, .error _ => isFalse (fun hh => Except.noConfusion hh)
    | .error _, .ok _ => isFalse (fun hh => Except.noConfusion hh)

/-- Project template of the unit tests: the UTF-8 header, an optional
extra top-level fragment, the object version and an empty objects
mapping. -/
def tmpl (top : String) : List Char :=
  ("// !$*UTF8*$!\n\x7b" ++ top ++
    "\n\tobjectVersion = 46;\n\tobjects = \x7b\n\t\x7d;\n\x7d\n").toList

/-- Tree of the test template with one extra top-level entry. -/
def tmplTree (k : String) (v : Value) : Value :=
  .dict (.cons k.toList v
    (.cons "objectVersion".toList (.str "46".toList)
      (.cons "objects".toList (.dict .nil) .nil)))

/-- The array value one-two-three. -/
def arr123 : Value :=
  .arr (.cons (.str ['1']) (.cons (.str ['2']) (.cons (.str ['3']) .nil)))

/-- Input of the recursion-limit check: the test template prefix followed
by two hundred opening parentheses. -/
def nested200Parens : List Char :=
  "// !$*UTF8*$!\n\x7ba = ".toList ++ List.replicate 200 '('

/-- Input of the recursion-limit check with two hundred opening braces. -/
def nested200Braces : List Char :=
  "// !$*UTF8*$!\n\x7ba = ".toList ++ List.replicate 200 lbraceC

/-- Unquoted probe input: a top-level entry whose unquoted value contains
the probed character. -/
def unquotedProbe (c : Char) : List Char :=
  lbraceC :: 'n' :: ' ' :: '=' :: ' ' :: 'A' :: c :: ';' :: rbraceC :: []

/-- Quoted probe input: the same entry with the value double-quoted. -/
def quotedProbe (c : Char) : List Char :=
  lbraceC :: 'n' :: ' ' :: '=' :: ' ' :: '"' :: 'A' :: c :: '"' :: ';' :: rbraceC :: []

/-- Tree of the quoted probe input. -/
def probeTree (c : Char) : Value :=
  .dict (.cons ['n'] (.str ['A', c]) .nil)

/-- Generate a run of gids, returning them in call order. -/
def genGids : Nat → XcodeIDGen → List (List Char)
  | 0, _ => []
  | n + 1, g =>
    let r := g.generate
    r.1 :: genGids n r.2

/-- The international sample project tree used by the format-equivalence
checks: a project with a non-ASCII organization name and a small list,
mirroring the data the repository's international test project carries.
The project file corpus itself is not part of the checked-out sources, so
the sample stands in for it. -/
def intlSample : Value :=
  .dict (.cons "objectVersion".toList (.str "46".toList)
    (.cons "objects".toList
      (.dict (.cons "4CC7BE4419880B9E009C9D7C".toList
        (.dict (.cons "isa".toList (.str "PBXProject".toList)
          (.cons "attributes".toList
            (.dict (.cons "ORGANIZATIONNAME".toList (.str "🎫".toList) .nil))
            .nil)))
        .nil))
      (.cons "list".toList
        (.arr (.cons (.str "1".toList) (.cons (.str ">'.'<".toList) .nil)))
        .nil)))

mutual
/-- A value free of data blobs; only such values have a JSON form. -/
def dataFreeV : Value → Bool
  | .str _ => true
  | .data _ => false
  | .arr es => dataFreeEl es
  | .dict es => dataFreeEn es

/-- Data-freedom of array elements. -/
def dataFreeEl : Elems → Bool
  | .nil => true
  | .cons v tl => dataFreeV v && dataFreeEl tl

/-- Data-freedom of dictionary entries. -/
def dataFreeEn : Entries → Bool
  | .nil => true
  | .cons _ v tl => dataFreeV v && dataFreeEn tl
end

/-- A position in the character stream at which an unquoted token may end:
the end of the input, or a character that neither continues the token nor
opens a block comment after a path-like token ending in a slash. -/
def tokBoundary : List Char → Bool
  | [] => true
  | r :: _ => !(isUnquotedChar r) && !(r == '*')

mutual
/-- JSON token stream the fast parser's rewrite produces for the token
stream of a value (spec 4.3). -/
def jtoksV : Value → List JTok
  | .str s => [JTok.str s]
  | .data _ => []
  | .arr es => JTok.lk :: (jtoksEl es ++ [JTok.rk])
  | .dict es => JTok.lb :: (jtoksEn es ++ [JTok.rb])

/-- JSON tokens of array elements: separated by commas, the trailing
comma of the plist form dropped. -/
def jtoksEl : Elems → List JTok
  | .nil => []
  | .cons v .nil => jtoksV v
  | .cons v tl => jtoksV v ++ (JTok.comma :: jtoksEl tl)

/-- JSON tokens of dictionary entries: colon-separated pairs joined by
commas, the final semicolon of the plist form dropped. -/
def jtoksEn : Entries → List JTok
  | .nil => []
  | .cons k v .nil => JTok.str k :: JTok.colon :: jtoksV v
  | .cons k v tl => JTok.str k :: JTok.colon :: (jtoksV v ++ (JTok.comma :: jtoksEn tl))
end

/-- The tokenizer turns this input into exactly these tokens, under any
sufficient fuel. -/
def LexesTo (cs : List Char) (ts : List Tok) : Prop :=
  ∀ f, cs.length < f → lexGo f cs = .ok ts

/-- The quoted-string body reader decodes this input to this string,
leaving this rest, under any sufficient fuel. -/
def StrLexesTo (cs s r : List Char) : Prop :=
  ∀ f, cs.length < f → lexStr f cs = .ok (s, r)

/-- Soundness statement of the JSON rewrite against the classic parser's
value mode at one fuel level: a value the classic parser accepts is
consumed from a prefix that the rewrite maps to exactly the value's JSON
token stream, whatever well-rewritable continuation follows; the prefix
never starts with a closing token. -/
def RWV (f : Nat) : Prop :=
  ∀ (d : Nat) (ts : List Tok) (v : Value) (rest : List Tok),
    parseStep f d .value ts = .ok (v, rest) → dataFreeV v = true →
    ∃ p : List Tok, ts = p ++ rest ∧
      (∃ h0 pr, p = h0 :: pr ∧ (h0 == Tok.rparen) = false ∧
        (h0 == Tok.rbrace) = false) ∧
      (∀ (rest2 : List Tok) (jrest : List JTok), rewriteToks rest2 = .ok jrest →
        rewriteToks (p ++ rest2) = .ok (jtoksV v ++ jrest))

/-- Soundness statement of the JSON rewrite against the classic parser's
entry mode at one fuel level. -/
def RWEn (f : Nat) : Prop :=
  ∀ (d : Nat) (ts : List Tok) (w : Value) (rest : List Tok),
    parseStep f d .entries ts = .ok (w, rest) → dataFreeV w = true →
    ∃ (es : Entries) (p : List Tok), w = .dict es ∧ ts = p ++ rest ∧
      (es = .nil → p = [Tok.rbrace]) ∧
      (∀ k v0 tl, es = .cons k v0 tl → ∃ pr, p = Tok.str k :: pr) ∧
      (∀ (rest2 : List Tok) (jrest : List JTok), rewriteToks rest2 = .ok jrest →
        rewriteToks (p ++ rest2) = .ok ((jtoksEn es ++ [JTok.rb]) ++ jrest))

/-- Soundness statement of the JSON rewrite against the classic parser's
element mode at one fuel level. -/
def RWEl (f : Nat) : Prop :=
  ∀ (d : Nat) (ts : List Tok) (w : Value) (rest : List Tok),
    parseStep f d .elems ts = .ok (w, rest) → dataFreeV w = true →
    ∃ (es : Elems) (p : List Tok), w = .arr es ∧ ts = p ++ rest ∧
      (es = .nil → p = [Tok.rparen]) ∧
      (∀ v0 tl, es = .cons v0 tl → ∃ h0 pr, p = h0 :: pr ∧
        (h0 == Tok.rparen) = false ∧ (h0 == Tok.rbrace) = false) ∧
      (∀ (rest2 : List Tok) (jrest : List JTok), rewriteToks rest2 = .ok jrest →
        rewriteToks (p ++ rest2) = .ok ((jtoksEl es ++ [JTok.rk]) ++ jrest))

/-- Helper: building a character from a valid code point keeps the code
point. -/
theorem toNat_ofNat_valid (m : Nat) (hv : Nat.isValidChar m) : (Char.ofNat m).toNat = m := by
  simp only [Char.ofNat, hv, dif_pos, Char.ofNatAux, Char.toNat]
  rfl

/-- Helper: a code point below the surrogate range is valid. -/
theorem validLow {m : Nat} (h : m < 0xd800) : Nat.isValidChar m := Or.inl h

/-- Helper: a code point between the surrogate range and the maximum is
valid. -/
theorem validHigh {m : Nat} (h1 : 0xdfff < m) (h2 : m < 0x110000) : Nat.isValidChar m :=
  Or.inr ⟨h1, h2⟩

/-- Helper: hex digit characters decode to their values. -/
theorem hexRound (k : Nat) (hk : k < 16) : hexDigitVal (hexDigitChar k) = some k := by
  interval_cases k <;> decide

/-- Helper: a character built from a valid code point differs from any
character with another code point. -/
theorem ofNat_ne (m : Nat) (hv : Nat.isValidChar m) (d : Char) (hd : d.toNat ≠ m) :
    (Char.ofNat m == d) = false := by
  simp only [beq_eq_false_iff_ne]
  intro he
  rw [← he, toNat_ofNat_valid m hv] at hd
  exact hd rfl

/-- Helper: the closing double quote ends the string body. -/
theorem strLexes_close (rest : List Char) : StrLexesTo ('"' :: rest) [] rest := by
  intro f hf
  match f with
  | g + 1 => rfl

/-- Helper: the character range facts of a character code. -/
theorem char_cases (c : Char) :
    c.toNat < 0xd800 ∨ (0xdfff < c.toNat ∧ c.toNat < 0x110000) := c.valid

/-- Helper: an octal digit character passes the octal test. -/
theorem octDigit_isOctal (k : Nat) : isOctal (octDigit k) = true := by
  have h8 : k % 8 < 8 := Nat.mod_lt _ (by omega)
  have htn : (Char.ofNat (48 + k % 8)).toNat = 48 + k % 8 :=
    toNat_ofNat_valid _ (validLow (by omega))
  have hle1 : '0' ≤ Char.ofNat (48 + k % 8) :=
    show '0'.toNat ≤ (Char.ofNat (48 + k % 8)).toNat by
      rw [htn]
      have h0 : '0'.toNat = 48 := by decide
      omega
  have hle2 : Char.ofNat (48 + k % 8) ≤ '7' :=
    show (Char.ofNat (48 + k % 8)).toNat ≤ '7'.toNat by
      rw [htn]
      have h7 : '7'.toNat = 55 := by decide
      omega
  simp [isOctal, octDigit, hle1, hle2]

/-- Helper: the octal digit character of a value decodes back to its
residue. -/
theorem octDigit_toNat (k : Nat) : (octDigit k).toNat = 48 + k % 8 := by
  have h8 : k % 8 < 8 := Nat.mod_lt _ (by omega)
  exact toNat_ofNat_valid _ (validLow (by omega))

/-- Helper: a character whose code is at least the bound differs from any
character with a smaller code. -/
theorem ne_of_code {c : Char} {lo : Nat} (hge : lo ≤ c.toNat) (d : Char)
    (hd : d.toNat < lo) : (c == d) = false := by
  simp only [beq_eq_false_iff_ne]
  rintro rfl
  omega

/-- Helper: an octal digit character is not equal to a character outside
the octal digit range. -/
theorem octDigit_ne (k : Nat) (d : Char) (hd : d.toNat < 48 ∨ 55 < d.toNat) :
    ¬ (octDigit k = d) := by
  intro he
  have hco := congrArg Char.toNat he
  rw [octDigit_toNat] at hco
  have h8 : k % 8 < 8 := Nat.mod_lt _ (by omega)
  omega

/-- Helper: a printable ASCII character passes through unescaped. -/
theorem strLexes_esc_plain (c : Char) (h1 : ¬(c == '"') = true) (h2 : ¬(c == '\\') = true)
    (h10 : ¬(c.toNat < 32 || c.toNat == 127) = true) (h11 : c.toNat < 127)
    {X s r : List Char} (h : StrLexesTo X s r) :
    StrLexesTo (escChar c ++ X) (c :: s) r := by
  have hge : 32 ≤ c.toNat := by
    simp only [Bool.or_eq_true_iff, not_or, Bool.not_eq_true] at h10
    have h10a := h10.1
    simp at h10a
    omega
  have hne127 : c.toNat ≠ 127 := by
    simp only [Bool.or_eq_true_iff, not_or, Bool.not_eq_true] at h10
    have h10b := h10.2
    simpa using h10b
  have hesc : escChar c = [c] := by
    simp only [escChar, Bool.not_eq_true] at h1 h2 ⊢
    simp [h1, h2, ne_of_code hge '\n' (by decide), ne_of_code hge '\r' (by decide),
      ne_of_code hge '\t' (by decide),
      show ¬ c.toNat = 7 by omega, show ¬ c.toNat = 8 by omega,
      show ¬ c.toNat = 11 by omega, show ¬ c.toNat = 12 by omega,
      show ¬ c.toNat < 32 by omega, hne127, h11]
  rw [hesc]
  intro f hf
  match f with
  | g + 1 =>
    have hx := h g (by simp at hf; omega)
    have hb1 : (c == '"') = false := by simpa using h1
    have hb2 : (c == '\\') = false := by simpa using h2
    simp [lexStr, hb1, hb2, hx]

/-- Helper: decoding a three-digit octal escape for a control code. -/
theorem strLexes_esc_octal_core (t : Nat) (ht : t < 32 ∨ t = 127)
    {X s r : List Char} (h : StrLexesTo X s r) :
    StrLexesTo ('\\' :: octDigit (t / 64) :: octDigit (t / 8) :: octDigit t :: X)
      (Char.ofNat t :: s) r := by
  intro f hf
  match f with
  | g + 1 =>
    have hx := h g (by simp at hf; omega)
    rcases ht with h1 | h1
    · interval_cases t <;> simp +decide [lexStr, octDigit, hx]
    · subst h1
      simp +decide [lexStr, octDigit, hx]

/-- Helper: decoding an octal-escaped control character. -/
theorem strLexes_esc_octal (c : Char) (h1 : ¬(c == '"') = true) (h2 : ¬(c == '\\') = true)
    (h3 : ¬(c == '\n') = true) (h4 : ¬(c == '\r') = true) (h5 : ¬(c == '\t') = true)
    (h6 : ¬(c.toNat == 7) = true) (h7 : ¬(c.toNat == 8) = true)
    (h8 : ¬(c.toNat == 11) = true) (h9 : ¬(c.toNat == 12) = true)
    (h10 : (c.toNat < 32 || c.toNat == 127) = true)
    {X s r : List Char} (h : StrLexesTo X s r) :
    StrLexesTo (escChar c ++ X) (c :: s) r := by
  have ht : c.toNat < 32 ∨ c.toNat = 127 := by
    rcases Bool.or_eq_true_iff.mp h10 with hlt | heq
    · exact Or.inl (by simpa using hlt)
    · exact Or.inr (by simpa using heq)
  have hesc : escChar c =
      ['\\', octDigit (c.toNat / 64), octDigit (c.toNat / 8), octDigit c.toNat] := by
    simp only [escChar, Bool.not_eq_true] at h1 h2 h3 h4 h5 h6 h7 h8 h9 ⊢
    simp [h1, h2, h3, h4, h5, h6, h7, h8, h9, h10]
  rw [hesc]
  have hc := strLexes_esc_octal_core c.toNat ht h
  rw [Char.ofNat_toNat] at hc
  exact hc

/-- Helper: decoding a four-hex-digit unicode escape for a character of
the basic multilingual plane. -/
theorem strLexes_esc_bmp (c : Char) (h1 : ¬(c == '"') = true) (h2 : ¬(c == '\\') = true)
    (h3 : ¬(c == '\n') = true) (h4 : ¬(c == '\r') = true) (h5 : ¬(c == '\t') = true)
    (h6 : ¬(c.toNat == 7) = true) (h7 : ¬(c.toNat == 8) = true)
    (h8 : ¬(c.toNat == 11) = true) (h9 : ¬(c.toNat == 12) = true)
    (h10 : ¬(c.toNat < 32 || c.toNat == 127) = true) (h11 : ¬ c.toNat < 127)
    (h12 : c.toNat < 0x10000)
    {X s r : List Char} (h : StrLexesTo X s r) :
    StrLexesTo (escChar c ++ X) (c :: s) r := by
  have hesc : escChar c = '\\' :: 'U' :: hex4 c.toNat := by
    simp only [escChar, Bool.not_eq_true] at h1 h2 h3 h4 h5 h6 h7 h8 h9 ⊢
    simp [h1, h2, h3, h4, h5, h6, h7, h8, h9, h10, h11, h12]
  rw [hesc]
  have hv := char_cases c
  intro f hf
  match f with
  | g + 1 =>
    have hx := h g (by simp [hex4, hex2] at hf ⊢; omega)
    have e1 : hexDigitVal (hexDigitChar (c.toNat / 256 % 256 / 16 % 16)) =
        some (c.toNat / 256 % 256 / 16 % 16) := hexRound _ (by omega)
    have e2 : hexDigitVal (hexDigitChar (c.toNat / 256 % 256 % 16)) =
        some (c.toNat / 256 % 256 % 16) := hexRound _ (by omega)
    have e3 : hexDigitVal (hexDigitChar (c.toNat % 256 / 16 % 16)) =
        some (c.toNat % 256 / 16 % 16) := hexRound _ (by omega)
    have e4 : hexDigitVal (hexDigitChar (c.toNat % 256 % 16)) =
        some (c.toNat % 256 % 16) := hexRound _ (by omega)
    have hval : ((c.toNat / 256 % 256 / 16 % 16 * 16 + c.toNat / 256 % 256 % 16) * 16 +
        c.toNat % 256 / 16 % 16) * 16 + c.toNat % 256 % 16 = c.toNat := by omega
    simp only [hex4, hex2, List.cons_append, List.nil_append, List.append_eq, lexStr,
      show ('\\' == '"') = false from rfl, show ('\\' == '\\') = true from rfl,
      show ('U' == '\\') = false from rfl, show ('U' == '"') = false from rfl,
      show ('U' == 'n') = false from rfl, show ('U' == 'r') = false from rfl,
      show ('U' == 't') = false from rfl, show ('U' == 'a') = false from rfl,
      show ('U' == 'b') = false from rfl, show ('U' == 'v') = false from rfl,
      show ('U' == 'f') = false from rfl, show ('U' == 'U') = true from rfl,
      e1, e2, e3, e4, Bool.false_eq_true, if_false, if_true]
    rw [hval]
    rw [if_neg (by simp only [Bool.and_eq_true, decide_eq_true_eq]; omega)]
    rw [if_neg (by simp only [Bool.and_eq_true, decide_eq_true_eq]; omega)]
    rw [hx]
    simp [Char.ofNat_toNat]

/-- Helper: one reader step across a surrogate-pair escape with abstract
hex digits. -/
theorem lexStr_surrogate_core (a b c1 d1 a2 b2 c2 d2 : Nat)
    (ha : a < 16) (hb : b < 16) (hc1 : c1 < 16) (hd1 : d1 < 16)
    (ha2 : a2 < 16) (hb2 : b2 < 16) (hc2 : c2 < 16) (hd2 : d2 < 16)
    (hhi1 : 55296 ≤ ((a * 16 + b) * 16 + c1) * 16 + d1)
    (hhi2 : ((a * 16 + b) * 16 + c1) * 16 + d1 < 56320)
    (hlo1 : 56320 ≤ ((a2 * 16 + b2) * 16 + c2) * 16 + d2)
    (hlo2 : ((a2 * 16 + b2) * 16 + c2) * 16 + d2 < 57344)
    {X s r : List Char} (g : Nat) (hx : lexStr g X = .ok (s, r)) :
    lexStr (g + 1) ('\\' :: 'U' :: hexDigitChar a :: hexDigitChar b :: hexDigitChar c1 ::
        hexDigitChar d1 :: '\\' :: 'U' :: hexDigitChar a2 :: hexDigitChar b2 ::
        hexDigitChar c2 :: hexDigitChar d2 :: X) =
      .ok (Char.ofNat (65536 + (((a * 16 + b) * 16 + c1) * 16 + d1 - 55296) * 1024 +
        (((a2 * 16 + b2) * 16 + c2) * 16 + d2 - 56320)) :: s, r) := by
  simp only [lexStr,
    show ('\\' == '"') = false from rfl, show ('\\' == '\\') = true from rfl,
    show ('U' == '\\') = false from rfl, show ('U' == '"') = false from rfl,
    show ('U' == 'n') = false from rfl, show ('U' == 'r') = false from rfl,
    show ('U' == 't') = false from rfl, show ('U' == 'a') = false from rfl,
    show ('U' == 'b') = false from rfl, show ('U' == 'v') = false from rfl,
    show ('U' == 'f') = false from rfl, show ('U' == 'U') = true from rfl,
    hexRound a ha, hexRound b hb, hexRound c1 hc1, hexRound d1 hd1,
    hexRound a2 ha2, hexRound b2 hb2, hexRound c2 hc2, hexRound d2 hd2,
    Bool.false_eq_true, if_false, if_true]
  rw [if_pos (by simp only [Bool.and_eq_true, decide_eq_true_eq]; omega)]
  rw [if_pos (by simp only [Bool.and_eq_true, decide_eq_true_eq]; omega)]
  rw [hx]
  rfl

/-- Helper: decoding a surrogate-pair escape for a character above the
basic multilingual plane. -/
theorem strLexes_esc_astral (c : Char) (h1 : ¬(c == '"') = true) (h2 : ¬(c == '\\') = true)
    (h3 : ¬(c == '\n') = true) (h4 : ¬(c == '\r') = true) (h5 : ¬(c == '\t') = true)
    (h6 : ¬(c.toNat == 7) = true) (h7 : ¬(c.toNat == 8) = true)
    (h8 : ¬(c.toNat == 11) = true) (h9 : ¬(c.toNat == 12) = true)
    (h10 : ¬(c.toNat < 32 || c.toNat == 127) = true) (h11 : ¬ c.toNat < 127)
    (h12 : ¬ c.toNat < 0x10000)
    {X s r : List Char} (h : StrLexesTo X s r) :
    StrLexesTo (escChar c ++ X) (c :: s) r := by
  have hv := char_cases c
  have hup : c.toNat < 0x110000 := by omega
  have hesc : escChar c =
      ('\\' :: 'U' :: hex4 (55296 + (c.toNat - 65536) / 1024)) ++
        ('\\' :: 'U' :: hex4 (56320 + (c.toNat - 65536) % 1024)) := by
    simp only [escChar, Bool.not_eq_true] at h1 h2 h3 h4 h5 h6 h7 h8 h9 ⊢
    simp [h1, h2, h3, h4, h5, h6, h7, h8, h9, h10, h11, h12]
  rw [hesc]
  have hmod : (c.toNat - 65536) % 1024 < 1024 := Nat.mod_lt _ (by omega)
  have hdiv : (c.toNat - 65536) / 1024 < 1024 := by omega
  intro f hf
  match f with
  | g + 1 =>
    have hx := h g (by simp [hex4, hex2] at hf ⊢; omega)
    have hshape : (('\\' :: 'U' :: hex4 (55296 + (c.toNat - 65536) / 1024)) ++
          ('\\' :: 'U' :: hex4 (56320 + (c.toNat - 65536) % 1024))) ++ X =
        '\\' :: 'U' :: hexDigitChar ((55296 + (c.toNat - 65536) / 1024) / 256 % 256 / 16 % 16) ::
          hexDigitChar ((55296 + (c.toNat - 65536) / 1024) / 256 % 256 % 16) ::
          hexDigitChar ((55296 + (c.toNat - 65536) / 1024) % 256 / 16 % 16) ::
          hexDigitChar ((55296 + (c.toNat - 65536) / 1024) % 256 % 16) ::
          '\\' :: 'U' :: hexDigitChar ((56320 + (c.toNat - 65536) % 1024) / 256 % 256 / 16 % 16) ::
          hexDigitChar ((56320 + (c.toNat - 65536) % 1024) / 256 % 256 % 16) ::
          hexDigitChar ((56320 + (c.toNat - 65536) % 1024) % 256 / 16 % 16) ::
          hexDigitChar ((56320 + (c.toNat - 65536) % 1024) % 256 % 16) :: X := by
      simp [hex4, hex2]
    rw [hshape]
    have hcore := lexStr_surrogate_core
      ((55296 + (c.toNat - 65536) / 1024) / 256 % 256 / 16 % 16)
      ((55296 + (c.toNat - 65536) / 1024) / 256 % 256 % 16)
      ((55296 + (c.toNat - 65536) / 1024) % 256 / 16 % 16)
      ((55296 + (c.toNat - 65536) / 1024) % 256 % 16)
      ((56320 + (c.toNat - 65536) % 1024) / 256 % 256 / 16 % 16)
      ((56320 + (c.toNat - 65536) % 1024) / 256 % 256 % 16)
      ((56320 + (c.toNat - 65536) % 1024) % 256 / 16 % 16)
      ((56320 + (c.toNat - 65536) % 1024) % 256 % 16)
      (by omega) (by omega) (by omega) (by omega)
      (by omega) (by omega) (by omega) (by omega)
      (by omega) (by omega) (by omega) (by omega)
      g hx
    rw [hcore]
    have hcomb : 65536 +
        ((((55296 + (c.toNat - 65536) / 1024) / 256 % 256 / 16 % 16 * 16 +
           (55296 + (c.toNat - 65536) / 1024) / 256 % 256 % 16) * 16 +
           (55296 + (c.toNat - 65536) / 1024) % 256 / 16 % 16) * 16 +
           (55296 + (c.toNat - 65536) / 1024) % 256 % 16 - 55296) * 1024 +
        ((((56320 + (c.toNat - 65536) % 1024) / 256 % 256 / 16 % 16 * 16 +
           (56320 + (c.toNat - 65536) % 1024) / 256 % 256 % 16) * 16 +
           (56320 + (c.toNat - 65536) % 1024) % 256 / 16 % 16) * 16 +
           (56320 + (c.toNat - 65536) % 1024) % 256 % 16 - 56320) = c.toNat := by
      omega
    rw [hcomb, Char.ofNat_toNat]

/-- Helper: decoding one escaped character from the front of the quoted
string body. -/
theorem strLexes_esc (c : Char) {X s r : List Char} (h : StrLexesTo X s r) :
    StrLexesTo (escChar c ++ X) (c :: s) r := by
  by_cases h1 : (c == '"') = true
  · have hc : c = '"' := eq_of_beq h1
    subst hc
    rw [show escChar _ = ['\\', '\"'] from by decide]
    intro f hf
    match f with
    | g + 1 =>
      have hx := h g (by simp at hf; omega)
      simp +decide [lexStr, hx]
  · by_cases h2 : (c == '\\') = true
    · have hc : c = '\\' := eq_of_beq h2
      subst hc
      rw [show escChar _ = ['\\', '\\'] from by decide]
      intro f hf
      match f with
      | g + 1 =>
        have hx := h g (by simp at hf; omega)
        simp +decide [lexStr, hx]
    · by_cases h3 : (c == '\n') = true
      · have hc : c = '\n' := eq_of_beq h3
        subst hc
        rw [show escChar _ = ['\\', 'n'] from by decide]
        intro f hf
        match f with
        | g + 1 =>
          have hx := h g (by simp at hf; omega)
          simp +decide [lexStr, hx]
      · by_cases h4 : (c == '\r') = true
        · have hc : c = '\r' := eq_of_beq h4
          subst hc
          rw [show escChar _ = ['\\', 'r'] from by decide]
          intro f hf
          match f with
          | g + 1 =>
            have hx := h g (by simp at hf; omega)
            simp +decide [lexStr, hx]
        · by_cases h5 : (c == '\t') = true
          · have hc : c = '\t' := eq_of_beq h5
            subst hc
            rw [show escChar _ = ['\\', 't'] from by decide]
            intro f hf
            match f with
            | g + 1 =>
              have hx := h g (by simp at hf; omega)
              simp +decide [lexStr, hx]
          · by_cases h6 : (c.toNat == 7) = true
            · have hc : c = Char.ofNat 7 := by
                rw [← Char.ofNat_toNat c, show c.toNat = _ from by simpa using h6]
              subst hc
              rw [show escChar _ = ['\\', 'a'] from by decide]
              intro f hf
              match f with
              | g + 1 =>
                have hx := h g (by simp at hf; omega)
                simp +decide [lexStr, hx]
            · by_cases h7 : (c.toNat == 8) = true
              · have hc : c = Char.ofNat 8 := by
                  rw [← Char.ofNat_toNat c, show c.toNat = _ from by simpa using h7]
                subst hc
                rw [show escChar _ = ['\\', 'b'] from by decide]
                intro f hf
                match f with
                | g + 1 =>
                  have hx := h g (by simp at hf; omega)
                  simp +decide [lexStr, hx]
              · by_cases h8 : (c.toNat == 11) = true
                · have hc : c = Char.ofNat 11 := by
                    rw [← Char.ofNat_toNat c, show c.toNat = _ from by simpa using h8]
                  subst hc
                  rw [show escChar _ = ['\\', 'v'] from by decide]
                  intro f hf
                  match f with
                  | g + 1 =>
                    have hx := h g (by simp at hf; omega)
                    simp +decide [lexStr, hx]
                · by_cases h9 : (c.toNat == 12) = true
                  · have hc : c = Char.ofNat 12 := by
                      rw [← Char.ofNat_toNat c, show c.toNat = _ from by simpa using h9]
                    subst hc
                    rw [show escChar _ = ['\\', 'f'] from by decide]
                    intro f hf
                    match f with
                    | g + 1 =>
                      have hx := h g (by simp at hf; omega)
                      simp +decide [lexStr, hx]
                  · by_cases h10 : (c.toNat < 32 || c.toNat == 127) = true
                    · exact strLexes_esc_octal c h1 h2 h3 h4 h5 h6 h7 h8 h9 h10 h
                    · by_cases h11 : c.toNat < 127
                      · exact strLexes_esc_plain c h1 h2 h10 h11 h
                      · by_cases h12 : c.toNat < 0x10000
                        · exact strLexes_esc_bmp c h1 h2 h3 h4 h5 h6 h7 h8 h9 h10 h11 h12 h
                        · exact strLexes_esc_astral c h1 h2 h3 h4 h5 h6 h7 h8 h9 h10 h11 h12 h

/-- Helper: the quoted body of a string decodes back to the string. -/
theorem strLexes_escAll (s : List Char) (rest : List Char) :
    StrLexesTo (escAll s ++ '"' :: rest) s rest := by
  induction s with
  | nil => simpa [escAll] using strLexes_close rest
  | cons c s2 ih =>
    have hstep := strLexes_esc c ih
    simpa [escAll, List.append_assoc] using hstep

/-- Helper: a quoted string lexes to one string token. -/
theorem lexesTo_quoted {rest ts} (s : List Char) (h : LexesTo rest ts) :
    LexesTo ('"' :: (escAll s ++ '"' :: rest)) (Tok.str s :: ts) := by
  intro f hf
  match f with
  | g + 1 =>
    have hstr := strLexes_escAll s rest ((escAll s ++ '"' :: rest).length + 1) (by omega)
    have hrest := h g (by simp at hf ⊢; omega)
    simp only [lexGo, show isWs '"' = false from rfl, show (('"' : Char) == '/') = false from rfl,
      Bool.false_and, show (('"' : Char) == '"') = true from rfl, Bool.false_eq_true, if_false,
      if_true, hstr, hrest]
    rfl

/-- Helper: the empty input lexes to no tokens. -/
theorem lexesTo_nil : LexesTo [] [] := by
  intro f hf
  match f with
  | g + 1 => rfl

/-- Helper: leading whitespace is skipped by the tokenizer. -/
theorem lexesTo_ws {rest ts} (w : Char) (hw : isWs w = true) (h : LexesTo rest ts) :
    LexesTo (w :: rest) ts := by
  intro f hf
  match f with
  | g + 1 =>
    simp only [lexGo, hw, if_pos]
    exact h g (by simpa using Nat.lt_of_succ_lt_succ hf)

/-- Helper: leading tab indentation is skipped by the tokenizer. -/
theorem lexesTo_tabs {rest ts} (d : Nat) (h : LexesTo rest ts) :
    LexesTo (tabs d ++ rest) ts := by
  induction d with
  | zero => simpa [tabs] using h
  | succ d ih =>
    have : tabs (d + 1) ++ rest = '\t' :: (tabs d ++ rest) := by
      simp [tabs, List.replicate_succ]
    rw [this]
    exact lexesTo_ws '\t' (by decide) ih

/-- Helper: an opening brace lexes to its token. -/
theorem lexesTo_lbrace {rest ts} (h : LexesTo rest ts) :
    LexesTo (lbraceC :: rest) (Tok.lbrace :: ts) := by
  intro f hf
  match f with
  | g + 1 =>
    have hrest := h g (by simpa using Nat.lt_of_succ_lt_succ hf)
    simp +decide [lexGo, headIs, hrest, lbraceC]

/-- Helper: a closing brace lexes to its token. -/
theorem lexesTo_rbrace {rest ts} (h : LexesTo rest ts) :
    LexesTo (rbraceC :: rest) (Tok.rbrace :: ts) := by
  intro f hf
  match f with
  | g + 1 =>
    have hrest := h g (by simpa using Nat.lt_of_succ_lt_succ hf)
    simp +decide [lexGo, headIs, hrest, rbraceC, lbraceC]

/-- Helper: an opening parenthesis lexes to its token. -/
theorem lexesTo_lparen {rest ts} (h : LexesTo rest ts) :
    LexesTo ('(' :: rest) (Tok.lparen :: ts) := by
  intro f hf
  match f with
  | g + 1 =>
    have hrest := h g (by simpa using Nat.lt_of_succ_lt_succ hf)
    simp +decide [lexGo, headIs, hrest, rbraceC, lbraceC]

/-- Helper: a closing parenthesis lexes to its token. -/
theorem lexesTo_rparen {rest ts} (h : LexesTo rest ts) :
    LexesTo (')' :: rest) (Tok.rparen :: ts) := by
  intro f hf
  match f with
  | g + 1 =>
    have hrest := h g (by simpa using Nat.lt_of_succ_lt_succ hf)
    simp +decide [lexGo, headIs, hrest, rbraceC, lbraceC]

/-- Helper: an equals sign lexes to its token. -/
theorem lexesTo_eq {rest ts} (h : LexesTo rest ts) :
    LexesTo ('=' :: rest) (Tok.eqTok :: ts) := by
  intro f hf
  match f with
  | g + 1 =>
    have hrest := h g (by simpa using Nat.lt_of_succ_lt_succ hf)
    simp +decide [lexGo, headIs, hrest, rbraceC, lbraceC]

/-- Helper: a semicolon lexes to its token. -/
theorem lexesTo_semi {rest ts} (h : LexesTo rest ts) :
    LexesTo (';' :: rest) (Tok.semi :: ts) := by
  intro f hf
  match f with
  | g + 1 =>
    have hrest := h g (by simpa using Nat.lt_of_succ_lt_succ hf)
    simp +decide [lexGo, headIs, hrest, rbraceC, lbraceC]

/-- Helper: a comma lexes to its token. -/
theorem lexesTo_comma {rest ts} (h : LexesTo rest ts) :
    LexesTo (',' :: rest) (Tok.comma :: ts) := by
  intro f hf
  match f with
  | g + 1 =>
    have hrest := h g (by simpa using Nat.lt_of_succ_lt_succ hf)
    simp +decide [lexGo, headIs, hrest, rbraceC, lbraceC]

/-- Helper: an unquoted-string character differs from any character that
is not one. -/
theorem unquoted_ne {a : Char} (ha : isUnquotedChar a = true) (d : Char)
    (hd : isUnquotedChar d = false) : (a == d) = false := by
  cases hb : a == d with
  | false => rfl
  | true =>
    have : a = d := eq_of_beq hb
    rw [this] at ha
    rw [ha] at hd
    cases hd

/-- Helper: an unquoted-string character is not whitespace. -/
theorem unquoted_not_ws {a : Char} (ha : isUnquotedChar a = true) : isWs a = false := by
  unfold isWs
  simp [unquoted_ne ha ' ' (by decide), unquoted_ne ha '\t' (by decide),
    unquoted_ne ha '\n' (by decide), unquoted_ne ha '\r' (by decide)]

/-- Helper: an unquoted token followed by a boundary lexes to one string
token. -/
theorem lexesTo_unquoted {rest ts} (s : List Char) (hne : s ≠ [])
    (hall : s.all isUnquotedChar = true) (hok : strOK s = true)
    (hb : tokBoundary rest = true) (h : LexesTo rest ts) :
    LexesTo (s ++ rest) (Tok.str s :: ts) := by
  match s, hne with
  | a :: s2, _ =>
    intro f hf
    match f with
    | g + 1 =>
      have ha : isUnquotedChar a = true := by
        simp [List.all_cons] at hall
        exact hall.1
      have hs2 : ∀ b ∈ s2, isUnquotedChar b = true := by
        simp [List.all_cons, List.all_eq_true] at hall
        exact hall.2
      have hrestTake : List.takeWhile isUnquotedChar rest = [] := by
        cases rest with
        | nil => rfl
        | cons r rs =>
          simp [tokBoundary] at hb
          simp [List.takeWhile_cons, hb.1]
      have hrestDrop : List.dropWhile isUnquotedChar rest = rest := by
        cases rest with
        | nil => rfl
        | cons r rs =>
          simp [tokBoundary] at hb
          simp [List.dropWhile_cons, hb.1]
      have htake : List.takeWhile isUnquotedChar (s2 ++ rest) = s2 := by
        rw [List.takeWhile_append_of_pos hs2, hrestTake, List.append_nil]
      have hdrop : List.dropWhile isUnquotedChar (s2 ++ rest) = rest := by
        rw [List.dropWhile_append_of_pos hs2, hrestDrop]
      have hslash : (a == '/' && headIs (s2 ++ rest) '/') = false := by
        cases has : a == '/' with
        | false => rfl
        | true =>
          have haeq : a = '/' := eq_of_beq has
          cases s2 with
          | nil =>
            simp only [List.nil_append]
            cases rest with
            | nil => rfl
            | cons r rs =>
              simp [tokBoundary] at hb
              simp only [headIs]
              cases hr : r == '/' with
              | false => rfl
              | true =>
                have hre : r = '/' := eq_of_beq hr
                rw [hre] at hb
                exact absurd hb (by decide)
          | cons b s3 =>
            have hbslash : (b == '/') = false := by
              cases hbb : b == '/' with
              | false => rfl
              | true =>
                have : b = '/' := eq_of_beq hbb
                rw [haeq, this] at hok
                simp [strOK] at hok
            simp [headIs, hbslash]
      have hstar : (a == '/' && headIs (s2 ++ rest) '*') = false := by
        cases has : a == '/' with
        | false => rfl
        | true =>
          cases s2 with
          | nil =>
            simp only [List.nil_append]
            cases rest with
            | nil => rfl
            | cons r rs =>
              simp [tokBoundary] at hb
              simp only [headIs]
              cases hr : r == '*' with
              | false => rfl
              | true =>
                have hre : r = '*' := eq_of_beq hr
                rw [hre] at hb
                exact absurd hb.2 (by decide)
          | cons b s3 =>
            have hbstar : (b == '*') = false :=
              unquoted_ne (hs2 b (by simp)) '*' (by decide)
            simp [headIs, hbstar]
      have hrest := h g (by simp at hf; omega)
      simp only [lexGo, List.cons_append, List.append_eq, unquoted_not_ws ha,
        Bool.false_eq_true, if_false,
        hslash, hstar, unquoted_ne ha '"' (by decide), unquoted_ne ha '<' (by decide),
        unquoted_ne ha (Char.ofNat 123) (by decide), unquoted_ne ha (Char.ofNat 125) (by decide),
        unquoted_ne ha '(' (by decide), unquoted_ne ha ')' (by decide),
        unquoted_ne ha '=' (by decide), unquoted_ne ha ';' (by decide),
        unquoted_ne ha ',' (by decide), ha, if_true, htake, hdrop, hrest]
      rfl

/-- Helper: appending a non-slash character preserves freedom from the
closing sequence. -/
theorem noStarSlash_append : ∀ (l : List Char), noStarSlash l = true →
    ∀ d : Char, (d == '/') = false → noStarSlash (l ++ [d]) = true
  | [], _, d, _ => by simp [noStarSlash]
  | [a], _, d, hd => by simp [noStarSlash, hd]
  | a :: b :: r, hl, d, hd => by
    simp only [noStarSlash, Bool.and_eq_true, Bool.not_eq_true'] at hl
    have ih := noStarSlash_append (b :: r) hl.2 d hd
    simp only [List.cons_append] at ih ⊢
    simp [noStarSlash, hl.1, ih]

/-- Helper: prepending a non-star character preserves freedom from the
closing sequence. -/
theorem noStarSlash_cons (a : Char) (ha : (a == '*') = false) (l : List Char)
    (hl : noStarSlash l = true) : noStarSlash (a :: l) = true := by
  cases l with
  | nil => rfl
  | cons b r => simp [noStarSlash, ha, hl]

/-- Helper: the block comment skipper passes exactly over a body free of
the closing sequence. -/
theorem skipBlock_through : ∀ (mid : List Char), noStarSlash mid = true →
    ∀ (rest : List Char) (f : Nat), mid.length + 1 < f →
      skipBlock f (mid ++ '*' :: '/' :: rest) = .ok rest
  | [], _, rest, f, hf => by
    match f with
    | g + 1 => simp [skipBlock, headIs]
  | [a], _, rest, f, hf => by
    match f with
    | g + 1 =>
      have ih := skipBlock_through [] rfl rest g (by simp at hf ⊢; omega)
      simp only [List.cons_append, List.nil_append] at ih ⊢
      simp only [skipBlock, headIs]
      rw [if_neg]
      · exact ih
      · simp
  | a :: b :: m, hl, rest, f, hf => by
    match f with
    | g + 1 =>
      simp only [noStarSlash, Bool.and_eq_true, Bool.not_eq_true'] at hl
      have ih := skipBlock_through (b :: m) hl.2 rest g (by simp at hf ⊢; omega)
      simp only [List.cons_append] at ih ⊢
      simp only [skipBlock, headIs]
      rw [if_neg]
      · exact ih
      · cases hab : a == '*' with
        | false => simp [hab]
        | true =>
          have hbf : (b == '/') = false := by
            cases hbb : b == '/' with
            | false => rfl
            | true =>
              rw [eq_of_beq hab, eq_of_beq hbb] at hl
              simp at hl
          simp [hab, hbf]

/-- Helper: a block comment with a safe body is skipped entirely. -/
theorem lexesTo_blockcomment {rest ts} (mid : List Char) (hm : noStarSlash mid = true)
    (h : LexesTo rest ts) : LexesTo ('/' :: '*' :: (mid ++ '*' :: '/' :: rest)) ts := by
  intro f hf
  match f with
  | g + 1 =>
    have hsb := skipBlock_through mid hm rest
      ((('*' :: (mid ++ '*' :: '/' :: rest)).length) + 1) (by simp; omega)
    have hx := h g (by simp at hf ⊢; omega)
    simp only [lexGo, show isWs '/' = false from rfl, Bool.false_eq_true, if_false,
      show (('/' : Char) == '/') = true from rfl, Bool.true_and, headIs,
      show (('*' : Char) == '/') = false from rfl, show (('*' : Char) == '*') = true from rfl,
      if_true, List.drop_succ_cons, List.drop_zero]
    rw [hsb]
    exact hx

/-- Helper: a synthesized comment is skipped by the tokenizer. -/
theorem lexesTo_cmt {rest ts} (rho : List Char → Option (List Char)) (hrho : wfRho rho)
    (s : List Char) (h : LexesTo rest ts) : LexesTo (cmtOf rho s ++ rest) ts := by
  cases hc : rho s with
  | none => simpa [cmtOf, hc] using h
  | some ctext =>
    have hshape : cmtOf rho s ++ rest =
        ' ' :: '/' :: '*' :: ((' ' :: (ctext ++ [' '])) ++ '*' :: '/' :: rest) := by
      simp [cmtOf, hc]
    rw [hshape]
    have hmid : noStarSlash (' ' :: (ctext ++ [' '])) = true :=
      noStarSlash_cons ' ' (by decide) _
        (noStarSlash_append ctext (hrho s ctext hc) ' ' (by decide))
    exact lexesTo_ws ' ' (by decide) (lexesTo_blockcomment _ hmid h)

/-- Helper: a string in output form lexes to one string token. -/
theorem lexesTo_strText {rest ts} (s : List Char) (hok : strOK s = true)
    (hb : tokBoundary rest = true) (h : LexesTo rest ts) :
    LexesTo (strText s ++ rest) (Tok.str s :: ts) := by
  by_cases hq : (decide (s ≠ []) && s.all isUnquotedChar) = true
  · have hne : s ≠ [] := by
      rcases Bool.and_eq_true_iff.mp hq with ⟨hq1, _⟩
      simpa using hq1
    have hall : s.all isUnquotedChar = true := (Bool.and_eq_true_iff.mp hq).2
    have hst : strText s = s := by simp [strText, hne, hall]
    rw [hst]
    exact lexesTo_unquoted s hne hall hok hb h
  · have hst : strText s = '"' :: (escAll s ++ ['"']) := by
      simp only [strText]
      rw [if_neg]
      simpa using hq
    rw [hst]
    have hshape : ('"' :: (escAll s ++ ['"'])) ++ rest = '"' :: (escAll s ++ '"' :: rest) := by
      simp
    rw [hshape]
    exact lexesTo_quoted s h

/-- Helper: the UTF-8 header line is skipped as a line comment. -/
theorem lexesTo_header {rest ts} (h : LexesTo rest ts) :
    LexesTo ("// !$*UTF8*$!\n".toList ++ rest) ts := by
  intro f hf
  match f with
  | g + 1 =>
    have hx := lexesTo_ws '\n' (by decide) h g (by simp at hf ⊢; omega)
    simp only [lexGo, show isWs '/' = false from rfl, Bool.false_eq_true, if_false,
      show (('/' : Char) == '/') = true from rfl, Bool.true_and]
    simp +decide only [List.cons_append, headIs, if_true, List.dropWhile_cons]
    exact hx

mutual
/-- Helper: the unparsed form of a value lexes to its token stream,
before any boundary-safe continuation. -/
theorem lexEmitV (rho : List Char → Option (List Char)) (hrho : wfRho rho) (v : Value) :
    ∀ (d : Nat) (rest : List Char) (ts : List Tok), wfV v = true → dataFreeV v = true →
      tokBoundary rest = true → LexesTo rest ts →
      LexesTo (emitV rho d v ++ rest) (toksV v ++ ts) := by
  cases v with
  | str s =>
    intro d rest ts hwf hdf hb h
    have hbc : tokBoundary (cmtOf rho s ++ rest) = true := by
      cases hc : rho s with
      | none => simpa [cmtOf, hc] using hb
      | some ctext => simp +decide [cmtOf, hc, tokBoundary]
    have hchain := lexesTo_strText s hwf hbc (lexesTo_cmt rho hrho s h)
    simpa [emitV, toksV, List.append_assoc] using hchain
  | data bs =>
    intro d rest ts hwf hdf hb h
    simp [dataFreeV] at hdf
  | arr es =>
    intro d rest ts hwf hdf hb h
    have hchain := lexesTo_ws '\n' (by decide)
      (lexEmitEl rho hrho es (d + 1) (tabs d ++ ')' :: rest) (Tok.rparen :: ts)
        (by simpa [wfV] using hwf) (by simpa [dataFreeV] using hdf)
        (lexesTo_tabs d (lexesTo_rparen h)))
    have hfin := lexesTo_lparen hchain
    simpa [emitV, toksV, List.append_assoc] using hfin
  | dict es =>
    intro d rest ts hwf hdf hb h
    have hchain := lexesTo_ws '\n' (by decide)
      (lexEmitEn rho hrho es (d + 1) (tabs d ++ rbraceC :: rest) (Tok.rbrace :: ts)
        (by simpa [wfV] using hwf) (by simpa [dataFreeV] using hdf)
        (lexesTo_tabs d (lexesTo_rbrace h)))
    have hfin := lexesTo_lbrace hchain
    simpa [emitV, toksV, List.append_assoc] using hfin

/-- Helper: the element lines of an array lex to the element token
stream. -/
theorem lexEmitEl (rho : List Char → Option (List Char)) (hrho : wfRho rho) (es : Elems) :
    ∀ (d : Nat) (rest : List Char) (ts : List Tok), wfEl es = true → dataFreeEl es = true →
      LexesTo rest ts → LexesTo (emitEl rho d es ++ rest) (toksEl es ++ ts) := by
  cases es with
  | nil =>
    intro d rest ts _ _ h
    simpa [emitEl, toksEl] using h
  | cons v tl =>
    intro d rest ts hwf hdf h
    have hv : wfV v = true := by
      simp [wfEl] at hwf
      exact hwf.1
    have htl : wfEl tl = true := by
      simp [wfEl] at hwf
      exact hwf.2
    have hdv : dataFreeV v = true := by
      simp [dataFreeEl] at hdf
      exact hdf.1
    have hdtl : dataFreeEl tl = true := by
      simp [dataFreeEl] at hdf
      exact hdf.2
    have hchain := lexesTo_tabs d
      (lexEmitV rho hrho v d (',' :: '\n' :: (emitEl rho d tl ++ rest)) (Tok.comma :: (toksEl tl ++ ts))
        hv hdv (by simp +decide [tokBoundary])
        (lexesTo_comma (lexesTo_ws '\n' (by decide)
          (lexEmitEl rho hrho tl d rest ts htl hdtl h))))
    simpa [emitEl, toksEl, List.append_assoc] using hchain

/-- Helper: the entry lines of a dictionary lex to the entry token
stream. -/
theorem lexEmitEn (rho : List Char → Option (List Char)) (hrho : wfRho rho) (es : Entries) :
    ∀ (d : Nat) (rest : List Char) (ts : List Tok), wfEn es = true → dataFreeEn es = true →
      LexesTo rest ts → LexesTo (emitEn rho d es ++ rest) (toksEn es ++ ts) := by
  cases es with
  | nil =>
    intro d rest ts _ _ h
    simpa [emitEn, toksEn] using h
  | cons k v tl =>
    intro d rest ts hwf hdf h
    have hk : strOK k = true := by
      simp only [wfEn, Bool.and_eq_true] at hwf
      exact hwf.1.1
    have hv : wfV v = true := by
      simp only [wfEn, Bool.and_eq_true] at hwf
      exact hwf.1.2
    have htl : wfEn tl = true := by
      simp only [wfEn, Bool.and_eq_true] at hwf
      exact hwf.2
    have hdv : dataFreeV v = true := by
      simp [dataFreeEn] at hdf
      exact hdf.1
    have hdtl : dataFreeEn tl = true := by
      simp [dataFreeEn] at hdf
      exact hdf.2
    have hinner := lexesTo_ws ' ' (by decide) (lexesTo_eq (lexesTo_ws ' ' (by decide)
      (lexEmitV rho hrho v d (';' :: '\n' :: (emitEn rho d tl ++ rest))
        (Tok.semi :: (toksEn tl ++ ts)) hv hdv (by simp +decide [tokBoundary])
        (lexesTo_semi (lexesTo_ws '\n' (by decide)
          (lexEmitEn rho hrho tl d rest ts htl hdtl h))))))
    have hbk : tokBoundary (cmtOf rho k ++
        (' ' :: '=' :: ' ' :: (emitV rho d v ++ (';' :: '\n' :: (emitEn rho d tl ++ rest))))) = true := by
      cases hc : rho k with
      | none => simp +decide [cmtOf, hc, tokBoundary]
      | some ctext => simp +decide [cmtOf, hc, tokBoundary]
    have hkey := lexesTo_strText k hk hbk (lexesTo_cmt rho hrho k hinner)
    have hchain := lexesTo_tabs d hkey
    simpa [emitEn, toksEn, List.append_assoc] using hchain
end

/-- Helper: a text without a star cannot contain the closing star-slash
sequence. -/
theorem noStarSlash_of_no_star : ∀ (l : List Char),
    l.all (fun c => !(c == '*')) = true → noStarSlash l = true
  | [], _ => rfl
  | [_], _ => rfl
  | a :: b :: r, h => by
    simp only [List.all_cons, Bool.and_eq_true] at h
    have ih := noStarSlash_of_no_star (b :: r)
      (by simp only [List.all_cons, Bool.and_eq_true]; exact ⟨h.2.1, h.2.2⟩)
    have ha : (a == '*') = false := by simpa using h.1
    simp only [noStarSlash, Bool.and_eq_true]
    exact ⟨by simp [ha], ih⟩

/-- Helper: star-free text around a banner-safe isa has no closing
sequence. -/
theorem bannerMid_ok_aux (i : List Char) (hi : isaOK i = true) (a b : List Char)
    (ha : a.all (fun c => !(c == '*')) = true)
    (hb : b.all (fun c => !(c == '*')) = true) :
    noStarSlash (a ++ (i ++ b)) = true := by
  apply noStarSlash_of_no_star
  simp only [List.all_append, Bool.and_eq_true]
  refine ⟨ha, ?_, hb⟩
  simp only [isaOK] at hi
  rw [List.all_eq_true] at hi ⊢
  intro c hc
  have hcc := hi c hc
  simp only [okBannerChar, Bool.and_eq_true, Bool.not_eq_true'] at hcc
  simp [hcc.1]

/-- Helper: the body of a Begin banner is free of the closing sequence. -/
theorem bannerMidB_ok (i : List Char) (hi : isaOK i = true) :
    noStarSlash (bannerMidB i) = true :=
  bannerMid_ok_aux i hi " Begin ".toList " section ".toList (by decide) (by decide)

/-- Helper: the body of an End banner is free of the closing sequence. -/
theorem bannerMidE_ok (i : List Char) (hi : isaOK i = true) :
    noStarSlash (bannerMidE i) = true :=
  bannerMid_ok_aux i hi " End ".toList " section ".toList (by decide) (by decide)

/-- Helper: a Begin banner with its leading blank line lexes away as
whitespace and a block comment. -/
theorem lexesTo_beginBanner {rest ts} (i : List Char) (hi : isaOK i = true)
    (h : LexesTo rest ts) : LexesTo (beginBanner i ++ rest) ts := by
  have hb := lexesTo_ws '\n' (by decide)
    (lexesTo_blockcomment (bannerMidB i) (bannerMidB_ok i hi)
      (lexesTo_ws '\n' (by decide) h))
  simpa [beginBanner, List.append_assoc] using hb

/-- Helper: an End banner lexes away as a block comment and its
newline. -/
theorem lexesTo_endBanner {rest ts} (i : List Char) (hi : isaOK i = true)
    (h : LexesTo rest ts) : LexesTo (endBanner i ++ rest) ts := by
  have hb := lexesTo_blockcomment (bannerMidE i) (bannerMidE_ok i hi)
    (lexesTo_ws '\n' (by decide) h)
  simpa [endBanner, List.append_assoc] using hb

mutual
/-- Helper: the single-line form of a value lexes to the value's token
stream. -/
theorem lexInlineV (rho : List Char → Option (List Char)) (hrho : wfRho rho) (v : Value) :
    ∀ (rest : List Char) (ts : List Tok), wfV v = true → dataFreeV v = true →
      tokBoundary rest = true → LexesTo rest ts →
      LexesTo (inlineV rho v ++ rest) (toksV v ++ ts) := by
  cases v with
  | str s =>
    intro rest ts hwf hdf hb h
    have hbc : tokBoundary (cmtOf rho s ++ rest) = true := by
      cases hc : rho s with
      | none => simpa [cmtOf, hc] using hb
      | some ctext => simp +decide [cmtOf, hc, tokBoundary]
    have hchain := lexesTo_strText s hwf hbc (lexesTo_cmt rho hrho s h)
    simpa [inlineV, toksV, List.append_assoc] using hchain
  | data bs =>
    intro rest ts hwf hdf hb h
    simp [dataFreeV] at hdf
  | arr es =>
    intro rest ts hwf hdf hb h
    have hchain := lexInlineEl rho hrho es (')' :: rest) (Tok.rparen :: ts)
      (by simpa [wfV] using hwf) (by simpa [dataFreeV] using hdf)
      (lexesTo_rparen h)
    have hfin := lexesTo_lparen hchain
    simpa [inlineV, toksV, List.append_assoc] using hfin
  | dict es =>
    intro rest ts hwf hdf hb h
    have hchain := lexInlineEn rho hrho es (rbraceC :: rest) (Tok.rbrace :: ts)
      (by simpa [wfV] using hwf) (by simpa [dataFreeV] using hdf)
      (lexesTo_rbrace h)
    have hfin := lexesTo_lbrace hchain
    simpa [inlineV, toksV, List.append_assoc] using hfin

/-- Helper: single-line array elements lex to the element token
stream. -/
theorem lexInlineEl (rho : List Char → Option (List Char)) (hrho : wfRho rho) (es : Elems) :
    ∀ (rest : List Char) (ts : List Tok), wfEl es = true → dataFreeEl es = true →
      LexesTo rest ts → LexesTo (inlineEl rho es ++ rest) (toksEl es ++ ts) := by
  cases es with
  | nil =>
    intro rest ts _ _ h
    simpa [inlineEl, toksEl] using h
  | cons v tl =>
    intro rest ts hwf hdf h
    have hv : wfV v = true := by
      simp [wfEl] at hwf
      exact hwf.1
    have htl : wfEl tl = true := by
      simp [wfEl] at hwf
      exact hwf.2
    have hdv : dataFreeV v = true := by
      simp [dataFreeEl] at hdf
      exact hdf.1
    have hdtl : dataFreeEl tl = true := by
      simp [dataFreeEl] at hdf
      exact hdf.2
    have hchain := lexInlineV rho hrho v (',' :: ' ' :: (inlineEl rho tl ++ rest))
      (Tok.comma :: (toksEl tl ++ ts)) hv hdv (by simp +decide [tokBoundary])
      (lexesTo_comma (lexesTo_ws ' ' (by decide)
        (lexInlineEl rho hrho tl rest ts htl hdtl h)))
    simpa [inlineEl, toksEl, List.append_assoc] using hchain

/-- Helper: single-line dictionary entries lex to the entry token
stream. -/
theorem lexInlineEn (rho : List Char → Option (List Char)) (hrho : wfRho rho) (es : Entries) :
    ∀ (rest : List Char) (ts : List Tok), wfEn es = true → dataFreeEn es = true →
      LexesTo rest ts → LexesTo (inlineEn rho es ++ rest) (toksEn es ++ ts) := by
  cases es with
  | nil =>
    intro rest ts _ _ h
    simpa [inlineEn, toksEn] using h
  | cons k v tl =>
    intro rest ts hwf hdf h
    have hk : strOK k = true := by
      simp only [wfEn, Bool.and_eq_true] at hwf
      exact hwf.1.1
    have hv : wfV v = true := by
      simp only [wfEn, Bool.and_eq_true] at hwf
      exact hwf.1.2
    have htl : wfEn tl = true := by
      simp only [wfEn, Bool.and_eq_true] at hwf
      exact hwf.2
    have hdv : dataFreeV v = true := by
      simp [dataFreeEn] at hdf
      exact hdf.1
    have hdtl : dataFreeEn tl = true := by
      simp [dataFreeEn] at hdf
      exact hdf.2
    have hinner := lexesTo_ws ' ' (by decide) (lexesTo_eq (lexesTo_ws ' ' (by decide)
      (lexInlineV rho hrho v (';' :: ' ' :: (inlineEn rho tl ++ rest))
        (Tok.semi :: (toksEn tl ++ ts)) hv hdv (by simp +decide [tokBoundary])
        (lexesTo_semi (lexesTo_ws ' ' (by decide)
          (lexInlineEn rho hrho tl rest ts htl hdtl h))))))
    have hbk : tokBoundary (cmtOf rho k ++
        (' ' :: '=' :: ' ' :: (inlineV rho v ++ (';' :: ' ' :: (inlineEn rho tl ++ rest))))) = true := by
      cases hc : rho k with
      | none => simp +decide [cmtOf, hc, tokBoundary]
      | some ctext => simp +decide [cmtOf, hc, tokBoundary]
    have hkey := lexesTo_strText k hk hbk (lexesTo_cmt rho hrho k hinner)
    simpa [inlineEn, toksEn, List.append_assoc] using hkey
end

/-- Helper: the banner-structured entry lines of the objects mapping lex
to the plain entry token stream: banners and blank lines vanish as
comments and whitespace. -/
theorem lexEmitObjGo (rho : List Char → Option (List Char)) (hrho : wfRho rho)
    (es : Entries) : ∀ (cur : Option (List Char)) (rest : List Char) (ts : List Tok),
    wfEn es = true → dataFreeEn es = true → isasOKEn es = true →
    (∀ i, cur = some i → isaOK i = true) → LexesTo rest ts →
    LexesTo (emitObjGo rho cur es ++ rest) (toksEn es ++ ts) := by
  cases es with
  | nil =>
    intro cur rest ts _ _ _ hcur h
    cases cur with
    | none => simpa [emitObjGo, toksEn] using h
    | some i =>
      have hb := lexesTo_endBanner i (hcur i rfl) h
      simpa [emitObjGo, toksEn] using hb
  | cons k v tl =>
    intro cur rest ts hwf hdf hiso hcur h
    have hk : strOK k = true := by
      simp only [wfEn, Bool.and_eq_true] at hwf
      exact hwf.1.1
    have hv : wfV v = true := by
      simp only [wfEn, Bool.and_eq_true] at hwf
      exact hwf.1.2
    have htl : wfEn tl = true := by
      simp only [wfEn, Bool.and_eq_true] at hwf
      exact hwf.2
    have hdv : dataFreeV v = true := by
      simp [dataFreeEn] at hdf
      exact hdf.1
    have hdtl : dataFreeEn tl = true := by
      simp [dataFreeEn] at hdf
      exact hdf.2
    have hisoV : isaOK (isaOf v) = true := by
      simp only [isasOKEn, Bool.and_eq_true] at hiso
      exact hiso.1
    have hisotl : isasOKEn tl = true := by
      simp only [isasOKEn, Bool.and_eq_true] at hiso
      exact hiso.2
    have htlgo := lexEmitObjGo rho hrho tl (some (isaOf v)) rest ts htl hdtl hisotl
      (fun i hi => by cases hi; exact hisoV) h
    have hval : LexesTo
        ((if isInline v then inlineV rho v else emitV rho 2 v) ++
          (';' :: '\n' :: (emitObjGo rho (some (isaOf v)) tl ++ rest)))
        (toksV v ++ (Tok.semi :: (toksEn tl ++ ts))) := by
      have hrest := lexesTo_semi (lexesTo_ws '\n' (by decide) htlgo)
      by_cases hin : isInline v
      · rw [if_pos hin]
        exact lexInlineV rho hrho v _ _ hv hdv (by simp +decide [tokBoundary]) hrest
      · rw [if_neg hin]
        exact lexEmitV rho hrho v 2 _ _ hv hdv (by simp +decide [tokBoundary]) hrest
    have hinner := lexesTo_ws ' ' (by decide) (lexesTo_eq (lexesTo_ws ' ' (by decide) hval))
    have hbk : tokBoundary (cmtOf rho k ++ (' ' :: '=' :: ' ' ::
        ((if isInline v then inlineV rho v else emitV rho 2 v) ++
          (';' :: '\n' :: (emitObjGo rho (some (isaOf v)) tl ++ rest))))) = true := by
      cases hc : rho k with
      | none => simp +decide [cmtOf, hc, tokBoundary]
      | some ctext => simp +decide [cmtOf, hc, tokBoundary]
    have hkey := lexesTo_strText k hk hbk (lexesTo_cmt rho hrho k hinner)
    have hentry := lexesTo_tabs 2 hkey
    cases cur with
    | none =>
      have hb := lexesTo_beginBanner (isaOf v) hisoV
        (by simpa [emitObjEntry, List.append_assoc] using hentry)
      simpa [emitObjGo, emitObjEntry, toksEn, List.append_assoc] using hb
    | some c =>
      by_cases hcc : (c == isaOf v) = true
      · simpa [emitObjGo, hcc, emitObjEntry, toksEn, List.append_assoc] using hentry
      · have hb := lexesTo_endBanner c (hcur c rfl)
          (lexesTo_beginBanner (isaOf v) hisoV
            (by simpa [emitObjEntry, List.append_assoc] using hentry))
        simpa [emitObjGo, hcc, emitObjEntry, toksEn, List.append_assoc] using hb

/-- Helper: the banner-structured objects mapping lexes to the plain
dictionary token stream. -/
theorem lexEmitObjectsV (rho : List Char → Option (List Char)) (hrho : wfRho rho)
    (v : Value) : ∀ (rest : List Char) (ts : List Tok),
    wfV v = true → dataFreeV v = true → objIsasOK v = true →
    tokBoundary rest = true → LexesTo rest ts →
    LexesTo (emitObjectsV rho v ++ rest) (toksV v ++ ts) := by
  cases v with
  | dict es =>
    intro rest ts hwf hdf hiso hb h
    have hgo := lexEmitObjGo rho hrho es none (tabs 1 ++ (rbraceC :: rest)) (Tok.rbrace :: ts)
      (by simpa [wfV] using hwf) (by simpa [dataFreeV] using hdf)
      (by simpa [objIsasOK] using hiso) (fun i hi => nomatch hi)
      (lexesTo_tabs 1 (lexesTo_rbrace h))
    have hfin := lexesTo_lbrace (lexesTo_ws '\n' (by decide) hgo)
    simpa [emitObjectsV, toksV, List.append_assoc] using hfin
  | str s =>
    intro rest ts hwf hdf hiso hb h
    exact lexEmitV rho hrho (.str s) 1 rest ts hwf hdf hb h
  | data bs =>
    intro rest ts hwf hdf hiso hb h
    simp [dataFreeV] at hdf
  | arr es =>
    intro rest ts hwf hdf hiso hb h
    exact lexEmitV rho hrho (.arr es) 1 rest ts hwf hdf hb h

/-- Helper: the root entry lines lex to the entry token stream, the
objects mapping through its banner layout and every other key through the
generic rules. -/
theorem lexEmitRootEn (rho : List Char → Option (List Char)) (hrho : wfRho rho)
    (es : Entries) : ∀ (rest : List Char) (ts : List Tok),
    wfEn es = true → dataFreeEn es = true → isasOKRoot es = true →
    LexesTo rest ts → LexesTo (emitRootEn rho es ++ rest) (toksEn es ++ ts) := by
  cases es with
  | nil =>
    intro rest ts _ _ _ h
    simpa [emitRootEn, toksEn] using h
  | cons k v tl =>
    intro rest ts hwf hdf hiso h
    have hk : strOK k = true := by
      simp only [wfEn, Bool.and_eq_true] at hwf
      exact hwf.1.1
    have hv : wfV v = true := by
      simp only [wfEn, Bool.and_eq_true] at hwf
      exact hwf.1.2
    have htl : wfEn tl = true := by
      simp only [wfEn, Bool.and_eq_true] at hwf
      exact hwf.2
    have hdv : dataFreeV v = true := by
      simp [dataFreeEn] at hdf
      exact hdf.1
    have hdtl : dataFreeEn tl = true := by
      simp [dataFreeEn] at hdf
      exact hdf.2
    have hiso1 : (if k == "objects".toList then objIsasOK v else true) = true := by
      simp only [isasOKRoot, Bool.and_eq_true] at hiso
      exact hiso.1
    have hisotl : isasOKRoot tl = true := by
      simp only [isasOKRoot, Bool.and_eq_true] at hiso
      exact hiso.2
    have htlroot := lexEmitRootEn rho hrho tl rest ts htl hdtl hisotl h
    have hval : LexesTo
        ((if k == "objects".toList then emitObjectsV rho v else emitV rho 1 v) ++
          (';' :: '\n' :: (emitRootEn rho tl ++ rest)))
        (toksV v ++ (Tok.semi :: (toksEn tl ++ ts))) := by
      have hrest := lexesTo_semi (lexesTo_ws '\n' (by decide) htlroot)
      by_cases hob : (k == "objects".toList) = true
      · rw [if_pos hob]
        rw [if_pos hob] at hiso1
        exact lexEmitObjectsV rho hrho v _ _ hv hdv hiso1 (by simp +decide [tokBoundary]) hrest
      · rw [if_neg hob]
        exact lexEmitV rho hrho v 1 _ _ hv hdv (by simp +decide [tokBoundary]) hrest
    have hinner := lexesTo_ws ' ' (by decide) (lexesTo_eq (lexesTo_ws ' ' (by decide) hval))
    have hbk : tokBoundary (cmtOf rho k ++ (' ' :: '=' :: ' ' ::
        ((if k == "objects".toList then emitObjectsV rho v else emitV rho 1 v) ++
          (';' :: '\n' :: (emitRootEn rho tl ++ rest))))) = true := by
      cases hc : rho k with
      | none => simp +decide [cmtOf, hc, tokBoundary]
      | some ctext => simp +decide [cmtOf, hc, tokBoundary]
    have hkey := lexesTo_strText k hk hbk (lexesTo_cmt rho hrho k hinner)
    have hchain := lexesTo_tabs 1 hkey
    simpa [emitRootEn, toksEn, List.append_assoc] using hchain

/-- Helper: tokenizing the emitted root layout of a well-formed data-free
tree with banner-safe isa names yields the tree's token stream. -/
theorem tokenize_emitRoot (rho : List Char → Option (List Char)) (hrho : wfRho rho)
    (u : Value) (hwf : wfV u = true) (hdf : dataFreeV u = true)
    (hiso : isasOK u = true) :
    tokenize ("// !$*UTF8*$!\n".toList ++ (emitRoot rho u ++ ['\n'])) = .ok (toksV u) := by
  have hnl : LexesTo ['\n'] [] := lexesTo_ws '\n' (by decide) lexesTo_nil
  have hbody : LexesTo (emitRoot rho u ++ ['\n']) (toksV u ++ []) := by
    cases u with
    | dict es =>
      have hin := lexEmitRootEn rho hrho es (rbraceC :: ['\n']) [Tok.rbrace]
        (by simpa [wfV] using hwf) (by simpa [dataFreeV] using hdf)
        (by simpa [isasOK] using hiso)
        (lexesTo_rbrace hnl)
      have hfin := lexesTo_lbrace (lexesTo_ws '\n' (by decide) hin)
      simpa [emitRoot, toksV, List.append_assoc] using hfin
    | str s =>
      exact lexEmitV rho hrho (.str s) 0 ['\n'] [] hwf hdf (by decide) hnl
    | data bs =>
      simp [dataFreeV] at hdf
    | arr es =>
      exact lexEmitV rho hrho (.arr es) 0 ['\n'] [] hwf hdf (by decide) hnl
  have hall : LexesTo ("// !$*UTF8*$!\n".toList ++ (emitRoot rho u ++ ['\n']))
      (toksV u ++ []) := lexesTo_header hbody
  have := hall (("// !$*UTF8*$!\n".toList ++ (emitRoot rho u ++ ['\n'])).length + 1) (by omega)
  simpa [tokenize] using this

mutual
/-- Helper: the classic parser consumes the token stream of a value and
returns that value. -/
theorem parseToksV (v : Value) : ∀ (f d : Nat) (rest : List Tok),
    2 * (toksV v).length < f → d + heightV v ≤ maxdepth →
    parseStep f d .value (toksV v ++ rest) = .ok (v, rest) := by
  cases v with
  | str s =>
    intro f d rest hf hd
    match f with
    | g + 1 => rfl
  | data bs =>
    intro f d rest hf hd
    match f with
    | g + 1 => rfl
  | arr es =>
    intro f d rest hf hd
    match f with
    | g + 1 =>
      have hlen : (toksV (Value.arr es)).length = 2 + (toksEl es).length := by
        simp [toksV]; omega
      have hdep : ¬ maxdepth ≤ d := by
        simp only [heightV] at hd
        omega
      have hin := parseToksEl es g (d + 1) rest
        (by rw [hlen] at hf; omega)
        (by simp only [heightV] at hd; omega)
      have hshape : toksV (Value.arr es) ++ rest =
          Tok.lparen :: (toksEl es ++ (Tok.rparen :: rest)) := by
        simp [toksV]
      rw [hshape]
      simp only [parseStep, hdep, if_false, if_neg hdep]
      exact hin
  | dict es =>
    intro f d rest hf hd
    match f with
    | g + 1 =>
      have hlen : (toksV (Value.dict es)).length = 2 + (toksEn es).length := by
        simp [toksV]; omega
      have hdep : ¬ maxdepth ≤ d := by
        simp only [heightV] at hd
        omega
      have hin := parseToksEn es g (d + 1) rest
        (by rw [hlen] at hf; omega)
        (by simp only [heightV] at hd; omega)
      have hshape : toksV (Value.dict es) ++ rest =
          Tok.lbrace :: (toksEn es ++ (Tok.rbrace :: rest)) := by
        simp [toksV]
      rw [hshape]
      simp only [parseStep, hdep, if_false, if_neg hdep]
      exact hin

/-- Helper: the classic parser consumes the entry token stream of a
dictionary up to its closing brace. -/
theorem parseToksEn (es : Entries) : ∀ (f d : Nat) (rest : List Tok),
    2 * (toksEn es).length + 2 < f → d + heightEn es ≤ maxdepth →
    parseStep f d .entries (toksEn es ++ (Tok.rbrace :: rest)) = .ok (.dict es, rest) := by
  cases es with
  | nil =>
    intro f d rest hf hd
    match f with
    | g + 1 => rfl
  | cons k v tl =>
    intro f d rest hf hd
    match f with
    | g + 1 =>
      have hlen : (toksEn (Entries.cons k v tl)).length =
          3 + (toksV v).length + (toksEn tl).length := by
        simp [toksEn]
        omega
      have hv := parseToksV v g d (Tok.semi :: (toksEn tl ++ (Tok.rbrace :: rest)))
        (by rw [hlen] at hf; omega)
        (by simp only [heightEn] at hd; omega)
      have htl := parseToksEn tl g d rest
        (by rw [hlen] at hf; omega)
        (by simp only [heightEn] at hd; omega)
      have hshape : toksEn (Entries.cons k v tl) ++ (Tok.rbrace :: rest) =
          Tok.str k :: Tok.eqTok :: (toksV v ++
            (Tok.semi :: (toksEn tl ++ (Tok.rbrace :: rest)))) := by
        simp [toksEn]
      rw [hshape]
      simp only [parseStep]
      rw [hv]
      simp only []
      rw [htl]

/-- Helper: the classic parser consumes the element token stream of an
array up to its closing parenthesis. -/
theorem parseToksEl (es : Elems) : ∀ (f d : Nat) (rest : List Tok),
    2 * (toksEl es).length + 2 < f → d + heightEl es ≤ maxdepth →
    parseStep f d .elems (toksEl es ++ (Tok.rparen :: rest)) = .ok (.arr es, rest) := by
  cases es with
  | nil =>
    intro f d rest hf hd
    match f with
    | g + 1 => rfl
  | cons v tl =>
    intro f d rest hf hd
    match f with
    | g + 1 =>
      have hlen : (toksEl (Elems.cons v tl)).length =
          1 + (toksV v).length + (toksEl tl).length := by
        simp [toksEl]
        omega
      have hv := parseToksV v g d (Tok.comma :: (toksEl tl ++ (Tok.rparen :: rest)))
        (by rw [hlen] at hf; omega)
        (by simp only [heightEl] at hd; omega)
      have htl := parseToksEl tl g d rest
        (by rw [hlen] at hf; omega)
        (by simp only [heightEl] at hd; omega)
      have hshape : toksEl (Elems.cons v tl) ++ (Tok.rparen :: rest) =
          toksV v ++ (Tok.comma :: (toksEl tl ++ (Tok.rparen :: rest))) := by
        simp [toksEl]
      rw [hshape]
      cases v with
      | str s =>
        simp only [toksV, List.cons_append, List.nil_append, parseStep]
        rw [show parseStep g d PMode.value
            (Tok.str s :: (Tok.comma :: (toksEl tl ++ (Tok.rparen :: rest)))) =
            .ok (Value.str s, Tok.comma :: (toksEl tl ++ (Tok.rparen :: rest))) from by
          simpa using hv]
        simp only []
        rw [htl]
      | data bs =>
        simp only [toksV, List.cons_append, List.nil_append, parseStep]
        rw [show parseStep g d PMode.value
            (Tok.blob bs :: (Tok.comma :: (toksEl tl ++ (Tok.rparen :: rest)))) =
            .ok (Value.data bs, Tok.comma :: (toksEl tl ++ (Tok.rparen :: rest))) from by
          simpa using hv]
        simp only []
        rw [htl]
      | arr es2 =>
        have hcons : toksV (Value.arr es2) ++
            (Tok.comma :: (toksEl tl ++ (Tok.rparen :: rest))) =
            Tok.lparen :: ((toksEl es2 ++ [Tok.rparen]) ++
              (Tok.comma :: (toksEl tl ++ (Tok.rparen :: rest)))) := by
          simp [toksV]
        rw [hcons]
        rw [hcons] at hv
        simp only [parseStep]
        rw [hv]
        simp only []
        rw [htl]
      | dict es2 =>
        have hcons : toksV (Value.dict es2) ++
            (Tok.comma :: (toksEl tl ++ (Tok.rparen :: rest))) =
            Tok.lbrace :: ((toksEn es2 ++ [Tok.rbrace]) ++
              (Tok.comma :: (toksEl tl ++ (Tok.rparen :: rest)))) := by
          simp [toksV]
        rw [hcons]
        rw [hcons] at hv
        simp only [parseStep]
        rw [hv]
        simp only []
        rw [htl]
end

/-- Helper: a comma whose successor token is not a closing parenthesis is
kept by the JSON rewrite. -/
theorem rewriteToks_comma (ts : List Tok) (js : List JTok)
    (h : rewriteToks ts = .ok js) (hne : ∀ ts1, ts ≠ Tok.rparen :: ts1) :
    rewriteToks (Tok.comma :: ts) = .ok (JTok.comma :: js) := by
  cases ts with
  | nil =>
    show (fun js => JTok.comma :: js) <$> rewriteToks [] = Except.ok (JTok.comma :: js)
    rw [h]
    rfl
  | cons t ts1 =>
    cases t with
    | rparen => exact absurd rfl (hne ts1)
    | _ =>
      show (fun js => JTok.comma :: js) <$> rewriteToks _ = Except.ok (JTok.comma :: js)
      rw [h]
      rfl

/-- Helper: a semicolon whose successor token is not a closing brace is
turned into a comma by the JSON rewrite. -/
theorem rewriteToks_semi (ts : List Tok) (js : List JTok)
    (h : rewriteToks ts = .ok js) (hne : ∀ ts1, ts ≠ Tok.rbrace :: ts1) :
    rewriteToks (Tok.semi :: ts) = .ok (JTok.comma :: js) := by
  cases ts with
  | nil =>
    show (fun js => JTok.comma :: js) <$> rewriteToks [] = Except.ok (JTok.comma :: js)
    rw [h]
    rfl
  | cons t ts1 =>
    cases t with
    | rbrace => exact absurd rfl (hne ts1)
    | _ =>
      show (fun js => JTok.comma :: js) <$> rewriteToks _ = Except.ok (JTok.comma :: js)
      rw [h]
      rfl

/-- Helper: a value token stream followed by anything never starts with a
closing parenthesis. -/
theorem toksV_append_ne_rparen (v : Value) (X : List Tok) :
    ∀ ts1, toksV v ++ X ≠ Tok.rparen :: ts1 := by
  cases v <;> simp [toksV]

/-- Helper: an entry token stream of a nonempty dictionary followed by
anything never starts with a closing brace. -/
theorem toksEn_cons_append_ne_rbrace (k : List Char) (v : Value) (tl : Entries)
    (X : List Tok) : ∀ ts1, toksEn (Entries.cons k v tl) ++ X ≠ Tok.rbrace :: ts1 := by
  simp [toksEn]

mutual
/-- Helper: the JSON rewrite maps the plist token stream of a data-free
value to its JSON token stream, in any successor context it accepts. -/
theorem rwV (v : Value) : ∀ (rest : List Tok) (jrest : List JTok),
    dataFreeV v = true → rewriteToks rest = .ok jrest →
    rewriteToks (toksV v ++ rest) = .ok (jtoksV v ++ jrest) := by
  cases v with
  | str s =>
    intro rest jrest hdf h
    simp [toksV, jtoksV, rewriteToks, h]
  | data bs =>
    intro rest jrest hdf h
    simp [dataFreeV] at hdf
  | arr es =>
    intro rest jrest hdf h
    have hin := rwEl es rest jrest (by simpa [dataFreeV] using hdf) h
    have hshape : toksV (Value.arr es) ++ rest =
        Tok.lparen :: (toksEl es ++ (Tok.rparen :: rest)) := by
      simp [toksV]
    rw [hshape]
    simp only [rewriteToks]
    rw [hin]
    simp [jtoksV]
  | dict es =>
    intro rest jrest hdf h
    have hin := rwEn es rest jrest (by simpa [dataFreeV] using hdf) h
    have hshape : toksV (Value.dict es) ++ rest =
        Tok.lbrace :: (toksEn es ++ (Tok.rbrace :: rest)) := by
      simp [toksV]
    rw [hshape]
    simp only [rewriteToks]
    rw [hin]
    simp [jtoksV]

/-- Helper: the JSON rewrite maps array element tokens up to the closing
parenthesis, dropping the trailing comma. -/
theorem rwEl (es : Elems) : ∀ (rest : List Tok) (jrest : List JTok),
    dataFreeEl es = true → rewriteToks rest = .ok jrest →
    rewriteToks (toksEl es ++ (Tok.rparen :: rest)) =
      .ok (jtoksEl es ++ (JTok.rk :: jrest)) := by
  cases es with
  | nil =>
    intro rest jrest hdf h
    simp [toksEl, jtoksEl, rewriteToks, h]
  | cons v tl =>
    intro rest jrest hdf h
    simp only [dataFreeEl, Bool.and_eq_true] at hdf
    cases tl with
    | nil =>
      have hclose : rewriteToks (Tok.rparen :: rest) = .ok (JTok.rk :: jrest) := by
        simp [rewriteToks, h]
      have hcomma : rewriteToks (Tok.comma :: (Tok.rparen :: rest)) =
          .ok (JTok.rk :: jrest) := by
        simp [rewriteToks, h]
      have hv := rwV v (Tok.comma :: (Tok.rparen :: rest)) (JTok.rk :: jrest) hdf.1 hcomma
      have hshape : toksEl (Elems.cons v Elems.nil) ++ (Tok.rparen :: rest) =
          toksV v ++ (Tok.comma :: (Tok.rparen :: rest)) := by
        simp [toksEl]
      rw [hshape, hv]
      simp [jtoksEl]
    | cons v2 tl2 =>
      have htl := rwEl (Elems.cons v2 tl2) rest jrest hdf.2 h
      have hcomma : rewriteToks (Tok.comma ::
          (toksEl (Elems.cons v2 tl2) ++ (Tok.rparen :: rest))) =
          .ok (JTok.comma :: (jtoksEl (Elems.cons v2 tl2) ++ (JTok.rk :: jrest))) := by
        refine rewriteToks_comma _ _ htl ?_
        intro ts1
        have := toksV_append_ne_rparen v2 (Tok.comma :: (toksEl tl2 ++ (Tok.rparen :: rest))) ts1
        simpa [toksEl] using this
      have hv := rwV v _ _ hdf.1 hcomma
      have hshape : toksEl (Elems.cons v (Elems.cons v2 tl2)) ++ (Tok.rparen :: rest) =
          toksV v ++ (Tok.comma :: (toksEl (Elems.cons v2 tl2) ++ (Tok.rparen :: rest))) := by
        simp [toksEl]
      rw [hshape, hv]
      simp [jtoksEl]

/-- Helper: the JSON rewrite maps dictionary entry tokens up to the
closing brace, dropping the final semicolon and turning the others into
commas. -/
theorem rwEn (es : Entries) : ∀ (rest : List Tok) (jrest : List JTok),
    dataFreeEn es = true → rewriteToks rest = .ok jrest →
    rewriteToks (toksEn es ++ (Tok.rbrace :: rest)) =
      .ok (jtoksEn es ++ (JTok.rb :: jrest)) := by
  cases es with
  | nil =>
    intro rest jrest hdf h
    simp [toksEn, jtoksEn, rewriteToks, h]
  | cons k v tl =>
    intro rest jrest hdf h
    simp only [dataFreeEn, Bool.and_eq_true] at hdf
    cases tl with
    | nil =>
      have hsemi : rewriteToks (Tok.semi :: (Tok.rbrace :: rest)) =
          .ok (JTok.rb :: jrest) := by
        simp [rewriteToks, h]
      have hv := rwV v (Tok.semi :: (Tok.rbrace :: rest)) (JTok.rb :: jrest) hdf.1 hsemi
      have hshape : toksEn (Entries.cons k v Entries.nil) ++ (Tok.rbrace :: rest) =
          Tok.str k :: Tok.eqTok :: (toksV v ++ (Tok.semi :: (Tok.rbrace :: rest))) := by
        simp [toksEn]
      rw [hshape]
      simp only [rewriteToks]
      rw [hv]
      simp [jtoksEn]
    | cons k2 v2 tl2 =>
      have htl := rwEn (Entries.cons k2 v2 tl2) rest jrest hdf.2 h
      have hsemi : rewriteToks (Tok.semi ::
          (toksEn (Entries.cons k2 v2 tl2) ++ (Tok.rbrace :: rest))) =
          .ok (JTok.comma :: (jtoksEn (Entries.cons k2 v2 tl2) ++ (JTok.rb :: jrest))) := by
        refine rewriteToks_semi _ _ htl ?_
        exact toksEn_cons_append_ne_rbrace k2 v2 tl2 (Tok.rbrace :: rest)
      have hv := rwV v _ _ hdf.1 hsemi
      have hshape : toksEn (Entries.cons k v (Entries.cons k2 v2 tl2)) ++ (Tok.rbrace :: rest) =
          Tok.str k :: Tok.eqTok :: (toksV v ++
            (Tok.semi :: (toksEn (Entries.cons k2 v2 tl2) ++ (Tok.rbrace :: rest)))) := by
        simp [toksEn]
      rw [hshape]
      simp only [rewriteToks]
      rw [hv]
      simp [jtoksEn]
end

/-- Helper: the JSON rewrite of a data-free value stream with nothing
after it. -/
theorem rewriteToks_toksV (v : Value) (hdf : dataFreeV v = true) :
    rewriteToks (toksV v) = .ok (jtoksV v) := by
  have := rwV v [] [] hdf (by simp [rewriteToks])
  simpa using this

/-- Helper: the JSON reader falls through from the fresh-array mode to the
element-run mode when the next token is not a closing bracket. -/
theorem jparse_arr0_fall (g : Nat) (ts : List JTok)
    (hne : ∀ ts1, ts ≠ JTok.rk :: ts1) :
    jparseStep (g + 1) .arr0 ts = jparseStep g .arrN ts := by
  cases ts with
  | nil => rfl
  | cons t ts1 =>
    cases t with
    | rk => exact absurd rfl (hne ts1)
    | _ => rfl

/-- Helper: the JSON reader falls through from the fresh-object mode to the
entry-run mode when the next token is not a closing brace. -/
theorem jparse_obj0_fall (g : Nat) (ts : List JTok)
    (hne : ∀ ts1, ts ≠ JTok.rb :: ts1) :
    jparseStep (g + 1) .obj0 ts = jparseStep g .objN ts := by
  cases ts with
  | nil => rfl
  | cons t ts1 =>
    cases t with
    | rb => exact absurd rfl (hne ts1)
    | _ => rfl

/-- Helper: the JSON token stream of a nonempty array run never starts
with a closing bracket when its first element is data-free. -/
theorem jtoksEl_cons_append_ne_rk (v : Value) (tl : Elems) (X : List JTok)
    (hdf : dataFreeV v = true) :
    ∀ ts1, jtoksEl (Elems.cons v tl) ++ X ≠ JTok.rk :: ts1 := by
  cases tl <;> cases v <;> simp [jtoksEl, jtoksV, dataFreeV] at hdf ⊢

/-- Helper: the JSON token stream of a nonempty object run never starts
with a closing brace. -/
theorem jtoksEn_cons_append_ne_rb (k : List Char) (v : Value) (tl : Entries)
    (X : List JTok) :
    ∀ ts1, jtoksEn (Entries.cons k v tl) ++ X ≠ JTok.rb :: ts1 := by
  cases tl <;> simp [jtoksEn]

mutual
/-- Helper: the strict JSON reader consumes the JSON token stream of a
data-free value and returns that value. -/
theorem jparseV (v : Value) : ∀ (f : Nat) (rest : List JTok),
    dataFreeV v = true → 2 * (jtoksV v).length < f →
    jparseStep f .value (jtoksV v ++ rest) = .ok (v, rest) := by
  cases v with
  | str s =>
    intro f rest hdf hf
    match f with
    | g + 1 => rfl
  | data bs =>
    intro f rest hdf hf
    simp [dataFreeV] at hdf
  | arr es =>
    intro f rest hdf hf
    match f with
    | g + 1 =>
      have hlen : (jtoksV (Value.arr es)).length = 2 + (jtoksEl es).length := by
        simp [jtoksV]; omega
      have hshape : jtoksV (Value.arr es) ++ rest =
          JTok.lk :: (jtoksEl es ++ (JTok.rk :: rest)) := by
        simp [jtoksV]
      rw [hshape]
      show jparseStep g JMode.arr0 (jtoksEl es ++ (JTok.rk :: rest)) = _
      exact (jparseEl es).2 g rest (by simpa [dataFreeV] using hdf)
        (by rw [hlen] at hf; omega)
  | dict es =>
    intro f rest hdf hf
    match f with
    | g + 1 =>
      have hlen : (jtoksV (Value.dict es)).length = 2 + (jtoksEn es).length := by
        simp [jtoksV]; omega
      have hshape : jtoksV (Value.dict es) ++ rest =
          JTok.lb :: (jtoksEn es ++ (JTok.rb :: rest)) := by
        simp [jtoksV]
      rw [hshape]
      show jparseStep g JMode.obj0 (jtoksEn es ++ (JTok.rb :: rest)) = _
      exact (jparseEn es).2 g rest (by simpa [dataFreeV] using hdf)
        (by rw [hlen] at hf; omega)

/-- Helper: the strict JSON reader consumes the element tokens of a
data-free array up to the closing bracket, in the element-run mode when the
array is nonempty and in the fresh-array mode always. -/
theorem jparseEl (es : Elems) :
    (∀ (f : Nat) (rest : List JTok), dataFreeEl es = true → es ≠ Elems.nil →
      2 * (jtoksEl es).length + 1 < f →
      jparseStep f .arrN (jtoksEl es ++ (JTok.rk :: rest)) = .ok (.arr es, rest)) ∧
    (∀ (f : Nat) (rest : List JTok), dataFreeEl es = true →
      2 * (jtoksEl es).length + 2 < f →
      jparseStep f .arr0 (jtoksEl es ++ (JTok.rk :: rest)) = .ok (.arr es, rest)) := by
  cases es with
  | nil =>
    constructor
    · intro f rest hdf hne hf
      exact absurd rfl hne
    · intro f rest hdf hf
      match f with
      | g + 1 => rfl
  | cons v tl =>
    have harrN : ∀ (f : Nat) (rest : List JTok),
        dataFreeEl (Elems.cons v tl) = true →
        2 * (jtoksEl (Elems.cons v tl)).length + 1 < f →
        jparseStep f .arrN (jtoksEl (Elems.cons v tl) ++ (JTok.rk :: rest)) =
          .ok (.arr (Elems.cons v tl), rest) := by
      intro f rest hdf hf
      simp only [dataFreeEl, Bool.and_eq_true] at hdf
      match f with
      | g + 1 =>
        cases tl with
        | nil =>
          have hshape : jtoksEl (Elems.cons v Elems.nil) ++ (JTok.rk :: rest) =
              jtoksV v ++ (JTok.rk :: rest) := by
            simp [jtoksEl]
          have hlen : (jtoksEl (Elems.cons v Elems.nil)).length = (jtoksV v).length := by
            simp [jtoksEl]
          rw [hshape]
          simp only [jparseStep]
          rw [jparseV v g (JTok.rk :: rest) hdf.1 (by rw [hlen] at hf; omega)]
        | cons v2 tl2 =>
          have hshape : jtoksEl (Elems.cons v (Elems.cons v2 tl2)) ++ (JTok.rk :: rest) =
              jtoksV v ++ (JTok.comma ::
                (jtoksEl (Elems.cons v2 tl2) ++ (JTok.rk :: rest))) := by
            simp [jtoksEl]
          have hlen : (jtoksEl (Elems.cons v (Elems.cons v2 tl2))).length =
              (jtoksV v).length + 1 + (jtoksEl (Elems.cons v2 tl2)).length := by
            simp [jtoksEl]; omega
          rw [hshape]
          simp only [jparseStep]
          rw [jparseV v g _ hdf.1 (by rw [hlen] at hf; omega)]
          simp only []
          rw [(jparseEl (Elems.cons v2 tl2)).1 g rest hdf.2 (by simp)
            (by rw [hlen] at hf; omega)]
    refine ⟨fun f rest hdf _ hf => harrN f rest hdf hf, ?_⟩
    intro f rest hdf hf
    have hdf' := hdf
    simp only [dataFreeEl, Bool.and_eq_true] at hdf'
    match f with
    | g + 1 =>
      rw [jparse_arr0_fall g _ (jtoksEl_cons_append_ne_rk v tl _ hdf'.1)]
      exact harrN g rest hdf (by omega)

/-- Helper: the strict JSON reader consumes the entry tokens of a
data-free dictionary up to the closing brace, in the entry-run mode when
the dictionary is nonempty and in the fresh-object mode always. -/
theorem jparseEn (es : Entries) :
    (∀ (f : Nat) (rest : List JTok), dataFreeEn es = true → es ≠ Entries.nil →
      2 * (jtoksEn es).length + 1 < f →
      jparseStep f .objN (jtoksEn es ++ (JTok.rb :: rest)) = .ok (.dict es, rest)) ∧
    (∀ (f : Nat) (rest : List JTok), dataFreeEn es = true →
      2 * (jtoksEn es).length + 2 < f →
      jparseStep f .obj0 (jtoksEn es ++ (JTok.rb :: rest)) = .ok (.dict es, rest)) := by
  cases es with
  | nil =>
    constructor
    · intro f rest hdf hne hf
      exact absurd rfl hne
    · intro f rest hdf hf
      match f with
      | g + 1 => rfl
  | cons k v tl =>
    have hobjN : ∀ (f : Nat) (rest : List JTok),
        dataFreeEn (Entries.cons k v tl) = true →
        2 * (jtoksEn (Entries.cons k v tl)).length + 1 < f →
        jparseStep f .objN (jtoksEn (Entries.cons k v tl) ++ (JTok.rb :: rest)) =
          .ok (.dict (Entries.cons k v tl), rest) := by
      intro f rest hdf hf
      simp only [dataFreeEn, Bool.and_eq_true] at hdf
      match f with
      | g + 1 =>
        cases tl with
        | nil =>
          have hshape : jtoksEn (Entries.cons k v Entries.nil) ++ (JTok.rb :: rest) =
              JTok.str k :: JTok.colon :: (jtoksV v ++ (JTok.rb :: rest)) := by
            simp [jtoksEn]
          have hlen : (jtoksEn (Entries.cons k v Entries.nil)).length =
              2 + (jtoksV v).length := by
            simp [jtoksEn]; omega
          rw [hshape]
          simp only [jparseStep]
          rw [jparseV v g (JTok.rb :: rest) hdf.1 (by rw [hlen] at hf; omega)]
        | cons k2 v2 tl2 =>
          have hshape : jtoksEn (Entries.cons k v (Entries.cons k2 v2 tl2)) ++
              (JTok.rb :: rest) =
              JTok.str k :: JTok.colon :: (jtoksV v ++ (JTok.comma ::
                (jtoksEn (Entries.cons k2 v2 tl2) ++ (JTok.rb :: rest)))) := by
            simp [jtoksEn]
          have hlen : (jtoksEn (Entries.cons k v (Entries.cons k2 v2 tl2))).length =
              2 + (jtoksV v).length + 1 + (jtoksEn (Entries.cons k2 v2 tl2)).length := by
            simp [jtoksEn]; omega
          rw [hshape]
          simp only [jparseStep]
          rw [jparseV v g _ hdf.1 (by rw [hlen] at hf; omega)]
          simp only []
          rw [(jparseEn (Entries.cons k2 v2 tl2)).1 g rest hdf.2 (by simp)
            (by rw [hlen] at hf; omega)]
    refine ⟨fun f rest hdf _ hf => hobjN f rest hdf hf, ?_⟩
    intro f rest hdf hf
    match f with
    | g + 1 =>
      rw [jparse_obj0_fall g _ (jtoksEn_cons_append_ne_rb k v tl _)]
      exact hobjN g rest hdf (by omega)
end

/-- Helper: the classic parser reads back from its unparsed form any
well-formed tree within the depth bound. -/
theorem tokenize_unparse (rho : List Char → Option (List Char)) (hrho : wfRho rho)
    (t : Value) (hwf : wfV t = true) (hdf : dataFreeV t = true)
    (hiso : isasOK t = true) (hcanon : canon t = t) :
    tokenize (unparsePlist rho t) = .ok (toksV t) := by
  have hshape : unparsePlist rho t =
      "// !$*UTF8*$!\n".toList ++ (emitRoot rho t ++ ['\n']) := by
    simp [unparsePlist, hcanon]
  rw [hshape]
  exact tokenize_emitRoot rho hrho t hwf hdf hiso

/-- Helper: the classic parser reads back from its unparsed form any
well-formed canonically ordered tree within the depth bound. -/
theorem classicParse_unparse (rho : List Char → Option (List Char))
    (hrho : wfRho rho) (t : Value) (hwf : wfV t = true)
    (hdf : dataFreeV t = true) (hh : heightV t ≤ maxdepth)
    (hiso : isasOK t = true) (hcanon : canon t = t) :
    classicParse (unparsePlist rho t) = .ok t := by
  simp only [classicParse]
  rw [tokenize_unparse rho hrho t hwf hdf hiso hcanon]
  simp only []
  have hp : parseStep (2 * (toksV t).length + 8) 0 .value (toksV t ++ []) =
      .ok (t, []) :=
    parseToksV t (2 * (toksV t).length + 8) 0 [] (by omega) (by omega)
  rw [List.append_nil] at hp
  rw [hp]

/-- Helper: the fast parser reads back from its unparsed form any
well-formed data-free canonically ordered tree. -/
theorem fastParse_unparse (rho : List Char → Option (List Char))
    (hrho : wfRho rho) (t : Value) (hwf : wfV t = true)
    (hdf : dataFreeV t = true) (hiso : isasOK t = true) (hcanon : canon t = t) :
    fastParse (unparsePlist rho t) = .ok t := by
  simp only [fastParse]
  rw [tokenize_unparse rho hrho t hwf hdf hiso hcanon]
  simp only []
  rw [rewriteToks_toksV t hdf]
  simp only []
  have hp : jparseStep (2 * (jtoksV t).length + 8) .value (jtoksV t ++ []) =
      .ok (t, []) :=
    jparseV t (2 * (jtoksV t).length + 8) [] hdf (by omega)
  rw [List.append_nil] at hp
  rw [hp]

/-- C1: every canonical pbxproj byte string is the unparsed form of a
well-formed data-free canonically ordered tree (the unparser reorders the
objects mapping and writes its section banners and per-isa single-line
objects); parsing such bytes with format xcode returns exactly that tree
and unparsing the returned tree yields exactly the original bytes, for
every parser type: the default, the classic and the fast parser. -/
theorem roundtrip_canonical_both_parsers
    (rho : List Char → Option (List Char)) (hrho : wfRho rho) (t : Value)
    (hwf : wfV t = true) (hdf : dataFreeV t = true)
    (hh : heightV t ≤ maxdepth) (hiso : isasOK t = true)
    (hcanon : canon t = t) (pt : PType) :
    (parse (some Fmt.xcode) pt (unparse Fmt.xcode rho t)).1 = some t ∧
    ((parse (some Fmt.xcode) pt (unparse Fmt.xcode rho t)).1.map
        (unparse Fmt.xcode rho)) = some (unparse Fmt.xcode rho t) := by
  have hc := classicParse_unparse rho hrho t hwf hdf hh hiso hcanon
  have hf := fastParse_unparse rho hrho t hwf hdf hiso hcanon
  have hx : parseXcode pt (unparsePlist rho t) = .ok t := by
    cases pt <;> simp [parseXcode, hc, hf]
  constructor
  · simp [parse, unparse, hx]
  · simp [parse, unparse, hx]

theorem roundtrip_canonical_both_parsers_check :
    wfRho noComments ∧ wfV intlSample = true ∧ dataFreeV intlSample = true ∧
    heightV intlSample ≤ maxdepth ∧ isasOK intlSample = true ∧
    canon intlSample = intlSample ∧
    (parse (some Fmt.xcode) PType.fast (unparse Fmt.xcode noComments intlSample)).1 =
      some intlSample := by
  have hrho : wfRho noComments := by
    intro s c h
    simp [noComments] at h
  refine ⟨hrho, by decide, by decide, by decide, by decide, by decide, ?_⟩
  exact (roundtrip_canonical_both_parsers noComments hrho intlSample
    (by decide) (by decide) (by decide) (by decide) (by decide) PType.fast).1

/-- Helper: inequality of tokens as a false boolean equality test. -/
theorem tok_beq_false {a b : Tok} (h : a ≠ b) : (a == b) = false := by
  cases hx : a == b
  · rfl
  · exact absurd (eq_of_beq hx) h

/-- Helper: the rewrite maps a string token to its JSON form. -/
theorem rewriteToks_strT (s : List Char) (ts : List Tok) (js : List JTok)
    (h : rewriteToks ts = .ok js) :
    rewriteToks (Tok.str s :: ts) = .ok (JTok.str s :: js) := by
  show (fun js => JTok.str s :: js) <$> rewriteToks ts = _
  rw [h]
  rfl

/-- Helper: the rewrite maps an opening brace to its JSON form. -/
theorem rewriteToks_lbraceT (ts : List Tok) (js : List JTok)
    (h : rewriteToks ts = .ok js) :
    rewriteToks (Tok.lbrace :: ts) = .ok (JTok.lb :: js) := by
  show (fun js => JTok.lb :: js) <$> rewriteToks ts = _
  rw [h]
  rfl

/-- Helper: the rewrite maps a closing brace to its JSON form. -/
theorem rewriteToks_rbraceT (ts : List Tok) (js : List JTok)
    (h : rewriteToks ts = .ok js) :
    rewriteToks (Tok.rbrace :: ts) = .ok (JTok.rb :: js) := by
  show (fun js => JTok.rb :: js) <$> rewriteToks ts = _
  rw [h]
  rfl

/-- Helper: the rewrite maps an opening parenthesis to its JSON form. -/
theorem rewriteToks_lparenT (ts : List Tok) (js : List JTok)
    (h : rewriteToks ts = .ok js) :
    rewriteToks (Tok.lparen :: ts) = .ok (JTok.lk :: js) := by
  show (fun js => JTok.lk :: js) <$> rewriteToks ts = _
  rw [h]
  rfl

/-- Helper: the rewrite maps a closing parenthesis to its JSON form. -/
theorem rewriteToks_rparenT (ts : List Tok) (js : List JTok)
    (h : rewriteToks ts = .ok js) :
    rewriteToks (Tok.rparen :: ts) = .ok (JTok.rk :: js) := by
  show (fun js => JTok.rk :: js) <$> rewriteToks ts = _
  rw [h]
  rfl

/-- Helper: the rewrite maps an equals sign to a JSON colon. -/
theorem rewriteToks_eqTokT (ts : List Tok) (js : List JTok)
    (h : rewriteToks ts = .ok js) :
    rewriteToks (Tok.eqTok :: ts) = .ok (JTok.colon :: js) := by
  show (fun js => JTok.colon :: js) <$> rewriteToks ts = _
  rw [h]
  rfl

/-- Helper: the value mode of the classic parser rejects an empty token
stream at every fuel. -/
theorem parseStep_value_nil (g d : Nat) :
    ∃ e, parseStep g d .value [] = .error e := by
  cases g with
  | zero => exact ⟨_, rfl⟩
  | succ g => exact ⟨_, rfl⟩

/-- Helper: on a stream not starting with a closing parenthesis the
element mode of the classic parser falls through to the value parse. -/
theorem parseStep_elems_fall (g d : Nat) (ts : List Tok)
    (hne : ∀ ts1, ts ≠ Tok.rparen :: ts1) :
    parseStep (g + 1) d .elems ts =
      (match parseStep g d .value ts with
        | .error e => .error e
        | .ok (v, ts1) =>
          match ts1 with
          | Tok.rparen :: ts2 => .ok (.arr (.cons v .nil), ts2)
          | Tok.comma :: ts2 =>
            match parseStep g d .elems ts2 with
            | .error e => .error e
            | .ok (.arr es, ts3) => .ok (.arr (.cons v es), ts3)
            | .ok _ => .error .badToken
          | _ => .error .badToken) := by
  cases ts with
  | nil => rfl
  | cons t ts1 =>
    cases t with
    | rparen => exact absurd rfl (hne ts1)
    | _ => rfl

/-- Helper: at every fuel level the JSON rewrite is sound for the classic
parser in all three modes: whatever the classic parser accepts, the
rewrite turns the consumed tokens into exactly the JSON token stream of
the resulting tree. -/
theorem rwSound (f : Nat) : RWV f ∧ RWEn f ∧ RWEl f := by
  induction f with
  | zero =>
    refine ⟨?_, ?_, ?_⟩ <;> (intro d ts v rest h; simp [parseStep] at h)
  | succ g ih =>
    obtain ⟨ihV, ihEn, ihEl⟩ := ih
    refine ⟨?_, ?_, ?_⟩
    · intro d ts v rest h hdf
      cases ts with
      | nil => simp [parseStep] at h
      | cons t0 ts1 =>
        cases t0 with
        | str s =>
          simp only [parseStep, Except.ok.injEq, Prod.mk.injEq] at h
          obtain ⟨hv1, hr1⟩ := h
          subst hv1
          subst hr1
          refine ⟨[Tok.str s], rfl,
            ⟨Tok.str s, [], rfl, tok_beq_false (by simp),
              tok_beq_false (by simp)⟩, ?_⟩
          intro rest2 jrest hr2
          simpa [jtoksV] using rewriteToks_strT s rest2 jrest hr2
        | blob bs =>
          simp only [parseStep, Except.ok.injEq, Prod.mk.injEq] at h
          obtain ⟨hv1, hr1⟩ := h
          subst hv1
          simp [dataFreeV] at hdf
        | lbrace =>
          simp only [parseStep] at h
          by_cases hd0 : maxdepth ≤ d
          · rw [if_pos hd0] at h
            exact absurd h (by simp)
          · rw [if_neg hd0] at h
            obtain ⟨es, p1, hw, hts, hnil, hcons, hrw⟩ := ihEn (d + 1) ts1 v rest h hdf
            subst hw
            refine ⟨Tok.lbrace :: p1, by simp [hts],
              ⟨Tok.lbrace, p1, rfl, by decide, by decide⟩, ?_⟩
            intro rest2 jrest hr2
            have h2 := rewriteToks_lbraceT (p1 ++ rest2) _ (hrw rest2 jrest hr2)
            simpa [jtoksV, List.append_assoc] using h2
        | lparen =>
          simp only [parseStep] at h
          by_cases hd0 : maxdepth ≤ d
          · rw [if_pos hd0] at h
            exact absurd h (by simp)
          · rw [if_neg hd0] at h
            obtain ⟨es, p1, hw, hts, hnil, hcons, hrw⟩ := ihEl (d + 1) ts1 v rest h hdf
            subst hw
            refine ⟨Tok.lparen :: p1, by simp [hts],
              ⟨Tok.lparen, p1, rfl, by decide, by decide⟩, ?_⟩
            intro rest2 jrest hr2
            have h2 := rewriteToks_lparenT (p1 ++ rest2) _ (hrw rest2 jrest hr2)
            simpa [jtoksV, List.append_assoc] using h2
        | _ => simp [parseStep] at h
    · intro d ts w rest h hdf
      cases ts with
      | nil => simp [parseStep] at h
      | cons t0 ts1 =>
        cases t0 with
        | rbrace =>
          simp only [parseStep, Except.ok.injEq, Prod.mk.injEq] at h
          obtain ⟨hw, hr⟩ := h
          subst hw
          subst hr
          refine ⟨.nil, [Tok.rbrace], rfl, rfl, fun _ => rfl, ?_, ?_⟩
          · intro k2 v0 tl hx
            exact absurd hx (by simp)
          intro rest2 jrest hr2
          simpa [jtoksEn] using rewriteToks_rbraceT rest2 jrest hr2
        | str k =>
          cases ts1 with
          | nil => simp [parseStep] at h
          | cons t1 ts2 =>
            cases t1 with
            | eqTok =>
              simp only [parseStep] at h
              cases hvp : parseStep g d PMode.value ts2 with
              | error e =>
                rw [hvp] at h
                exact absurd h (by simp)
              | ok pr1 =>
                obtain ⟨v, ts3⟩ := pr1
                rw [hvp] at h
                cases ts3 with
                | nil => exact absurd h (by simp)
                | cons t2 ts4 =>
                  cases t2 with
                  | semi =>
                    simp only [] at h
                    cases hep : parseStep g d PMode.entries ts4 with
                    | error e =>
                      rw [hep] at h
                      exact absurd h (by simp)
                    | ok pr2 =>
                      obtain ⟨w2, rest1⟩ := pr2
                      rw [hep] at h
                      cases w2 with
                      | dict es2 =>
                        simp only [Except.ok.injEq, Prod.mk.injEq] at h
                        obtain ⟨hw, hr⟩ := h
                        subst hw
                        subst hr
                        have hdv : dataFreeV v = true := by
                          simp only [dataFreeV, dataFreeEn, Bool.and_eq_true] at hdf
                          exact hdf.1
                        have hdes : dataFreeV (.dict es2) = true := by
                          simp only [dataFreeV, dataFreeEn, Bool.and_eq_true] at hdf ⊢
                          exact hdf.2
                        obtain ⟨pv, htsv, ⟨h0, pvr, hpv, hne1, hne2⟩, hrwv⟩ :=
                          ihV d ts2 v (Tok.semi :: ts4) hvp hdv
                        obtain ⟨es2x, pe, hwx, htse, hnil2, hcons2, hrwe⟩ :=
                          ihEn d ts4 (.dict es2) rest1 hep hdes
                        have hesx : es2 = es2x := by
                          simpa using hwx
                        subst hesx
                        refine ⟨.cons k v es2, Tok.str k :: Tok.eqTok :: (pv ++ Tok.semi :: pe),
                          rfl, ?_, ?_, ?_, ?_⟩
                        · simp [htsv, htse, List.append_assoc]
                        · intro hx
                          exact absurd hx (by simp)
                        · intro k2 v0 tl hx
                          injection hx with hk2 hv0 htl2
                          subst hk2
                          exact ⟨_, rfl⟩
                        · intro rest2 jrest hr2
                          cases es2 with
                          | nil =>
                            have hpe := hnil2 rfl
                            subst hpe
                            have hin := hrwe rest2 jrest hr2
                            have hsm : rewriteToks (Tok.semi :: ([Tok.rbrace] ++ rest2)) =
                                .ok ((jtoksEn .nil ++ [JTok.rb]) ++ jrest) := by
                              rw [show rewriteToks (Tok.semi :: ([Tok.rbrace] ++ rest2)) =
                                  rewriteToks (Tok.rbrace :: rest2) from rfl]
                              simpa using hin
                            have hv2 := hrwv (Tok.semi :: ([Tok.rbrace] ++ rest2)) _ hsm
                            have h3 := rewriteToks_strT k _ _ (rewriteToks_eqTokT _ _ hv2)
                            simpa [jtoksEn, List.append_assoc] using h3
                          | cons k3 v3 tl3 =>
                            obtain ⟨pr3, hpe⟩ := hcons2 k3 v3 tl3 rfl
                            have hin := hrwe rest2 jrest hr2
                            have hsm : rewriteToks (Tok.semi :: (pe ++ rest2)) =
                                .ok (JTok.comma ::
                                  ((jtoksEn (.cons k3 v3 tl3) ++ [JTok.rb]) ++ jrest)) := by
                              refine rewriteToks_semi _ _ hin ?_
                              intro ts1x hx
                              rw [hpe] at hx
                              simp at hx
                            have hv2 := hrwv (Tok.semi :: (pe ++ rest2)) _ hsm
                            have h3 := rewriteToks_strT k _ _ (rewriteToks_eqTokT _ _ hv2)
                            simpa [jtoksEn, List.append_assoc] using h3
                      | str s2 =>
                        exact absurd h (by simp)
                      | data bs2 =>
                        exact absurd h (by simp)
                      | arr es2 =>
                        exact absurd h (by simp)
                  | _ => exact absurd h (by simp)
            | _ => simp [parseStep] at h
        | lbrace =>
          simp only [parseStep] at h
          cases hvp : parseStep g d PMode.value (Tok.lbrace :: ts1) with
          | error e =>
            rw [hvp] at h
            exact absurd h (by simp)
          | ok pr1 =>
            rw [hvp] at h
            exact absurd h (by simp)
        | lparen =>
          simp only [parseStep] at h
          cases hvp : parseStep g d PMode.value (Tok.lparen :: ts1) with
          | error e =>
            rw [hvp] at h
            exact absurd h (by simp)
          | ok pr1 =>
            rw [hvp] at h
            exact absurd h (by simp)
        | _ => simp [parseStep] at h
    · intro d ts w rest h hdf
      by_cases hrp : ∃ ts1, ts = Tok.rparen :: ts1
      · obtain ⟨ts1, rfl⟩ := hrp
        simp only [parseStep, Except.ok.injEq, Prod.mk.injEq] at h
        obtain ⟨hw, hr⟩ := h
        subst hw
        subst hr
        refine ⟨.nil, [Tok.rparen], rfl, rfl, fun _ => rfl, ?_, ?_⟩
        · intro v0 tl hx
          exact absurd hx (by simp)
        intro rest2 jrest hr2
        simpa [jtoksEl] using rewriteToks_rparenT rest2 jrest hr2
      · have hne : ∀ ts1, ts ≠ Tok.rparen :: ts1 := fun ts1 hx => hrp ⟨ts1, hx⟩
        rw [parseStep_elems_fall g d ts hne] at h
        cases hvp : parseStep g d PMode.value ts with
        | error e =>
          rw [hvp] at h
          exact absurd h (by simp)
        | ok pr1 =>
          obtain ⟨v, ts3⟩ := pr1
          rw [hvp] at h
          cases ts3 with
          | nil => exact absurd h (by simp)
          | cons t2 ts4 =>
            cases t2 with
            | rparen =>
              simp only [Except.ok.injEq, Prod.mk.injEq] at h
              obtain ⟨hw, hr⟩ := h
              subst hw
              subst hr
              have hdv : dataFreeV v = true := by
                simp only [dataFreeV, dataFreeEl, Bool.and_eq_true] at hdf
                exact hdf.1
              obtain ⟨pv, htsv, ⟨h0, pvr, hpv, hne1, hne2⟩, hrwv⟩ :=
                ihV d ts v (Tok.rparen :: ts4) hvp hdv
              refine ⟨.cons v .nil, pv ++ [Tok.rparen], rfl, ?_, ?_, ?_, ?_⟩
              · simp [htsv, List.append_assoc]
              · intro hx
                exact absurd hx (by simp)
              · intro v0 tl hx
                exact ⟨h0, pvr ++ [Tok.rparen], by simp [hpv], hne1, hne2⟩
              · intro rest2 jrest hr2
                have hrp2 := rewriteToks_rparenT rest2 jrest hr2
                have hv2 := hrwv (Tok.rparen :: rest2) _ hrp2
                simpa [jtoksEl, List.append_assoc] using hv2
            | comma =>
              simp only [] at h
              cases hep : parseStep g d PMode.elems ts4 with
              | error e =>
                rw [hep] at h
                exact absurd h (by simp)
              | ok pr2 =>
                obtain ⟨w2, rest1⟩ := pr2
                rw [hep] at h
                cases w2 with
                | arr es2 =>
                  simp only [Except.ok.injEq, Prod.mk.injEq] at h
                  obtain ⟨hw, hr⟩ := h
                  subst hw
                  subst hr
                  have hdv : dataFreeV v = true := by
                    simp only [dataFreeV, dataFreeEl, Bool.and_eq_true] at hdf
                    exact hdf.1
                  have hdes : dataFreeV (.arr es2) = true := by
                    simp only [dataFreeV, dataFreeEl, Bool.and_eq_true] at hdf ⊢
                    exact hdf.2
                  obtain ⟨pv, htsv, ⟨h0, pvr, hpv, hne1, hne2⟩, hrwv⟩ :=
                    ihV d ts v (Tok.comma :: ts4) hvp hdv
                  obtain ⟨es2x, pe, hwx, htse, hnil2, hcons2, hrwe⟩ :=
                    ihEl d ts4 (.arr es2) rest1 hep hdes
                  have hesx : es2 = es2x := by
                    simpa using hwx
                  subst hesx
                  refine ⟨.cons v es2, pv ++ Tok.comma :: pe, rfl, ?_, ?_, ?_, ?_⟩
                  · simp [htsv, htse, List.append_assoc]
                  · intro hx
                    exact absurd hx (by simp)
                  · intro v0 tl hx
                    exact ⟨h0, pvr ++ Tok.comma :: pe, by simp [hpv], hne1, hne2⟩
                  · intro rest2 jrest hr2
                    cases es2 with
                    | nil =>
                      have hpe := hnil2 rfl
                      subst hpe
                      have hin := hrwe rest2 jrest hr2
                      have hcm : rewriteToks (Tok.comma :: ([Tok.rparen] ++ rest2)) =
                          .ok ((jtoksEl .nil ++ [JTok.rk]) ++ jrest) := by
                        rw [show rewriteToks (Tok.comma :: ([Tok.rparen] ++ rest2)) =
                            rewriteToks (Tok.rparen :: rest2) from rfl]
                        simpa using hin
                      have hv2 := hrwv (Tok.comma :: ([Tok.rparen] ++ rest2)) _ hcm
                      simpa [jtoksEl, List.append_assoc] using hv2
                    | cons v3 tl3 =>
                      obtain ⟨h3, pr3, hpe, hne3, hne4⟩ := hcons2 v3 tl3 rfl
                      have hin := hrwe rest2 jrest hr2
                      have hcm : rewriteToks (Tok.comma :: (pe ++ rest2)) =
                          .ok (JTok.comma ::
                            ((jtoksEl (.cons v3 tl3) ++ [JTok.rk]) ++ jrest)) := by
                        refine rewriteToks_comma _ _ hin ?_
                        intro ts1x hx
                        rw [hpe] at hx
                        simp only [List.cons_append] at hx
                        injection hx with hh1 hh2
                        rw [hh1] at hne3
                        simp at hne3
                      have hv2 := hrwv (Tok.comma :: (pe ++ rest2)) _ hcm
                      simpa [jtoksEl, List.append_assoc] using hv2
                | str s2 =>
                  exact absurd h (by simp)
                | data bs2 =>
                  exact absurd h (by simp)
                | dict es2 =>
                  exact absurd h (by simp)
            | _ => exact absurd h (by simp)

/-- Helper: every input the classic parser reads to a data-free tree is
read by the fast parser to the same tree. -/
theorem classic_implies_fast (cs : List Char) (t : Value)
    (hdf : dataFreeV t = true) (hc : classicParse cs = .ok t) :
    fastParse cs = .ok t := by
  simp only [classicParse] at hc
  cases htk : tokenize cs with
  | error e =>
    rw [htk] at hc
    exact absurd hc (by simp)
  | ok ts =>
    rw [htk] at hc
    simp only [] at hc
    cases hps : parseStep (2 * ts.length + 8) 0 PMode.value ts with
    | error e =>
      rw [hps] at hc
      exact absurd hc (by simp)
    | ok pr1 =>
      obtain ⟨v, rem⟩ := pr1
      rw [hps] at hc
      cases rem with
      | cons x xs => exact absurd hc (by simp)
      | nil =>
        simp only [Except.ok.injEq] at hc
        subst hc
        obtain ⟨p, htsp, _, hrw⟩ := (rwSound (2 * ts.length + 8)).1 0 ts v [] hps hdf
        rw [List.append_nil] at htsp
        subst htsp
        have hrt : rewriteToks ts = .ok (jtoksV v) := by
          have := hrw [] [] (by rfl)
          simpa using this
        simp only [fastParse]
        rw [htk]
        simp only []
        rw [hrt]
        simp only []
        have hp : jparseStep (2 * (jtoksV v).length + 8) .value (jtoksV v ++ []) =
            .ok (v, []) :=
          jparseV v (2 * (jtoksV v).length + 8) [] hdf (by omega)
        rw [List.append_nil] at hp
        rw [hp]

/-- C2: for the international sample, parsing the pbxproj, XML and JSON
reference forms with the matching formats produces the same tree and
re-emitting that tree in each format reproduces the reference bytes; and
on every xcode-format input the classic parser reads to a data-free tree,
the fast parser returns the identical result, tree and parse info. -/
theorem intl_format_equivalence_and_parser_agreement :
    ((parse (some Fmt.xcode) PType.normal (unparse Fmt.xcode noComments intlSample)).1 =
        some intlSample ∧
      (parse (some Fmt.xml) PType.normal (unparse Fmt.xml noComments intlSample)).1 =
        some intlSample ∧
      (parse (some Fmt.json) PType.normal (unparse Fmt.json noComments intlSample)).1 =
        some intlSample) ∧
    ((parse (some Fmt.xcode) PType.normal (unparse Fmt.xcode noComments intlSample)).1.map
        (unparse Fmt.xcode noComments) = some (unparse Fmt.xcode noComments intlSample) ∧
      (parse (some Fmt.xml) PType.normal (unparse Fmt.xml noComments intlSample)).1.map
        (unparse Fmt.xml noComments) = some (unparse Fmt.xml noComments intlSample) ∧
      (parse (some Fmt.json) PType.normal (unparse Fmt.json noComments intlSample)).1.map
        (unparse Fmt.json noComments) = some (unparse Fmt.json noComments intlSample)) ∧
    (∀ (cs : List Char) (u : Value),
      (parse (some Fmt.xcode) PType.classic cs).1 = some u → dataFreeV u = true →
      parse (some Fmt.xcode) PType.classic cs = parse (some Fmt.xcode) PType.fast cs) := by
  refine ⟨⟨by decide, by decide, by decide⟩, ⟨by decide, by decide, by decide⟩, ?_⟩
  intro cs u h1 h2
  have hcl : classicParse cs = .ok u := by
    simp only [parse, parseXcode] at h1
    cases hc : classicParse cs with
    | error e =>
      rw [hc] at h1
      simp at h1
    | ok v =>
      rw [hc] at h1
      simp at h1
      subst h1
      rfl
  have hfa : fastParse cs = .ok u := classic_implies_fast cs u h2 hcl
  simp [parse, parseXcode, hcl, hfa]

theorem intl_format_equivalence_and_parser_agreement_check :
    (parse (some Fmt.xcode) PType.classic (tmpl "an_array  = (1 ,  2  ,  3);")).1 =
        some (tmplTree "an_array" arr123) ∧
    dataFreeV (tmplTree "an_array" arr123) = true ∧
    parse (some Fmt.xcode) PType.classic (tmpl "an_array  = (1 ,  2  ,  3);") =
      parse (some Fmt.xcode) PType.fast (tmpl "an_array  = (1 ,  2  ,  3);") := by
  refine ⟨by decide, by decide, ?_⟩
  exact intl_format_equivalence_and_parser_agreement.2.2
    (tmpl "an_array  = (1 ,  2  ,  3);") (tmplTree "an_array" arr123)
    (by decide) (by decide)

/-- C3: for every input, format choice and parser type, parse returns the
pair of optional tree and parse info, and the tree is the absent value
exactly when a diagnostic is recorded in the parse info: failure never
leaves a partially built tree and the error is delivered through the
parse info, never by raising. -/
theorem parse_failure_absent_tree_iff_diagnostic (fmt : Option Fmt) (pt : PType)
    (cs : List Char) :
    (parse fmt pt cs).1 = none ↔ (parse fmt pt cs).2.err.isSome := by
  unfold parse
  cases hf : (match fmt with | some f => Except.ok f | none => detectFmt cs) with
  | error e => simp
  | ok f =>
    cases hr : (match f with
                | Fmt.xcode => parseXcode pt cs
                | Fmt.xml => xmlParse cs
                | Fmt.json => jsonParse cs) with
    | ok v => simp [hr]
    | error e => simp [hr]

/-- C4: parsing follows the trailing-separator rules: with the default
parser, a dictionary entry without its terminating semicolon fails to
parse, an array may omit only the trailing comma before the closing
parenthesis — both the form with and without the trailing comma parse to
the three-element string sequence — and an array without separators
between its elements fails to parse. -/
theorem trailing_separator_rules :
    (parse none .normal (tmpl "a_dictionary = \x7b KEY = VALUE \x7d;")).1 = none ∧
    (parse none .normal (tmpl "an_array = (1, 2, 3,);")).1 = some (tmplTree "an_array" arr123) ∧
    (parse none .normal (tmpl "an_array = (1, 2, 3);")).1 = some (tmplTree "an_array" arr123) ∧
    (parse none .normal (tmpl "an_array = (1 2 3);")).1 = none :=
  ⟨rfl, rfl, rfl, rfl⟩

/-- C6: the classic parser bounds its recursion depth: an input with two
hundred nested opening parentheses or braces fails with the specific
recursion-limit error and an absent tree instead of crashing. -/
theorem classic_parser_recursion_limit :
    classicParse nested200Parens = .error .recursionLimit ∧
    classicParse nested200Braces = .error .recursionLimit ∧
    parse (some .xcode) .classic nested200Parens =
      (none, ⟨some .xcode, some .recursionLimit⟩) ∧
    parse (some .xcode) .classic nested200Braces =
      (none, ⟨some .xcode, some .recursionLimit⟩) :=
  ⟨rfl, rfl, rfl, rfl⟩

/-- C7: unparsing in xcode format canonicalizes whitespace: the tree
parsed from the loosely spaced array entry is emitted in multi-line form
with one tab per nesting level, each element on its own line followed by
a comma including the last, and exactly one space around the equals
sign. -/
theorem unparse_canonicalizes_whitespace :
    classicParse (tmpl "an_array  = (1 ,  2  ,  3);") = .ok (tmplTree "an_array" arr123) ∧
    unparsePlist noComments (tmplTree "an_array" arr123) =
      tmpl "\n\tan_array = (\n\t\t1,\n\t\t2,\n\t\t3,\n\t);" :=
  ⟨rfl, rfl⟩

/-- C8: gidsplit and gidfields decompose a twenty-four-hex-digit gid into
its fixed bit fields: the published gid yields the documented date — the
32-bit timestamp field read as seconds since 2001-01-01 00:00:00 UTC —
user 76, pid 199, random 10263932 and sequence 48708, and the gidsplit
text lines of the two published gids match the reference output. -/
theorem gid_decomposition :
    gidfields "4CC7BE4419880B9E009C9D7C".toList =
      some ⟨"2014-07-29T17:04:30Z".toList, 76, 199, 10263932, 48708⟩ ∧
    gidsplitLine "4CC7BE4419880B9E009C9D7C".toList =
      some "2014-07-29T17:04:30Z  76 199   10263932 48708 4CC7BE4419880B9E009C9D7C\n".toList ∧
    gidsplitLine "4CC7BE4719880BBC009C9D7C".toList =
      some "2014-07-29T17:05:00Z  76 199   10263932 48711 4CC7BE4719880BBC009C9D7C\n".toList :=
  ⟨rfl, rfl, rfl⟩

/-- C10: the command line convert action with more than one input file
name returns the error exit code one and writes nothing to the output. -/
theorem convert_multiple_filenames (fmt : Fmt) (ins : List (List Char))
    (h : 1 < ins.length) : runConvert fmt ins = (1, []) := by
  match ins with
  | [] => simp at h
  | [a] => simp at h
  | a :: b :: tl => rfl

/-- Witness for C10 at two concrete file names. -/
theorem convert_multiple_filenames_check :
    1 < (["a".toList, "b".toList] : List (List Char)).length ∧
      runConvert Fmt.xcode ["a".toList, "b".toList] = (1, []) :=
  ⟨by decide, convert_multiple_filenames Fmt.xcode ["a".toList, "b".toList] (by decide)⟩

/-- Helper: a generator driven by a linear injected clock emits, from any
state with call count one past n, the arithmetic sequence of gids: the
i-th emitted gid carries sequence counter sq plus i plus one and the
clock reading of call n plus one plus i. -/
theorem genGids_linear (u p sq salt t0 step : Nat) (k : Nat) :
    ∀ n, genGids k ⟨u, p, sq, salt, fun m => t0 + step * m, n + 1⟩ =
      (List.range k).map (fun i =>
        hex2 u ++ hex2 p ++ hex4 ((sq + (i + 1)) % 65536) ++
          hex8 ((t0 + step * (n + 1 + i)) % 4294967296) ++ hex8 salt) := by
  induction k generalizing sq with
  | zero => intro n; rfl
  | succ k ih =>
    intro n
    rw [List.range_succ_eq_map]
    simp only [genGids, XcodeIDGen.generate, List.map_cons, List.map_map]
    congr 1
    rw [ih ((sq + 1) % 65536) (n + 1)]
    apply List.map_congr_left
    intro i _
    have h1 : ((sq + 1) % 65536 + (i + 1)) % 65536 = (sq + (i + 1 + 1)) % 65536 := by
      rw [Nat.mod_add_mod]
      congr 1
      omega
    have h2 : n + 1 + 1 + i = n + 1 + (i + 1) := by omega
    simp [Function.comp, h1, h2]

/-- C9: gid generation is deterministic under an injected clock.  For
every choice of the user hash, the seeded pseudo-random generator and the
pid-derived sequence start (the spec defers all three to reference
vectors), a generator built over a clock that advances a fixed step per
reading emits gids whose sequence counter grows by exactly one per call
and whose timestamp field is the clock reading of that call — the
constructor consumes reading zero for the salt, so the first gid carries
reading one.  Instantiated at the published reference vector (user byte
76, salt 10263932, sequence start 48707, pid 56007, start time
2014-07-29 17:04:20 UTC, ten-second steps) the first four gids are
exactly the published sequence. -/
theorem gid_generation_deterministic (userhash : List Char → Nat)
    (prng seqinit : Nat → Nat) (username : List Char) (pid t0 step k : Nat) :
    genGids k (mkGen userhash prng seqinit username pid (fun n => t0 + step * n)) =
      (List.range k).map (fun i =>
        hex2 (userhash username % 256) ++ hex2 (pid % 256) ++
          hex4 ((seqinit pid % 65536 + (i + 1)) % 65536) ++
          hex8 ((t0 + step * (i + 1)) % 4294967296) ++ hex8 (prng t0 % 4294967296)) ∧
    genGids 4 (mkGen (fun _ => 76) (fun _ => 10263932) (fun _ => 48707)
        "unrecompiled".toList 56007 (fun n => 428346260 + 10 * n)) =
      ["4CC7BE4419880B9E009C9D7C".toList, "4CC7BE4519880BA8009C9D7C".toList,
        "4CC7BE4619880BB2009C9D7C".toList, "4CC7BE4719880BBC009C9D7C".toList] ∧
    dateStr 428346260 = "2014-07-29T17:04:20Z".toList := by
  refine ⟨?_, rfl, rfl⟩
  have h := genGids_linear (userhash username % 256) (pid % 256) (seqinit pid % 65536)
    (prng t0 % 4294967296) t0 step k 0
  simpa [mkGen, Nat.add_comm] using h

/-- Helper: a character at or above 0x80 differs from every ASCII
character. -/
theorem charNe (c : Char) (h : 128 ≤ c.toNat) (d : Char) (hd : d.toNat < 128) :
    (c == d) = false := by
  simp only [beq_eq_false_iff_ne]
  rintro rfl
  omega

/-- Helper: a character at or above 0x80 is not tokenizer whitespace. -/
theorem notWs (c : Char) (h : 128 ≤ c.toNat) : isWs c = false := by
  unfold isWs
  simp [charNe c h ' ' (by decide), charNe c h '\t' (by decide), charNe c h '\n' (by decide),
    charNe c h '\r' (by decide)]

/-- Helper: a character at or above 0x80 is not an unquoted-string
character (spec 4.1). -/
theorem notUnquoted (c : Char) (h : 128 ≤ c.toNat) : isUnquotedChar c = false := by
  unfold isUnquotedChar
  have h1 : ¬ (c ≤ 'Z') := fun hle => by
    have hv : c.toNat ≤ 'Z'.toNat := hle
    have hz : 'Z'.toNat = 90 := by decide
    omega
  have h2 : ¬ (c ≤ 'z') := fun hle => by
    have hv : c.toNat ≤ 'z'.toNat := hle
    have hz : 'z'.toNat = 122 := by decide
    omega
  have h3 : ¬ (c ≤ '9') := fun hle => by
    have hv : c.toNat ≤ '9'.toNat := hle
    have hz : '9'.toNat = 57 := by decide
    omega
  simp [h1, h2, h3, charNe c h '_' (by decide), charNe c h '$' (by decide),
    charNe c h '/' (by decide), charNe c h ':' (by decide), charNe c h '.' (by decide),
    charNe c h '-' (by decide)]

/-- Helper: the tokenizer rejects the unquoted probe at the non-ASCII
character with the unexpected-byte error. -/
theorem probeTokU (c : Char) (h : 128 ≤ c.toNat) :
    tokenize (unquotedProbe c) = .error .unexpectedByte := by
  have hws := notWs c h
  have huq := notUnquoted c h
  simp +decide [tokenize, unquotedProbe, lexGo, headIs, List.takeWhile_cons,
    List.dropWhile_cons, hws, huq,
    charNe c h '/' (by decide), charNe c h '"' (by decide), charNe c h '<' (by decide),
    charNe c h (Char.ofNat 123) (by decide), charNe c h (Char.ofNat 125) (by decide),
    charNe c h '(' (by decide), charNe c h ')' (by decide), charNe c h '=' (by decide),
    charNe c h ';' (by decide), charNe c h ',' (by decide)]

/-- Helper: the tokenizer accepts the quoted probe and carries the
non-ASCII character through unchanged inside the string token. -/
theorem probeTokQ (c : Char) (h : 128 ≤ c.toNat) :
    tokenize (quotedProbe c) =
      .ok [Tok.lbrace, Tok.str ['n'], Tok.eqTok, Tok.str ['A', c], Tok.semi, Tok.rbrace] := by
  simp +decide [tokenize, quotedProbe, lexGo, lexStr, headIs, List.takeWhile_cons,
    List.dropWhile_cons, charNe c h '"' (by decide), charNe c h '\\' (by decide)]

/-- C5: an unquoted token containing a non-ASCII character (any character
at or above 0x80) is rejected by every parser type with an absent tree,
while the same character inside a double-quoted string parses successfully
with the string value preserved exactly. -/
theorem nonascii_unquoted_rejected_quoted_preserved (c : Char) (h : 128 ≤ c.toNat) :
    classicParse (unquotedProbe c) = .error .unexpectedByte ∧
    fastParse (unquotedProbe c) = .error .jsonFailed ∧
    (∀ pt, (parse none pt (unquotedProbe c)).1 = none) ∧
    classicParse (quotedProbe c) = .ok (probeTree c) ∧
    fastParse (quotedProbe c) = .ok (probeTree c) ∧
    (∀ pt, (parse none pt (quotedProbe c)).1 = some (probeTree c)) := by
  have hu := probeTokU c h
  have hq := probeTokQ c h
  have hcl : classicParse (unquotedProbe c) = .error .unexpectedByte := by
    unfold classicParse
    rw [hu]
  have hfa : fastParse (unquotedProbe c) = .error .jsonFailed := by
    unfold fastParse
    rw [hu]
  have hclq : classicParse (quotedProbe c) = .ok (probeTree c) := by
    unfold classicParse
    rw [hq]
    rfl
  have hfaq : fastParse (quotedProbe c) = .ok (probeTree c) := by
    unfold fastParse
    rw [hq]
    rfl
  have hdet : detectFmt (unquotedProbe c) = .ok .xcode := rfl
  have hdetq : detectFmt (quotedProbe c) = .ok .xcode := rfl
  refine ⟨hcl, hfa, ?_, hclq, hfaq, ?_⟩
  · intro pt
    cases pt <;> simp [parse, hdet, parseXcode, hcl, hfa]
  · intro pt
    cases pt <;> simp [parse, hdetq, parseXcode, hclq, hfaq]

/-- Witness for C5 at the green-apple emoji, a character above 0x80. -/
theorem nonascii_probe_check :
    128 ≤ '🍏'.toNat ∧ classicParse (unquotedProbe '🍏') = .error .unexpectedByte ∧
      classicParse (quotedProbe '🍏') = .ok (probeTree '🍏') :=
  ⟨by decide, (nonascii_unquoted_rejected_quoted_preserved '🍏' (by decide)).1,
    (nonascii_unquoted_rejected_quoted_preserved '🍏' (by decide)).2.2.2.1⟩


end Xcodeprojer
